import Mathlib

/-!
S3-FIFO cache (`src/s3_cache.hpp`, `src/cache.hpp`, `src/main.cpp`).

A shallow embedding of `cache::S3FifoCache<Key, Value>`.

* `std::shared_ptr<S3FifoNode>` is a handle (a natural number) into an arena `heap`;
  the hash map `_table` and the three deques hold handles, so that a mutation made through
  one reference is seen through every other one, as in the source.
* `std::deque` is a `List` whose head is `front()` and whose last element is `back()`.
* `std::unordered_map<Key, TableNodePtr>` is an association list with at most one pair per key
  (`try_emplace` is only ever reached after a failed `find`).
* The `while` loops carry a fuel argument; `Run.fuel` is "the loop did not finish within the
  fuel", `Run.ub` is undefined behaviour of the C++ program (`back()` of an empty deque, use of
  an iterator to an erased element).
* `size_t` statistics counters wrap at `2 ^ 64`.
* `CurrentTime()` reads `std::clock()`; the value read is an argument `now` of `Get`.
-/

set_option linter.unusedSectionVars false

namespace cache

/-- The constant `kS3FifoMaxFreq`. -/
def kS3FifoMaxFreq : Int := 3

/-- Increment of a `size_t` counter (`++x`). -/
def incr (x : Nat) : Nat := (x + 1) % 2 ^ 64

/-- Modelled from the spec: the member `key` of `impl::S3FifoNode`. `EvictM` and `InsertG`
read `tail->key` / `item_ptr->key`, but the struct under `src/` declares only `value`,
`expire_time` and `freq`. The spec says a queue entry "retains key identity", so the node
carries the key under which `Get` created it. The other three fields are the source's. -/
structure S3FifoNode (Key Value : Type) where
  key : Key
  value : Value
  expire_time : Int
  freq : Int

/-- The method `S3FifoNode::Expired` (no caller in the repository). -/
def S3FifoNode.Expired {Key Value : Type} (n : S3FifoNode Key Value) (current_time : Int) :
    Bool :=
  decide (n.expire_time > current_time)

/-- Result of running code that contains loops. -/
inductive Run (α : Type) where
  | ret (a : α) : Run α
  | fuel : Run α
  | ub : Run α

/-- The settings fields of `S3FifoCache` that are fixed by the constructor. -/
structure Config where
  _ttl_sec : Int
  _small_fifo_size : Nat
  _main_fifo_size : Nat
  _cache_size_limit : Nat

/-- The expression `round(cache_size * _small_fifo_size_ratio)` with the ratio `0.1`, read in
exact arithmetic: `round` rounds half away from zero, so the result is `⌊(c + 5) / 10⌋`. The
source computes it in `double`; the two readings agree for every capacity below `2 ^ 50`. -/
def roundSmall (cache_size : Nat) : Nat := (cache_size + 5) / 10

/-- The constructor `S3FifoCache(cache_size, ttl_sec)`, settings part. -/
def S3FifoCache (cache_size : Nat) (ttl_sec : Int) : Config :=
  { _cache_size_limit := cache_size
    _small_fifo_size := roundSmall cache_size
    _main_fifo_size := cache_size - roundSmall cache_size
    _ttl_sec := ttl_sec }

/-- The mutable part of a `S3FifoCache` object, with the arena of nodes. -/
structure State (Key Value : Type) where
  heap : Nat → S3FifoNode Key Value
  next : Nat
  _small_fifo : List Nat
  _main_fifo : List Nat
  _ghost_fifo : List Nat
  _table : List (Key × Nat)
  _current_size : Nat
  _put_count : Nat
  _hit_count : Nat
  _hit_ghost_count : Nat
  _miss_count : Nat
  _removed_count : Nat

section Ops

variable {Key Value : Type} [DecidableEq Key]

/-- The state of a freshly constructed cache: empty queues, empty table, counters zero. No
node is allocated yet; the cells of the arena hold a default node that no handle refers to. -/
def State.init [Inhabited Key] [Inhabited Value] : State Key Value :=
  { heap := fun _ => ⟨default, default, 0, 0⟩
    next := 0
    _small_fifo := []
    _main_fifo := []
    _ghost_fifo := []
    _table := []
    _current_size := 0
    _put_count := 0
    _hit_count := 0
    _hit_ghost_count := 0
    _miss_count := 0
    _removed_count := 0 }

/-- The lookup `_table.find(key)`: the handle stored under `key`, if any. -/
def find : List (Key × Nat) → Key → Option Nat
  | [], _ => none
  | (k, p) :: t, key => if k = key then some p else find t key

/-- The call `_table.erase(key)`. -/
def erase (t : List (Key × Nat)) (key : Key) : List (Key × Nat) :=
  t.filter (fun e => decide (e.1 ≠ key))

/-- Assignment `p->freq = f`. -/
def setFreq (s : State Key Value) (p : Nat) (f : Int) : State Key Value :=
  { s with heap := Function.update s.heap p { s.heap p with freq := f } }

/-- Assignment `p->value = v`. -/
def setValue (s : State Key Value) (p : Nat) (v : Value) : State Key Value :=
  { s with heap := Function.update s.heap p { s.heap p with value := v } }

/-- The method `InsertS`. -/
def InsertS (s : State Key Value) (node_ptr : Nat) : State Key Value :=
  { s with _small_fifo := node_ptr :: s._small_fifo }

/-- The method `InsertM`. -/
def InsertM (s : State Key Value) (node_ptr : Nat) : State Key Value :=
  let s1 := setFreq s node_ptr 0
  { s1 with _main_fifo := node_ptr :: s1._main_fifo }

/-- The method `GhostIsFull`. -/
def GhostIsFull (cfg : Config) (s : State Key Value) : Bool :=
  decide (s._ghost_fifo.length ≥ cfg._main_fifo_size)

/-- The method `RemoveItem`. -/
def RemoveItem (s : State Key Value) (key : Key) : State Key Value :=
  { s with _removed_count := incr s._removed_count, _table := erase s._table key }

/-- The method `InsertG`. -/
def InsertG (cfg : Config) (s : State Key Value) (node_ptr : Nat) : Run (State Key Value) :=
  if GhostIsFull cfg s then
    match s._ghost_fifo.getLast? with
    | none => Run.ub
    | some item_ptr =>
      let s1 := { s with _ghost_fifo := s._ghost_fifo.dropLast }
      let s2 := if (s1.heap item_ptr).freq < 0 then RemoveItem s1 (s1.heap item_ptr).key else s1
      let s3 := setFreq s2 node_ptr (-1)
      Run.ret { s3 with _ghost_fifo := node_ptr :: s3._ghost_fifo }
  else
    let s3 := setFreq s node_ptr (-1)
    Run.ret { s3 with _ghost_fifo := node_ptr :: s3._ghost_fifo }

/-- The method `EvictM`: the loop `while (!_main_fifo.empty())`. -/
def EvictM : Nat → State Key Value → Run (State Key Value)
  | 0, _ => Run.fuel
  | n + 1, s =>
    match s._main_fifo.getLast? with
    | none => Run.ret s
    | some tail =>
      let s1 := { s with _main_fifo := s._main_fifo.dropLast }
      if (s1.heap tail).freq > 0 then
        let s2 := setFreq s1 tail ((s1.heap tail).freq - 1)
        EvictM n { s2 with _main_fifo := tail :: s2._main_fifo }
      else
        EvictM n (RemoveItem s1 (s1.heap tail).key)

/-- The method `EvictS`: the loop `while (!_small_fifo.empty())`. -/
def EvictS (cfg : Config) : Nat → State Key Value → Run (State Key Value)
  | 0, _ => Run.fuel
  | n + 1, s =>
    match s._small_fifo.getLast? with
    | none => Run.ret s
    | some tail =>
      let s1 := { s with _small_fifo := s._small_fifo.dropLast }
      if (s1.heap tail).freq > 0 then
        EvictS cfg n (InsertM s1 tail)
      else
        match InsertG cfg s1 tail with
        | Run.ret s2 => EvictS cfg n s2
        | Run.fuel => Run.fuel
        | Run.ub => Run.ub

/-- The method `EnsureFree`. The inner loops get the fuel that is left for the outer loop. -/
def EnsureFree (cfg : Config) : Nat → State Key Value → Run (State Key Value)
  | 0, _ => Run.fuel
  | n + 1, s =>
    if s._small_fifo.length + s._main_fifo.length ≥ cfg._cache_size_limit then
      if s._main_fifo.length ≥ cfg._main_fifo_size ∨ s._small_fifo.length = 0 then
        match EvictM n s with
        | Run.ret s1 => EnsureFree cfg n s1
        | Run.fuel => Run.fuel
        | Run.ub => Run.ub
      else
        match EvictS cfg n s with
        | Run.ret s1 => EnsureFree cfg n s1
        | Run.fuel => Run.fuel
        | Run.ub => Run.ub
    else Run.ret s

/-- The method `Get`. `DoGetByKey` is the pure virtual value source, `now` is what
`CurrentTime()` returns in this call. The result is the `std::optional<Value>` returned. -/
def Get (DoGetByKey : Key → Value) (cfg : Config) (fuel : Nat) (s : State Key Value)
    (key : Key) (now : Int) : Run (State Key Value × Option Value) :=
  match find s._table key with
  | none =>
    let s1 := { s with _miss_count := incr s._miss_count }
    let node : S3FifoNode Key Value := ⟨key, DoGetByKey key, now + cfg._ttl_sec, 0⟩
    let node_ptr := s1.next
    let s2 := { s1 with heap := Function.update s1.heap node_ptr node, next := node_ptr + 1,
                        _table := (key, node_ptr) :: s1._table }
    match EnsureFree cfg fuel s2 with
    | Run.ret s3 =>
      match find s3._table key with
      | none => Run.ub
      | some q =>
        let s4 := InsertS s3 q
        Run.ret (s4, some (s4.heap q).value)
    | Run.fuel => Run.fuel
    | Run.ub => Run.ub
  | some p =>
    if (s.heap p).freq = -1 then
      let s1 := { s with _hit_ghost_count := incr s._hit_ghost_count,
                         _miss_count := incr s._miss_count }
      let s2 := setFreq (setValue s1 p (DoGetByKey key)) p 0
      match EnsureFree cfg fuel s2 with
      | Run.ret s3 =>
        match find s3._table key with
        | none => Run.ub
        | some q =>
          let s4 := InsertM s3 q
          Run.ret (s4, some (s4.heap q).value)
      | Run.fuel => Run.fuel
      | Run.ub => Run.ub
    else
      let s1 := { s with _hit_count := incr s._hit_count }
      let s2 := if (s1.heap p).freq ≠ kS3FifoMaxFreq then setFreq s1 p ((s1.heap p).freq + 1) else s1
      Run.ret (s2, some (s2.heap p).value)

/-- The method `Has`. -/
def Has (s : State Key Value) (key : Key) : Bool :=
  (find s._table key).isSome

/-- The method `Delete`: its body is empty. -/
def Delete (s : State Key Value) (_key : Key) : State Key Value :=
  s

/-- States a cache built with settings `cfg` can be in between two public calls of `Get`. -/
inductive Reachable [Inhabited Key] [Inhabited Value] (DoGetByKey : Key → Value) (cfg : Config) :
    State Key Value → Prop where
  | init : Reachable DoGetByKey cfg State.init
  | get {s s1 : State Key Value} {fuel : Nat} {key : Key} {now : Int} {v : Option Value} :
      Reachable DoGetByKey cfg s → Get DoGetByKey cfg fuel s key now = Run.ret (s1, v) →
      Reachable DoGetByKey cfg s1

/-- A sequence of `Get` calls, each with the clock value it reads; the returned values are
dropped. -/
def GetAll (DoGetByKey : Key → Value) (cfg : Config) (fuel : Nat) :
    State Key Value → List (Key × Int) → Run (State Key Value)
  | s, [] => Run.ret s
  | s, (key, now) :: rest =>
    match Get DoGetByKey cfg fuel s key now with
    | Run.ret (s1, _) => GetAll DoGetByKey cfg fuel s1 rest
    | Run.fuel => Run.fuel
    | Run.ub => Run.ub

end Ops

/-- The value source of `SquareCache` in `main.cpp`. -/
def SquareCache.DoGetByKey (key : Int) : Int := key * key

/-- A call sequence over `int64_t` keys in which every call reads the clock value `0`;
`calls [1, 2, 3]` is `cache.Get(1); cache.Get(2); cache.Get(3);` of `main.cpp`. -/
def calls (ks : List Int) : List (Int × Int) := ks.map (fun k => (k, 0))

/-- The state `Get` hands to `EnsureFree` on a cold miss: the miss is counted, a node for
`key` is allocated at `s.next` and `try_emplace` has put it in `_table`. -/
def coldState {Key Value : Type} (DoGetByKey : Key → Value) (cfg : Config)
    (s : State Key Value) (key : Key) (now : Int) : State Key Value :=
  { s with _miss_count := incr s._miss_count,
           heap := Function.update s.heap s.next ⟨key, DoGetByKey key, now + cfg._ttl_sec, 0⟩,
           next := s.next + 1,
           _table := (key, s.next) :: s._table }

/-- The state `Get` hands to `EnsureFree` on a ghost hit on the entry `p` of `key`: both
counters are bumped, the value is recomputed and the frequency is reset to 0. -/
def ghostState {Key Value : Type} (DoGetByKey : Key → Value) (s : State Key Value) (key : Key)
    (p : Nat) : State Key Value :=
  setFreq (setValue { s with _hit_ghost_count := incr s._hit_ghost_count,
                             _miss_count := incr s._miss_count } p (DoGetByKey key)) p 0

/-- States the cache object passes through: the states between two public calls (`idle`), and
inside a call of `Get` every state on which `EnsureFree` evaluates its loop test: the state
`Get` hands to it (`cold`, `ghost`) and the state after each `EvictM` or `EvictS` it calls
(`viaM`, `viaS`). `EvictM` and `EvictS` are private and run only on such states. -/
inductive Visited {Key Value : Type} [DecidableEq Key] [Inhabited Key] [Inhabited Value]
    (DoGetByKey : Key → Value) (cfg : Config) : State Key Value → Prop where
  | idle {s : State Key Value} : Reachable DoGetByKey cfg s → Visited DoGetByKey cfg s
  | cold {s : State Key Value} {key : Key} {now : Int} :
      Reachable DoGetByKey cfg s → find s._table key = none →
      Visited DoGetByKey cfg (coldState DoGetByKey cfg s key now)
  | ghost {s : State Key Value} {key : Key} {p : Nat} :
      Reachable DoGetByKey cfg s → find s._table key = some p → (s.heap p).freq = -1 →
      Visited DoGetByKey cfg (ghostState DoGetByKey s key p)
  | viaM {s s1 : State Key Value} {n : Nat} :
      Visited DoGetByKey cfg s →
      s._small_fifo.length + s._main_fifo.length ≥ cfg._cache_size_limit →
      (s._main_fifo.length ≥ cfg._main_fifo_size ∨ s._small_fifo.length = 0) →
      EvictM n s = Run.ret s1 → Visited DoGetByKey cfg s1
  | viaS {s s1 : State Key Value} {n : Nat} :
      Visited DoGetByKey cfg s →
      s._small_fifo.length + s._main_fifo.length ≥ cfg._cache_size_limit →
      ¬ (s._main_fifo.length ≥ cfg._main_fifo_size ∨ s._small_fifo.length = 0) →
      EvictS cfg n s = Run.ret s1 → Visited DoGetByKey cfg s1

/-- The test under which `EnsureFree` calls `EvictS` on the state `s`. -/
def CallsEvictS {Key Value : Type} (cfg : Config) (s : State Key Value) : Prop :=
  s._small_fifo.length + s._main_fifo.length ≥ cfg._cache_size_limit ∧
    ¬ (s._main_fifo.length ≥ cfg._main_fifo_size ∨ s._small_fifo.length = 0)

instance CallsEvictS.decidable {Key Value : Type} (cfg : Config) (s : State Key Value) :
    Decidable (CallsEvictS cfg s) :=
  (inferInstance : Decidable (_ ∧ _))

/-- One call `Has(key)` as a step on the cache: the method is `const` and its body writes no
field, so the state is handed on as it is, together with the answer. -/
def HasCall {Key Value : Type} [DecidableEq Key] (s : State Key Value) (key : Key) :
    State Key Value × Bool :=
  (s, Has s key)

/-- Calling `Has(key)` `n` times in a row: the state after the last call and the answers. -/
def HasTimes {Key Value : Type} [DecidableEq Key] :
    Nat → State Key Value → Key → State Key Value × List Bool
  | 0, s, _ => (s, [])
  | n + 1, s, key =>
    let r := HasCall s key
    let rest := HasTimes n r.1 key
    (rest.1, r.2 :: rest.2)

/-- The run `r` returns, and what it returns satisfies `P`. -/
def Run.holds {α : Type} (r : Run α) (P : α → Prop) : Prop :=
  match r with
  | Run.ret a => P a
  | Run.fuel => False
  | Run.ub => False

instance Run.decidableHolds {α : Type} (r : Run α) (P : α → Prop) [DecidablePred P] :
    Decidable (r.holds P) :=
  match r with
  | Run.ret a => (inferInstance : Decidable (P a))
  | Run.fuel => isFalse (fun h => h)
  | Run.ub => isFalse (fun h => h)

section Invariant

variable {Key Value : Type} [DecidableEq Key]

/-- Termination measure of the loop of `EvictM`: every pass either drops an element of
`_main_fifo` or lowers a positive frequency. -/
def mainWeight (s : State Key Value) : Nat :=
  (s._main_fifo.map (fun p => (s.heap p).freq.toNat + 1)).sum

/-- The representation invariant of the cache. `pend` is the entry a running `Get` has already
put in (or found in) `_table` but not yet pushed to a queue: `none` between two calls of `Get`,
`some (key, p)` while `EnsureFree` runs inside `Get`. -/
structure Inv (DoGetByKey : Key → Value) (s : State Key Value) (pend : Option (Key × Nat)) :
    Prop where
  keys_nodup : (s._table.map Prod.fst).Nodup
  tbl : ∀ k p, (k, p) ∈ s._table →
    (s.heap p).key = k ∧ (s.heap p).value = DoGetByKey k ∧ p < s.next
  q_lt : ∀ p, p ∈ s._small_fifo ∨ p ∈ s._main_fifo ∨ p ∈ s._ghost_fifo → p < s.next
  sm_nodup : (s._small_fifo ++ s._main_fifo).Nodup
  g_nodup : s._ghost_fifo.Nodup
  s_g : ∀ p, p ∈ s._small_fifo → p ∉ s._ghost_fifo
  sm_live : ∀ p, p ∈ s._small_fifo ∨ p ∈ s._main_fifo →
    0 ≤ (s.heap p).freq ∧ ((s.heap p).key, p) ∈ s._table
  g_live : ∀ p, p ∈ s._ghost_fifo → (s.heap p).freq < 0 → ((s.heap p).key, p) ∈ s._table
  tracked : ∀ k p, (k, p) ∈ s._table →
    p ∈ s._small_fifo ∨ p ∈ s._main_fifo ∨ (p ∈ s._ghost_fifo ∧ (s.heap p).freq < 0) ∨
      pend = some (k, p)
  pend_ok : ∀ k p, pend = some (k, p) →
    p ∉ s._small_fifo ∧ p ∉ s._main_fifo ∧ 0 ≤ (s.heap p).freq ∧ (k, p) ∈ s._table
  frange : ∀ p, -1 ≤ (s.heap p).freq ∧ (s.heap p).freq ≤ 3

/-- What the eviction code leaves alone: the arena size and the hit, ghost-hit and miss
counters. -/
def SameStats (s s1 : State Key Value) : Prop :=
  s1.next = s.next ∧ s1._hit_count = s._hit_count ∧
    s1._hit_ghost_count = s._hit_ghost_count ∧ s1._miss_count = s._miss_count

end Invariant

section Basics

variable {Key Value : Type} [DecidableEq Key]

theorem find_eq_some_mem {t : List (Key × Nat)} {k : Key} {p : Nat} (h : find t k = some p) :
    (k, p) ∈ t := by
  induction t with
  | nil => simp [find] at h
  | cons e t ih =>
    obtain ⟨k1, p1⟩ := e
    simp only [find] at h
    by_cases hk : k1 = k
    · simp [hk] at h; simp [hk, h]
    · simp [hk] at h; exact List.mem_cons_of_mem _ (ih h)

theorem find_eq_none_iff {t : List (Key × Nat)} {k : Key} :
    find t k = none ↔ ∀ p, (k, p) ∉ t := by
  induction t with
  | nil => simp [find]
  | cons e t ih =>
    obtain ⟨k1, p1⟩ := e
    simp only [find]
    by_cases hk : k1 = k
    · subst hk
      simp only [if_true]
      constructor
      · intro h; cases h
      · intro h; exact absurd (List.mem_cons_self _ _) (h p1)
    · simp only [hk, if_false, ih, List.mem_cons, Prod.mk.injEq, not_or, not_and]
      constructor
      · intro h p; exact ⟨fun e => absurd e.symm hk, h p⟩
      · intro h p; exact (h p).2

theorem mem_find_of_nodup {t : List (Key × Nat)} (hn : (t.map Prod.fst).Nodup) {k : Key} {p : Nat}
    (h : (k, p) ∈ t) : find t k = some p := by
  induction t with
  | nil => simp at h
  | cons e t ih =>
    obtain ⟨k1, p1⟩ := e
    simp only [List.map_cons, List.nodup_cons, List.mem_map, not_exists, not_and] at hn
    simp only [find]
    rcases List.mem_cons.1 h with h1 | h1
    · simp only [Prod.mk.injEq] at h1; simp [h1.1, h1.2]
    · have : k1 ≠ k := fun e => hn.1 (k, p) h1 e.symm
      simp [this]; exact ih hn.2 h1

theorem mem_erase_iff {t : List (Key × Nat)} {key k : Key} {p : Nat} :
    (k, p) ∈ erase t key ↔ (k, p) ∈ t ∧ k ≠ key := by
  simp [erase]

theorem erase_keys_nodup {t : List (Key × Nat)} (key : Key) (hn : (t.map Prod.fst).Nodup) :
    ((erase t key).map Prod.fst).Nodup := by
  unfold erase
  exact (List.Sublist.map _ (List.filter_sublist t)).nodup hn

theorem getLast?_split {l : List Nat} {a : Nat} (h : l.getLast? = some a) :
    l = l.dropLast ++ [a] := (List.dropLast_append_getLast? a h).symm

end Basics

section Frame
variable {Key Value : Type} [DecidableEq Key]

@[simp] theorem setFreq_key (s : State Key Value) (p q : Nat) (f : Int) :
    ((setFreq s p f).heap q).key = (s.heap q).key := by
  unfold setFreq; by_cases h : q = p
  · subst h; simp
  · simp [Function.update_noteq h]

@[simp] theorem setFreq_value (s : State Key Value) (p q : Nat) (f : Int) :
    ((setFreq s p f).heap q).value = (s.heap q).value := by
  unfold setFreq; by_cases h : q = p
  · subst h; simp
  · simp [Function.update_noteq h]

theorem setFreq_freq (s : State Key Value) (p q : Nat) (f : Int) :
    ((setFreq s p f).heap q).freq = if q = p then f else (s.heap q).freq := by
  unfold setFreq; by_cases h : q = p
  · subst h; simp
  · simp [Function.update_noteq h, h]

@[simp] theorem setFreq_freq_same (s : State Key Value) (p : Nat) (f : Int) :
    ((setFreq s p f).heap p).freq = f := by simp [setFreq_freq]

theorem setFreq_freq_other (s : State Key Value) {p q : Nat} (f : Int) (h : q ≠ p) :
    ((setFreq s p f).heap q).freq = (s.heap q).freq := by simp [setFreq_freq, h]

@[simp] theorem setFreq_table (s : State Key Value) (p : Nat) (f : Int) :
    (setFreq s p f)._table = s._table := rfl
@[simp] theorem setFreq_small (s : State Key Value) (p : Nat) (f : Int) :
    (setFreq s p f)._small_fifo = s._small_fifo := rfl
@[simp] theorem setFreq_main (s : State Key Value) (p : Nat) (f : Int) :
    (setFreq s p f)._main_fifo = s._main_fifo := rfl
@[simp] theorem setFreq_ghost (s : State Key Value) (p : Nat) (f : Int) :
    (setFreq s p f)._ghost_fifo = s._ghost_fifo := rfl
@[simp] theorem setFreq_next (s : State Key Value) (p : Nat) (f : Int) :
    (setFreq s p f).next = s.next := rfl

end Frame

section Preserve
variable {Key Value : Type} [DecidableEq Key] {D : Key → Value}

theorem Inv.table_inj {s : State Key Value} {pend} (h : Inv D s pend) {k1 k2 : Key} {p : Nat}
    (h1 : (k1, p) ∈ s._table) (h2 : (k2, p) ∈ s._table) : k1 = k2 := by
  rw [← (h.tbl k1 p h1).1, ← (h.tbl k2 p h2).1]

theorem Inv.table_fun {s : State Key Value} {pend} (h : Inv D s pend) {k : Key} {p1 p2 : Nat}
    (h1 : (k, p1) ∈ s._table) (h2 : (k, p2) ∈ s._table) : p1 = p2 := by
  have a := mem_find_of_nodup h.keys_nodup h1
  have b := mem_find_of_nodup h.keys_nodup h2
  rw [a] at b; exact Option.some.inj b

/-- One pass of the loop of `EvictM` that requeues the tail keeps the invariant. -/
theorem Inv.requeue {s : State Key Value} {pend} (h : Inv D s pend) {tail : Nat}
    (hl : s._main_fifo.getLast? = some tail) (hf : (s.heap tail).freq > 0) :
    Inv D { setFreq { s with _main_fifo := s._main_fifo.dropLast } tail ((s.heap tail).freq - 1)
            with _main_fifo := tail :: s._main_fifo.dropLast } pend := by
  have hM := getLast?_split hl
  have hmem : ∀ p, p ∈ s._main_fifo ↔ (p = tail ∨ p ∈ s._main_fifo.dropLast) := by
    intro p; rw [hM]; simp [or_comm]
  have hfr : ∀ p, 0 ≤ (s.heap p).freq →
      0 ≤ ((setFreq { s with _main_fifo := s._main_fifo.dropLast } tail
        ((s.heap tail).freq - 1)).heap p).freq := by
    intro p hp; rw [setFreq_freq]; split
    · omega
    · exact hp
  have hfr2 : ∀ p, ((setFreq { s with _main_fifo := s._main_fifo.dropLast } tail
        ((s.heap tail).freq - 1)).heap p).freq < 0 → (s.heap p).freq < 0 := by
    intro p hp; rw [setFreq_freq] at hp; split at hp
    · omega
    · exact hp
  constructor
  · exact h.keys_nodup
  · intro k p hp; simpa using h.tbl k p hp
  · intro p hp; simp only [setFreq_small, setFreq_ghost, setFreq_next, List.mem_cons] at hp ⊢
    apply h.q_lt; rw [hmem]; tauto
  · have := h.sm_nodup
    rw [hM] at this
    simp only [setFreq_small]
    refine (List.Perm.nodup_iff ?_).1 this
    exact List.Perm.append_left _ (List.perm_append_singleton _ _)
  · exact h.g_nodup
  · exact h.s_g
  · intro p hp
    simp only [setFreq_small, List.mem_cons, setFreq_key, setFreq_table] at hp ⊢
    have := h.sm_live p (by rw [hmem]; tauto)
    exact ⟨hfr p this.1, this.2⟩
  · intro p hp hlt
    simp only [setFreq_ghost, setFreq_key, setFreq_table] at hp ⊢
    exact h.g_live p hp (hfr2 p hlt)
  · intro k p hp
    simp only [setFreq_small, setFreq_ghost, List.mem_cons, setFreq_table] at hp ⊢
    rcases h.tracked k p hp with a | a | a | a
    · exact Or.inl a
    · right; left; exact (hmem p).1 a
    · by_cases e : p = tail
      · right; left; exact Or.inl e
      · right; right; left; refine ⟨a.1, ?_⟩
        rw [setFreq_freq_other _ _ e]; exact a.2
    · exact Or.inr (Or.inr (Or.inr a))
  · intro k p hp
    simp only [setFreq_small, List.mem_cons, setFreq_table]
    obtain ⟨a, b, c, d⟩ := h.pend_ok k p hp
    refine ⟨a, ?_, hfr p c, d⟩
    intro e; exact b ((hmem p).2 e)
  · intro p
    have := h.frange p
    rw [setFreq_freq]; split
    · have := h.frange tail; omega
    · exact this

end Preserve
section Preserve2
variable {Key Value : Type} [DecidableEq Key] {D : Key → Value}

theorem mem_of_getLast? {l : List Nat} {a : Nat} (h : l.getLast? = some a) : a ∈ l := by
  rw [getLast?_split h]; simp

theorem nodup_split_left {l m : List Nat} {a : Nat} (h : l.getLast? = some a)
    (hn : (l ++ m).Nodup) : a ∉ l.dropLast ∧ a ∉ m ∧ (l.dropLast ++ m).Nodup := by
  rw [getLast?_split h] at hn
  simp only [List.append_assoc, List.singleton_append] at hn
  have h1 := List.nodup_append.1 hn
  have h2 := List.nodup_cons.1 h1.2.1
  refine ⟨?_, h2.1, ?_⟩
  · intro ha; exact h1.2.2 ha (List.mem_cons_self _ _) 
  · refine List.nodup_append.2 ⟨h1.1, h2.2, ?_⟩
    intro x hx hx2; exact h1.2.2 hx (List.mem_cons_of_mem _ hx2)

theorem nodup_split_right {l m : List Nat} {a : Nat} (h : m.getLast? = some a)
    (hn : (l ++ m).Nodup) : a ∉ m.dropLast ∧ a ∉ l ∧ (l ++ m.dropLast).Nodup := by
  rw [getLast?_split h, ← List.append_assoc] at hn
  have h1 := List.nodup_append.1 hn
  refine ⟨?_, ?_, h1.1⟩
  · intro ha; exact h1.2.2 (List.mem_append_right _ ha) (List.mem_singleton_self _)
  · intro ha; exact h1.2.2 (List.mem_append_left _ ha) (List.mem_singleton_self _)

/-- One pass of the loop of `EvictM` that removes the tail keeps the invariant. -/
theorem Inv.removeM {s : State Key Value} {pend} (h : Inv D s pend) {tail : Nat}
    (hl : s._main_fifo.getLast? = some tail) (hf : ¬ (s.heap tail).freq > 0) :
    Inv D (RemoveItem { s with _main_fifo := s._main_fifo.dropLast } (s.heap tail).key) pend := by
  have hM := getLast?_split hl
  have htm : tail ∈ s._main_fifo := mem_of_getLast? hl
  have hsub : ∀ p, p ∈ s._main_fifo.dropLast → p ∈ s._main_fifo :=
    fun p hp => List.mem_of_mem_dropLast hp
  obtain ⟨hn1, hn2, hn3⟩ := nodup_split_right hl h.sm_nodup
  have htl := h.sm_live tail (Or.inr htm)
  have hkey : ∀ k p, (k, p) ∈ s._table → k = (s.heap tail).key → p = tail :=
    fun k p hp e => h.table_fun (e ▸ hp) htl.2
  constructor
  · exact erase_keys_nodup _ h.keys_nodup
  · intro k p hp; exact h.tbl k p (mem_erase_iff.1 hp).1
  · intro p hp; apply h.q_lt
    rcases hp with a | a | a
    · exact Or.inl a
    · exact Or.inr (Or.inl (hsub p a))
    · exact Or.inr (Or.inr a)
  · exact hn3
  · exact h.g_nodup
  · exact h.s_g
  · intro p hp
    have hp2 : p ∈ s._small_fifo ∨ p ∈ s._main_fifo := hp.imp id (hsub p)
    have := h.sm_live p hp2
    refine ⟨this.1, mem_erase_iff.2 ⟨this.2, ?_⟩⟩
    intro e
    have := hkey _ _ this.2 e
    subst this
    rcases hp with a | a
    · exact hn2 a
    · exact hn1 a
  · intro p hp hlt
    have := h.g_live p hp hlt
    refine mem_erase_iff.2 ⟨this, ?_⟩
    intro e
    have := hkey _ _ this e
    subst this
    change (s.heap p).freq < 0 at hlt
    omega
  · intro k p hp
    obtain ⟨hp1, hp2⟩ := mem_erase_iff.1 hp
    have hpt : p ≠ tail := by
      intro e; subst e; exact hp2 (h.table_inj hp1 htl.2)
    rcases h.tracked k p hp1 with a | a | a | a
    · exact Or.inl a
    · right; left
      rw [hM] at a
      rcases List.mem_append.1 a with b | b
      · exact b
      · exact absurd (List.mem_singleton.1 b) hpt
    · exact Or.inr (Or.inr (Or.inl a))
    · exact Or.inr (Or.inr (Or.inr a))
  · intro k p hp
    obtain ⟨a, b, c, d⟩ := h.pend_ok k p hp
    refine ⟨a, fun e => b (hsub p e), c, mem_erase_iff.2 ⟨d, ?_⟩⟩
    intro e
    have := hkey _ _ d e
    subst this
    exact b htm
  · exact h.frange

/-- The promoting pass of the loop of `EvictS` keeps the invariant. -/
theorem Inv.promote {s : State Key Value} {pend} (h : Inv D s pend) {tail : Nat}
    (hl : s._small_fifo.getLast? = some tail) :
    Inv D (InsertM { s with _small_fifo := s._small_fifo.dropLast } tail) pend := by
  have hS := getLast?_split hl
  have hts : tail ∈ s._small_fifo := mem_of_getLast? hl
  have hsub : ∀ p, p ∈ s._small_fifo.dropLast → p ∈ s._small_fifo :=
    fun p hp => List.mem_of_mem_dropLast hp
  obtain ⟨hn1, hn2, hn3⟩ := nodup_split_left hl h.sm_nodup
  have htl := h.sm_live tail (Or.inl hts)
  have htg := h.s_g tail hts
  unfold InsertM
  constructor
  · exact h.keys_nodup
  · intro k p hp; simpa using h.tbl k p hp
  · intro p hp
    simp only [setFreq_small, setFreq_main, setFreq_ghost, setFreq_next, List.mem_cons] at hp ⊢
    rcases hp with a | (a | a) | a
    · exact h.q_lt p (Or.inl (hsub p a))
    · subst a; exact h.q_lt p (Or.inl hts)
    · exact h.q_lt p (Or.inr (Or.inl a))
    · exact h.q_lt p (Or.inr (Or.inr a))
  · have := h.sm_nodup
    rw [hS] at this
    simpa using this
  · exact h.g_nodup
  · intro p hp; exact h.s_g p (hsub p hp)
  · intro p hp
    simp only [setFreq_small, setFreq_main, List.mem_cons, setFreq_key, setFreq_table] at hp ⊢
    have hp2 : p ∈ s._small_fifo ∨ p ∈ s._main_fifo := by
      rcases hp with a | a | a
      · exact Or.inl (hsub p a)
      · subst a; exact Or.inl hts
      · exact Or.inr a
    have := h.sm_live p hp2
    refine ⟨?_, this.2⟩
    rw [setFreq_freq]; split
    · exact le_refl _
    · exact this.1
  · intro p hp hlt
    simp only [setFreq_ghost, setFreq_key, setFreq_table] at hp ⊢
    have e : p ≠ tail := fun e => htg (e ▸ hp)
    rw [setFreq_freq_other _ _ e] at hlt
    exact h.g_live p hp hlt
  · intro k p hp
    simp only [setFreq_small, setFreq_main, setFreq_ghost, List.mem_cons, setFreq_table] at hp ⊢
    rcases h.tracked k p hp with a | a | a | a
    · rw [hS] at a
      rcases List.mem_append.1 a with b | b
      · exact Or.inl b
      · exact Or.inr (Or.inl (Or.inl (List.mem_singleton.1 b)))
    · exact Or.inr (Or.inl (Or.inr a))
    · have e : p ≠ tail := fun e => htg (e ▸ a.1)
      right; right; left
      refine ⟨a.1, ?_⟩
      rw [setFreq_freq_other _ _ e]; exact a.2
    · exact Or.inr (Or.inr (Or.inr a))
  · intro k p hp
    simp only [setFreq_small, setFreq_main, List.mem_cons, setFreq_table]
    obtain ⟨a, b, c, d⟩ := h.pend_ok k p hp
    have e : p ≠ tail := fun e => a (e ▸ hts)
    refine ⟨fun x => a (hsub p x), ?_, ?_, d⟩
    · intro x; rcases x with x | x
      · exact e x
      · exact b x
    · rw [setFreq_freq_other _ _ e]; exact c
  · intro p
    rw [setFreq_freq]; split
    · omega
    · exact h.frange p

end Preserve2
section Preserve3
variable {Key Value : Type} [DecidableEq Key] {D : Key → Value}

/-- Dropping a resurrected (non-ghost) tail from `_ghost_fifo` keeps the invariant. -/
theorem Inv.dropG_keep {s : State Key Value} {pend} (h : Inv D s pend) {item : Nat}
    (hl : s._ghost_fifo.getLast? = some item) (hf : ¬ (s.heap item).freq < 0) :
    Inv D { s with _ghost_fifo := s._ghost_fifo.dropLast } pend := by
  have hG := getLast?_split hl
  have hsub : ∀ p, p ∈ s._ghost_fifo.dropLast → p ∈ s._ghost_fifo :=
    fun p hp => List.mem_of_mem_dropLast hp
  constructor
  · exact h.keys_nodup
  · exact h.tbl
  · intro p hp; apply h.q_lt
    rcases hp with a | a | a
    · exact Or.inl a
    · exact Or.inr (Or.inl a)
    · exact Or.inr (Or.inr (hsub p a))
  · exact h.sm_nodup
  · exact (List.dropLast_sublist _).nodup h.g_nodup
  · intro p hp hg; exact h.s_g p hp (hsub p hg)
  · exact h.sm_live
  · intro p hp hlt; exact h.g_live p (hsub p hp) hlt
  · intro k p hp
    rcases h.tracked k p hp with a | a | a | a
    · exact Or.inl a
    · exact Or.inr (Or.inl a)
    · right; right; left
      refine ⟨?_, a.2⟩
      have := a.1
      rw [hG] at this
      rcases List.mem_append.1 this with b | b
      · exact b
      · have := List.mem_singleton.1 b
        subst this
        exact absurd a.2 hf
    · exact Or.inr (Or.inr (Or.inr a))
  · exact h.pend_ok
  · exact h.frange

/-- Dropping a ghost tail from `_ghost_fifo` and erasing its key keeps the invariant. -/
theorem Inv.dropG_remove {s : State Key Value} {pend} (h : Inv D s pend) {item : Nat}
    (hl : s._ghost_fifo.getLast? = some item) (hf : (s.heap item).freq < 0) :
    Inv D (RemoveItem { s with _ghost_fifo := s._ghost_fifo.dropLast } (s.heap item).key)
      pend := by
  have hG := getLast?_split hl
  have hig : item ∈ s._ghost_fifo := mem_of_getLast? hl
  have hsub : ∀ p, p ∈ s._ghost_fifo.dropLast → p ∈ s._ghost_fifo :=
    fun p hp => List.mem_of_mem_dropLast hp
  have hit := h.g_live item hig hf
  have hnd : item ∉ s._ghost_fifo.dropLast := by
    have := h.g_nodup
    rw [hG] at this
    have := List.nodup_append.1 this
    intro x; exact this.2.2 x (List.mem_singleton_self _)
  have hkey : ∀ k p, (k, p) ∈ s._table → k = (s.heap item).key → p = item :=
    fun k p hp e => h.table_fun (e ▸ hp) hit
  constructor
  · exact erase_keys_nodup _ h.keys_nodup
  · intro k p hp; exact h.tbl k p (mem_erase_iff.1 hp).1
  · intro p hp; apply h.q_lt
    rcases hp with a | a | a
    · exact Or.inl a
    · exact Or.inr (Or.inl a)
    · exact Or.inr (Or.inr (hsub p a))
  · exact h.sm_nodup
  · exact (List.dropLast_sublist _).nodup h.g_nodup
  · intro p hp hg; exact h.s_g p hp (hsub p hg)
  · intro p hp
    have hlive := h.sm_live p hp
    refine ⟨hlive.1, mem_erase_iff.2 ⟨hlive.2, ?_⟩⟩
    intro e
    have hpi := hkey _ _ hlive.2 e
    subst hpi
    have := hlive.1
    omega
  · intro p hp hlt
    have := h.g_live p (hsub p hp) hlt
    refine mem_erase_iff.2 ⟨this, ?_⟩
    intro e
    have := hkey _ _ this e
    subst this
    exact hnd hp
  · intro k p hp
    obtain ⟨hp1, hp2⟩ := mem_erase_iff.1 hp
    have hpt : p ≠ item := by
      intro e; subst e; exact hp2 (h.table_inj hp1 hit)
    rcases h.tracked k p hp1 with a | a | a | a
    · exact Or.inl a
    · exact Or.inr (Or.inl a)
    · right; right; left
      refine ⟨?_, a.2⟩
      have := a.1
      rw [hG] at this
      rcases List.mem_append.1 this with b | b
      · exact b
      · exact absurd (List.mem_singleton.1 b) hpt
    · exact Or.inr (Or.inr (Or.inr a))
  · intro k p hp
    obtain ⟨a, b, c, d⟩ := h.pend_ok k p hp
    refine ⟨a, b, c, mem_erase_iff.2 ⟨d, ?_⟩⟩
    intro e
    have := hkey _ _ d e
    subst this
    omega
  · exact h.frange

/-- Moving the tail of `_small_fifo` to the front of `_ghost_fifo` with frequency `-1` keeps the
invariant. -/
theorem Inv.demote {s : State Key Value} {pend} (h : Inv D s pend) {tail : Nat}
    (hl : s._small_fifo.getLast? = some tail) :
    Inv D { setFreq { s with _small_fifo := s._small_fifo.dropLast } tail (-1)
            with _ghost_fifo := tail :: s._ghost_fifo } pend := by
  have hS := getLast?_split hl
  have hts : tail ∈ s._small_fifo := mem_of_getLast? hl
  have hsub : ∀ p, p ∈ s._small_fifo.dropLast → p ∈ s._small_fifo :=
    fun p hp => List.mem_of_mem_dropLast hp
  obtain ⟨hn1, hn2, hn3⟩ := nodup_split_left hl h.sm_nodup
  have htl := h.sm_live tail (Or.inl hts)
  have htg := h.s_g tail hts
  constructor
  · exact h.keys_nodup
  · intro k p hp; simpa using h.tbl k p hp
  · intro p hp
    simp only [setFreq_small, setFreq_main, setFreq_next, List.mem_cons] at hp ⊢
    rcases hp with a | a | a | a
    · exact h.q_lt p (Or.inl (hsub p a))
    · exact h.q_lt p (Or.inr (Or.inl a))
    · subst a; exact h.q_lt p (Or.inl hts)
    · exact h.q_lt p (Or.inr (Or.inr a))
  · exact hn3
  · exact List.nodup_cons.2 ⟨htg, h.g_nodup⟩
  · intro p hp hg
    simp only [List.mem_cons] at hg
    rcases hg with a | a
    · subst a; exact hn1 hp
    · exact h.s_g p (hsub p hp) a
  · intro p hp
    simp only [setFreq_small, setFreq_main, setFreq_key, setFreq_table] at hp ⊢
    have e : p ≠ tail := by
      intro e; subst e
      rcases hp with a | a
      · exact hn1 a
      · exact hn2 a
    rw [setFreq_freq_other _ _ e]
    exact h.sm_live p (hp.imp (hsub p) id)
  · intro p hp hlt
    simp only [List.mem_cons, setFreq_key, setFreq_table] at hp ⊢
    rcases hp with a | a
    · subst a; exact htl.2
    · have e : p ≠ tail := fun e => htg (e ▸ a)
      rw [setFreq_freq_other _ _ e] at hlt
      exact h.g_live p a hlt
  · intro k p hp
    simp only [setFreq_small, setFreq_main, List.mem_cons, setFreq_table] at hp ⊢
    rcases h.tracked k p hp with a | a | a | a
    · rw [hS] at a
      rcases List.mem_append.1 a with b | b
      · exact Or.inl b
      · have := List.mem_singleton.1 b
        subst this
        right; right; left
        exact ⟨Or.inl rfl, by simp⟩
    · exact Or.inr (Or.inl a)
    · have e : p ≠ tail := fun e => htg (e ▸ a.1)
      right; right; left
      refine ⟨Or.inr a.1, ?_⟩
      rw [setFreq_freq_other _ _ e]; exact a.2
    · exact Or.inr (Or.inr (Or.inr a))
  · intro k p hp
    simp only [setFreq_small, setFreq_main, setFreq_table]
    obtain ⟨a, b, c, d⟩ := h.pend_ok k p hp
    have e : p ≠ tail := fun e => a (e ▸ hts)
    refine ⟨fun x => a (hsub p x), b, ?_, d⟩
    rw [setFreq_freq_other _ _ e]; exact c
  · intro p
    rw [setFreq_freq]; split
    · omega
    · exact h.frange p

/-- The demoting pass of the loop of `EvictS` (a call of `InsertG`) keeps the invariant. -/
theorem Inv.insertG {cfg : Config} {s s2 : State Key Value} {pend} (h : Inv D s pend)
    {tail : Nat} (hl : s._small_fifo.getLast? = some tail)
    (hr : InsertG cfg { s with _small_fifo := s._small_fifo.dropLast } tail = Run.ret s2) :
    Inv D s2 pend := by
  unfold InsertG at hr
  split at hr
  · split at hr
    · cases hr
    · rename_i item hitem
      simp only at hitem
      by_cases hf : (s.heap item).freq < 0
      · simp only [hf, if_true, Run.ret.injEq] at hr
        subst hr
        exact (h.dropG_remove hitem hf).demote hl
      · simp only [hf, if_false, Run.ret.injEq] at hr
        subst hr
        exact (h.dropG_keep hitem hf).demote hl
  · simp only [Run.ret.injEq] at hr
    subst hr
    exact h.demote hl

end Preserve3
section Loops
variable {Key Value : Type} [DecidableEq Key] {D : Key → Value}

theorem EvictM_inv {pend} : ∀ (n : Nat) (s s1 : State Key Value), Inv D s pend →
    EvictM n s = Run.ret s1 → Inv D s1 pend := by
  intro n
  induction n with
  | zero => intro s s1 _ hr; simp [EvictM] at hr
  | succ n ih =>
    intro s s1 h hr
    unfold EvictM at hr
    split at hr
    · cases hr; exact h
    · rename_i tail hl
      by_cases hf : (s.heap tail).freq > 0
      · simp only [hf, if_true] at hr
        exact ih _ _ (h.requeue hl hf) hr
      · simp only [hf, if_false] at hr
        exact ih _ _ (h.removeM hl hf) hr

theorem EvictS_inv {cfg : Config} {pend} : ∀ (n : Nat) (s s1 : State Key Value), Inv D s pend →
    EvictS cfg n s = Run.ret s1 → Inv D s1 pend := by
  intro n
  induction n with
  | zero => intro s s1 _ hr; simp [EvictS] at hr
  | succ n ih =>
    intro s s1 h hr
    unfold EvictS at hr
    split at hr
    · cases hr; exact h
    · rename_i tail hl
      by_cases hf : (s.heap tail).freq > 0
      · simp only [hf, if_true] at hr
        exact ih _ _ (h.promote hl) hr
      · simp only [hf, if_false] at hr
        split at hr
        · rename_i s2 hg
          exact ih _ _ (h.insertG hl hg) hr
        · cases hr
        · cases hr

theorem EnsureFree_inv {cfg : Config} {pend} : ∀ (n : Nat) (s s1 : State Key Value),
    Inv D s pend → EnsureFree cfg n s = Run.ret s1 → Inv D s1 pend := by
  intro n
  induction n with
  | zero => intro s s1 _ hr; simp [EnsureFree] at hr
  | succ n ih =>
    intro s s1 h hr
    unfold EnsureFree at hr
    split at hr
    · split at hr
      · split at hr
        · rename_i s2 he
          exact ih _ _ (EvictM_inv n _ _ h he) hr
        · cases hr
        · cases hr
      · split at hr
        · rename_i s2 he
          exact ih _ _ (EvictS_inv n _ _ h he) hr
        · cases hr
        · cases hr
    · cases hr; exact h

/-- When `EnsureFree` returns, the two resident queues hold fewer entries than the limit. -/
theorem EnsureFree_post {cfg : Config} : ∀ (n : Nat) (s s1 : State Key Value),
    EnsureFree cfg n s = Run.ret s1 →
    s1._small_fifo.length + s1._main_fifo.length < cfg._cache_size_limit := by
  intro n
  induction n with
  | zero => intro s s1 hr; simp [EnsureFree] at hr
  | succ n ih =>
    intro s s1 hr
    unfold EnsureFree at hr
    split at hr
    · split at hr
      · split at hr
        · exact ih _ _ hr
        · cases hr
        · cases hr
      · split at hr
        · exact ih _ _ hr
        · cases hr
        · cases hr
    · rename_i hc
      cases hr
      omega

end Loops
section Frames
variable {Key Value : Type} [DecidableEq Key] {D : Key → Value}

theorem SameStats.refl (s : State Key Value) : SameStats s s := ⟨rfl, rfl, rfl, rfl⟩

theorem SameStats.trans {s s1 s2 : State Key Value} (a : SameStats s s1) (b : SameStats s1 s2) :
    SameStats s s2 :=
  ⟨b.1.trans a.1, b.2.1.trans a.2.1, b.2.2.1.trans a.2.2.1, b.2.2.2.trans a.2.2.2⟩

theorem EvictM_frame : ∀ (n : Nat) (s s1 : State Key Value), EvictM n s = Run.ret s1 →
    SameStats s s1 ∧ s1._main_fifo = [] ∧ s1._small_fifo = s._small_fifo ∧
      s1._ghost_fifo = s._ghost_fifo := by
  intro n
  induction n with
  | zero => intro s s1 hr; simp [EvictM] at hr
  | succ n ih =>
    intro s s1 hr
    unfold EvictM at hr
    split at hr
    · rename_i hl
      cases hr
      exact ⟨SameStats.refl _, List.getLast?_eq_none_iff.1 hl, rfl, rfl⟩
    · rename_i tail hl
      by_cases hf : (s.heap tail).freq > 0
      · simp only [hf, if_true] at hr
        obtain ⟨a, b, c, d⟩ := ih _ _ hr
        exact ⟨a, b, c, d⟩
      · simp only [hf, if_false] at hr
        obtain ⟨a, b, c, d⟩ := ih _ _ hr
        exact ⟨a, b, c, d⟩

theorem InsertG_frame {cfg : Config} {s s1 : State Key Value} {p : Nat}
    (hr : InsertG cfg s p = Run.ret s1) :
    SameStats s s1 ∧ s1._small_fifo = s._small_fifo ∧ s1._main_fifo = s._main_fifo ∧
      (∀ q, q ∈ s1._ghost_fifo → q = p ∨ q ∈ s._ghost_fifo) := by
  unfold InsertG at hr
  split at hr
  · split at hr
    · cases hr
    · rename_i item hitem
      have hsub : ∀ q, q ∈ s._ghost_fifo.dropLast → q ∈ s._ghost_fifo :=
        fun q hq => List.mem_of_mem_dropLast hq
      by_cases hf : (s.heap item).freq < 0
      · simp only [hf, if_true, Run.ret.injEq] at hr
        subst hr
        refine ⟨⟨rfl, rfl, rfl, rfl⟩, rfl, rfl, ?_⟩
        intro q hq
        exact (List.mem_cons.1 hq).imp id (hsub q)
      · simp only [hf, if_false, Run.ret.injEq] at hr
        subst hr
        refine ⟨⟨rfl, rfl, rfl, rfl⟩, rfl, rfl, ?_⟩
        intro q hq
        exact (List.mem_cons.1 hq).imp id (hsub q)
  · simp only [Run.ret.injEq] at hr
    subst hr
    refine ⟨⟨rfl, rfl, rfl, rfl⟩, rfl, rfl, ?_⟩
    intro q hq
    exact List.mem_cons.1 hq

theorem EvictS_frame {cfg : Config} : ∀ (n : Nat) (s s1 : State Key Value),
    EvictS cfg n s = Run.ret s1 →
    SameStats s s1 ∧ s1._small_fifo = [] ∧
      (∀ q, q ∈ s1._ghost_fifo → q ∈ s._ghost_fifo ∨ q ∈ s._small_fifo) := by
  intro n
  induction n with
  | zero => intro s s1 hr; simp [EvictS] at hr
  | succ n ih =>
    intro s s1 hr
    unfold EvictS at hr
    split at hr
    · rename_i hl
      cases hr
      exact ⟨SameStats.refl _, List.getLast?_eq_none_iff.1 hl, fun q hq => Or.inl hq⟩
    · rename_i tail hl
      have hsub : ∀ q, q ∈ s._small_fifo.dropLast → q ∈ s._small_fifo :=
        fun q hq => List.mem_of_mem_dropLast hq
      by_cases hf : (s.heap tail).freq > 0
      · simp only [hf, if_true] at hr
        obtain ⟨a, b, c⟩ := ih _ _ hr
        refine ⟨a, b, ?_⟩
        intro q hq
        exact (c q hq).imp id (hsub q)
      · simp only [hf, if_false] at hr
        split at hr
        · rename_i s2 hg
          obtain ⟨a, b, c⟩ := ih _ _ hr
          obtain ⟨a2, b2, _, d2⟩ := InsertG_frame hg
          refine ⟨a2.trans a, b, ?_⟩
          intro q hq
          rcases c q hq with x | x
          · rcases d2 q x with y | y
            · subst y; exact Or.inr (mem_of_getLast? hl)
            · exact Or.inl y
          · rw [b2] at x; exact Or.inr (hsub q x)
        · cases hr
        · cases hr

theorem EnsureFree_frame {cfg : Config} : ∀ (n : Nat) (s s1 : State Key Value),
    EnsureFree cfg n s = Run.ret s1 →
    SameStats s s1 ∧
      (∀ q, q ∈ s1._ghost_fifo → q ∈ s._ghost_fifo ∨ q ∈ s._small_fifo) := by
  intro n
  induction n with
  | zero => intro s s1 hr; simp [EnsureFree] at hr
  | succ n ih =>
    intro s s1 hr
    unfold EnsureFree at hr
    split at hr
    · split at hr
      · split at hr
        · rename_i s2 he
          obtain ⟨a, _, c, d⟩ := EvictM_frame _ _ _ he
          obtain ⟨a2, b2⟩ := ih _ _ hr
          refine ⟨a.trans a2, ?_⟩
          intro q hq
          have := b2 q hq
          rw [c, d] at this
          exact this
        · cases hr
        · cases hr
      · split at hr
        · rename_i s2 he
          obtain ⟨a, b, c⟩ := EvictS_frame _ _ _ he
          obtain ⟨a2, b2⟩ := ih _ _ hr
          refine ⟨a.trans a2, ?_⟩
          intro q hq
          rcases b2 q hq with x | x
          · exact c q x
          · rw [b] at x; cases x
        · cases hr
        · cases hr
    · cases hr
      exact ⟨SameStats.refl _, fun q hq => Or.inl hq⟩

end Frames
section GetInv
variable {Key Value : Type} [DecidableEq Key] {D : Key → Value}

theorem Inv.init [Inhabited Key] [Inhabited Value] : Inv D (State.init : State Key Value) none := by
  constructor <;> simp [State.init]

/-- The invariant only reads the arena, the three queues and the table. -/
theorem Inv.congr {s s1 : State Key Value} {pend} (h : Inv D s pend)
    (e1 : s1.heap = s.heap) (e2 : s1.next = s.next) (e3 : s1._small_fifo = s._small_fifo)
    (e4 : s1._main_fifo = s._main_fifo) (e5 : s1._ghost_fifo = s._ghost_fifo)
    (e6 : s1._table = s._table) : Inv D s1 pend := by
  constructor
  · rw [e6]; exact h.keys_nodup
  · rw [e1, e2, e6]; exact h.tbl
  · rw [e2, e3, e4, e5]; exact h.q_lt
  · rw [e3, e4]; exact h.sm_nodup
  · rw [e5]; exact h.g_nodup
  · rw [e3, e5]; exact h.s_g
  · rw [e1, e3, e4, e6]; exact h.sm_live
  · rw [e1, e5, e6]; exact h.g_live
  · rw [e1, e3, e4, e5, e6]; exact h.tracked
  · rw [e1, e3, e4, e6]; exact h.pend_ok
  · rw [e1]; exact h.frange

/-- Allocating a node for an untracked key and putting it in the table (the first half of a
cold miss) gives a state with that entry pending. -/
theorem Inv.alloc {s : State Key Value} (h : Inv D s none) {key : Key}
    (hk : find s._table key = none) (t : Int) (m : Nat) :
    Inv D { s with _miss_count := m,
                   heap := Function.update s.heap s.next ⟨key, D key, t, 0⟩,
                   next := s.next + 1,
                   _table := (key, s.next) :: s._table } (some (key, s.next)) := by
  have hne : ∀ p, p < s.next → Function.update s.heap s.next ⟨key, D key, t, 0⟩ p = s.heap p := by
    intro p hp; exact Function.update_noteq (Nat.ne_of_lt hp) _ _
  have hnone := find_eq_none_iff.1 hk
  constructor
  · simp only [List.map_cons, List.nodup_cons, List.mem_map, not_exists, not_and]
    refine ⟨?_, h.keys_nodup⟩
    rintro ⟨k, p⟩ hm e
    simp only at e
    subst e
    exact hnone p hm
  · intro k p hp
    simp only [List.mem_cons, Prod.mk.injEq] at hp
    rcases hp with ⟨a, b⟩ | a
    · subst a; subst b; simp
    · have := h.tbl k p a
      simp only [hne p this.2.2]
      exact ⟨this.1, this.2.1, Nat.lt_succ_of_lt this.2.2⟩
  · intro p hp; exact Nat.lt_succ_of_lt (h.q_lt p hp)
  · exact h.sm_nodup
  · exact h.g_nodup
  · exact h.s_g
  · intro p hp
    have hlt := h.q_lt p (by tauto)
    simp only [hne p hlt]
    have := h.sm_live p hp
    exact ⟨this.1, List.mem_cons_of_mem _ this.2⟩
  · intro p hp hlt
    have hlt2 := h.q_lt p (by tauto)
    simp only [hne p hlt2] at hlt ⊢
    exact List.mem_cons_of_mem _ (h.g_live p hp hlt)
  · intro k p hp
    simp only [List.mem_cons, Prod.mk.injEq] at hp
    rcases hp with ⟨a, b⟩ | a
    · subst a; subst b; exact Or.inr (Or.inr (Or.inr rfl))
    · have hlt := (h.tbl k p a).2.2
      simp only [hne p hlt]
      rcases h.tracked k p a with x | x | x | x
      · exact Or.inl x
      · exact Or.inr (Or.inl x)
      · exact Or.inr (Or.inr (Or.inl x))
      · cases x
  · intro k p hp
    simp only [Option.some.injEq, Prod.mk.injEq] at hp
    obtain ⟨a, b⟩ := hp
    subst a; subst b
    refine ⟨?_, ?_, ?_, List.mem_cons_self _ _⟩
    · intro x; exact Nat.lt_irrefl _ (h.q_lt _ (Or.inl x))
    · intro x; exact Nat.lt_irrefl _ (h.q_lt _ (Or.inr (Or.inl x)))
    · simp
  · intro p
    by_cases e : p = s.next
    · subst e; simp
    · simp only [Function.update_noteq e]; exact h.frange p

/-- Pushing the pending entry to the front of `_small_fifo` (the end of a cold miss). -/
theorem Inv.admitS {s : State Key Value} {k : Key} {p : Nat} (h : Inv D s (some (k, p)))
    (hg : p ∉ s._ghost_fifo) : Inv D (InsertS s p) none := by
  obtain ⟨a, b, c, d⟩ := h.pend_ok k p rfl
  have hkey := (h.tbl k p d).1
  unfold InsertS
  constructor
  · exact h.keys_nodup
  · exact h.tbl
  · intro q hq
    simp only [List.mem_cons] at hq
    rcases hq with (x | x) | x | x
    · subst x; exact (h.tbl k q d).2.2
    · exact h.q_lt q (Or.inl x)
    · exact h.q_lt q (Or.inr (Or.inl x))
    · exact h.q_lt q (Or.inr (Or.inr x))
  · simp only [List.cons_append, List.nodup_cons, List.mem_append, not_or]
    exact ⟨⟨a, b⟩, h.sm_nodup⟩
  · exact h.g_nodup
  · intro q hq
    simp only [List.mem_cons] at hq
    rcases hq with x | x
    · subst x; exact hg
    · exact h.s_g q x
  · intro q hq
    simp only [List.mem_cons] at hq
    rcases hq with (x | x) | x
    · subst x; exact ⟨c, hkey ▸ d⟩
    · exact h.sm_live q (Or.inl x)
    · exact h.sm_live q (Or.inr x)
  · exact h.g_live
  · intro k1 q hq
    simp only [List.mem_cons]
    rcases h.tracked k1 q hq with x | x | x | x
    · exact Or.inl (Or.inr x)
    · exact Or.inr (Or.inl x)
    · exact Or.inr (Or.inr (Or.inl x))
    · simp only [Option.some.injEq, Prod.mk.injEq] at x
      exact Or.inl (Or.inl x.2.symm)
  · intro k1 q hq; cases hq
  · exact h.frange

/-- Pushing the pending entry to the front of `_main_fifo` (the end of a ghost hit). -/
theorem Inv.admitM {s : State Key Value} {k : Key} {p : Nat} (h : Inv D s (some (k, p))) :
    Inv D (InsertM s p) none := by
  obtain ⟨a, b, c, d⟩ := h.pend_ok k p rfl
  have hkey := (h.tbl k p d).1
  unfold InsertM
  constructor
  · exact h.keys_nodup
  · intro k1 q hq; simpa using h.tbl k1 q hq
  · intro q hq
    simp only [setFreq_small, setFreq_main, setFreq_ghost, setFreq_next, List.mem_cons] at hq ⊢
    rcases hq with x | (x | x) | x
    · exact h.q_lt q (Or.inl x)
    · subst x; exact (h.tbl k q d).2.2
    · exact h.q_lt q (Or.inr (Or.inl x))
    · exact h.q_lt q (Or.inr (Or.inr x))
  · simp only [setFreq_small, setFreq_main]
    have := h.sm_nodup
    rw [List.nodup_append] at this ⊢
    refine ⟨this.1, List.nodup_cons.2 ⟨b, this.2.1⟩, ?_⟩
    intro x hx hx2
    rcases List.mem_cons.1 hx2 with y | y
    · subst y; exact a hx
    · exact this.2.2 hx y
  · exact h.g_nodup
  · exact h.s_g
  · intro q hq
    simp only [setFreq_small, setFreq_main, List.mem_cons, setFreq_key, setFreq_table] at hq ⊢
    rw [setFreq_freq]
    rcases hq with x | x | x
    · have := h.sm_live q (Or.inl x)
      refine ⟨?_, this.2⟩
      split
      · exact le_refl _
      · exact this.1
    · subst x; simp only [if_true]; exact ⟨le_refl _, hkey ▸ d⟩
    · have := h.sm_live q (Or.inr x)
      refine ⟨?_, this.2⟩
      split
      · exact le_refl _
      · exact this.1
  · intro q hq hlt
    simp only [setFreq_ghost, setFreq_key, setFreq_table] at hq ⊢
    rw [setFreq_freq] at hlt
    split at hlt
    · omega
    · exact h.g_live q hq hlt
  · intro k1 q hq
    simp only [setFreq_small, setFreq_main, setFreq_ghost, List.mem_cons, setFreq_table] at hq ⊢
    rcases h.tracked k1 q hq with x | x | x | x
    · exact Or.inl x
    · exact Or.inr (Or.inl (Or.inr x))
    · by_cases e : q = p
      · exact Or.inr (Or.inl (Or.inl e))
      · right; right; left
        refine ⟨x.1, ?_⟩
        rw [setFreq_freq_other _ _ e]; exact x.2
    · simp only [Option.some.injEq, Prod.mk.injEq] at x
      exact Or.inr (Or.inl (Or.inl x.2.symm))
  · intro k1 q hq; cases hq
  · intro q
    rw [setFreq_freq]; split
    · omega
    · exact h.frange q

end GetInv
section GetInv2
variable {Key Value : Type} [DecidableEq Key] {D : Key → Value}

theorem setValue_same (s : State Key Value) (p : Nat) (v : Value) (h : (s.heap p).value = v) :
    setValue s p v = s := by
  unfold setValue
  have : ({ s.heap p with value := v } : S3FifoNode Key Value) = s.heap p := by
    rw [← h]
  rw [this, Function.update_eq_self]

/-- Changing a non-negative frequency to another value in `0..3` keeps the invariant. -/
theorem Inv.setFreq_live {s : State Key Value} {pend} (h : Inv D s pend) {p : Nat} {f : Int}
    (h0 : 0 ≤ (s.heap p).freq) (h1 : 0 ≤ f) (h2 : f ≤ 3) : Inv D (setFreq s p f) pend := by
  have hfr : ∀ q, 0 ≤ (s.heap q).freq → 0 ≤ ((setFreq s p f).heap q).freq := by
    intro q hq; rw [setFreq_freq]; split
    · exact h1
    · exact hq
  have hfr2 : ∀ q, ((setFreq s p f).heap q).freq < 0 → (s.heap q).freq < 0 ∧ q ≠ p := by
    intro q hq; rw [setFreq_freq] at hq; split at hq
    · omega
    · rename_i e; exact ⟨hq, e⟩
  constructor
  · exact h.keys_nodup
  · intro k q hq; simpa using h.tbl k q hq
  · exact h.q_lt
  · exact h.sm_nodup
  · exact h.g_nodup
  · exact h.s_g
  · intro q hq
    have := h.sm_live q hq
    simp only [setFreq_key, setFreq_table]
    exact ⟨hfr q this.1, this.2⟩
  · intro q hq hlt
    simp only [setFreq_key, setFreq_table]
    exact h.g_live q hq (hfr2 q hlt).1
  · intro k q hq
    simp only [setFreq_small, setFreq_main, setFreq_ghost]
    rcases h.tracked k q hq with x | x | x | x
    · exact Or.inl x
    · exact Or.inr (Or.inl x)
    · right; right; left
      have e : q ≠ p := by intro e; subst e; omega
      refine ⟨x.1, ?_⟩
      rw [setFreq_freq_other _ _ e]; exact x.2
    · exact Or.inr (Or.inr (Or.inr x))
  · intro k q hq
    obtain ⟨a, b, c, d⟩ := h.pend_ok k q hq
    exact ⟨a, b, hfr q c, d⟩
  · intro q
    rw [setFreq_freq]; split
    · omega
    · exact h.frange q

/-- Resetting the frequency of a tracked ghost entry to `0` (the first half of a ghost hit)
gives a state with that entry pending. -/
theorem Inv.resurrect {s : State Key Value} (h : Inv D s none) {key : Key} {p : Nat}
    (hk : (key, p) ∈ s._table) (hf : (s.heap p).freq < 0) :
    Inv D (setFreq s p 0) (some (key, p)) := by
  have hps : p ∉ s._small_fifo := by
    intro x; have := (h.sm_live p (Or.inl x)).1; omega
  have hpm : p ∉ s._main_fifo := by
    intro x; have := (h.sm_live p (Or.inr x)).1; omega
  constructor
  · exact h.keys_nodup
  · intro k q hq; simpa using h.tbl k q hq
  · exact h.q_lt
  · exact h.sm_nodup
  · exact h.g_nodup
  · exact h.s_g
  · intro q hq
    have := h.sm_live q hq
    simp only [setFreq_key, setFreq_table]
    refine ⟨?_, this.2⟩
    rw [setFreq_freq]; split
    · exact le_refl _
    · exact this.1
  · intro q hq hlt
    simp only [setFreq_key, setFreq_table]
    rw [setFreq_freq] at hlt
    split at hlt
    · omega
    · exact h.g_live q hq hlt
  · intro k q hq
    simp only [setFreq_small, setFreq_main, setFreq_ghost, setFreq_table] at hq ⊢
    by_cases e : q = p
    · subst e
      right; right; right
      rw [h.table_inj hq hk]
    · rcases h.tracked k q hq with x | x | x | x
      · exact Or.inl x
      · exact Or.inr (Or.inl x)
      · right; right; left
        refine ⟨x.1, ?_⟩
        rw [setFreq_freq_other _ _ e]; exact x.2
      · cases x
  · intro k q hq
    simp only [Option.some.injEq, Prod.mk.injEq] at hq
    obtain ⟨a, b⟩ := hq
    subst a; subst b
    exact ⟨hps, hpm, by simp, hk⟩
  · intro q
    rw [setFreq_freq]; split
    · omega
    · exact h.frange q

/-- A returning `Get` keeps the invariant. -/
theorem Get_inv {cfg : Config} {fuel : Nat} {s s1 : State Key Value} {key : Key} {now : Int}
    {v : Option Value} (h : Inv D s none) (hr : Get D cfg fuel s key now = Run.ret (s1, v)) :
    Inv D s1 none := by
  unfold Get at hr
  split at hr
  · rename_i hk
    dsimp only at hr
    split at hr
    · rename_i s3 he
      have h2 := EnsureFree_inv _ _ _ (h.alloc hk (now + cfg._ttl_sec) (incr s._miss_count)) he
      have hfr := EnsureFree_frame _ _ _ he
      obtain ⟨a, b, c, d⟩ := h2.pend_ok key s.next rfl
      have hq := mem_find_of_nodup h2.keys_nodup d
      rw [hq] at hr
      simp only [Run.ret.injEq, Prod.mk.injEq] at hr
      rw [← hr.1]
      apply h2.admitS
      intro x
      rcases hfr.2 _ x with y | y
      · exact Nat.lt_irrefl _ (h.q_lt _ (Or.inr (Or.inr y)))
      · exact Nat.lt_irrefl _ (h.q_lt _ (Or.inl y))
    · cases hr
    · cases hr
  · rename_i p hk
    have hmem := find_eq_some_mem hk
    have hval := (h.tbl key p hmem).2.1
    by_cases hf : (s.heap p).freq = -1
    · simp only [hf, if_true] at hr
      split at hr
      · rename_i s3 he
        rw [setValue_same { s with _hit_ghost_count := incr s._hit_ghost_count,
                                   _miss_count := incr s._miss_count } p (D key) hval] at he
        have h1 : Inv D { s with _hit_ghost_count := incr s._hit_ghost_count,
                                 _miss_count := incr s._miss_count } none :=
          h.congr rfl rfl rfl rfl rfl rfl
        have h2 := EnsureFree_inv _ _ _ (h1.resurrect hmem (by simp only; omega)) he
        obtain ⟨a, b, c, d⟩ := h2.pend_ok key p rfl
        have hq := mem_find_of_nodup h2.keys_nodup d
        rw [hq] at hr
        simp only [Run.ret.injEq, Prod.mk.injEq] at hr
        rw [← hr.1]
        exact h2.admitM
      · cases hr
      · cases hr
    · simp only [hf, if_false, Run.ret.injEq, Prod.mk.injEq] at hr
      rw [← hr.1]
      have h1 : Inv D { s with _hit_count := incr s._hit_count } none :=
        h.congr rfl rfl rfl rfl rfl rfl
      have hr0 := h.frange p
      have h0 : 0 ≤ (s.heap p).freq := by omega
      split
      · rename_i hne
        simp only [kS3FifoMaxFreq] at hne
        apply h1.setFreq_live
        · exact h0
        · omega
        · omega
      · exact h1

/-- Every state between two calls of `Get` satisfies the invariant, with nothing pending. -/
theorem Reachable.inv [Inhabited Key] [Inhabited Value] {cfg : Config} {s : State Key Value}
    (h : Reachable D cfg s) : Inv D s none := by
  induction h with
  | init => exact Inv.init
  | get _ hr ih => exact Get_inv ih hr

end GetInv2
section Fuel
variable {Key Value : Type} [DecidableEq Key] {D : Key → Value}

theorem EvictM_succ (n : Nat) (s : State Key Value) :
    EvictM (n + 1) s =
      match s._main_fifo.getLast? with
      | none => Run.ret s
      | some tail =>
        if (s.heap tail).freq > 0 then
          EvictM n { setFreq { s with _main_fifo := s._main_fifo.dropLast } tail
                      ((s.heap tail).freq - 1) with _main_fifo := tail :: s._main_fifo.dropLast }
        else
          EvictM n (RemoveItem { s with _main_fifo := s._main_fifo.dropLast } (s.heap tail).key) :=
  rfl

theorem EvictS_succ (cfg : Config) (n : Nat) (s : State Key Value) :
    EvictS cfg (n + 1) s =
      match s._small_fifo.getLast? with
      | none => Run.ret s
      | some tail =>
        if (s.heap tail).freq > 0 then
          EvictS cfg n (InsertM { s with _small_fifo := s._small_fifo.dropLast } tail)
        else
          match InsertG cfg { s with _small_fifo := s._small_fifo.dropLast } tail with
          | Run.ret s2 => EvictS cfg n s2
          | Run.fuel => Run.fuel
          | Run.ub => Run.ub :=
  rfl

theorem EnsureFree_succ (cfg : Config) (n : Nat) (s : State Key Value) :
    EnsureFree cfg (n + 1) s =
      if s._small_fifo.length + s._main_fifo.length ≥ cfg._cache_size_limit then
        if s._main_fifo.length ≥ cfg._main_fifo_size ∨ s._small_fifo.length = 0 then
          match EvictM n s with
          | Run.ret s1 => EnsureFree cfg n s1
          | Run.fuel => Run.fuel
          | Run.ub => Run.ub
        else
          match EvictS cfg n s with
          | Run.ret s1 => EnsureFree cfg n s1
          | Run.fuel => Run.fuel
          | Run.ub => Run.ub
      else Run.ret s :=
  rfl

theorem EvictM_mono_succ : ∀ (n : Nat) (s s1 : State Key Value),
    EvictM n s = Run.ret s1 → EvictM (n + 1) s = Run.ret s1 := by
  intro n
  induction n with
  | zero => intro s s1 hr; simp [EvictM] at hr
  | succ n ih =>
    intro s s1 hr
    rw [EvictM_succ] at hr ⊢
    split
    · rename_i hl; simpa only [hl] using hr
    · rename_i tail hl
      simp only [hl] at hr
      split
      · rename_i hf; rw [if_pos hf] at hr; exact ih _ _ hr
      · rename_i hf; rw [if_neg hf] at hr; exact ih _ _ hr

theorem EvictM_mono {n m : Nat} {s s1 : State Key Value} (hnm : n ≤ m)
    (hr : EvictM n s = Run.ret s1) : EvictM m s = Run.ret s1 := by
  induction hnm with
  | refl => exact hr
  | step _ ih => exact EvictM_mono_succ _ _ _ ih

theorem EvictS_mono_succ {cfg : Config} : ∀ (n : Nat) (s s1 : State Key Value),
    EvictS cfg n s = Run.ret s1 → EvictS cfg (n + 1) s = Run.ret s1 := by
  intro n
  induction n with
  | zero => intro s s1 hr; simp [EvictS] at hr
  | succ n ih =>
    intro s s1 hr
    rw [EvictS_succ] at hr ⊢
    split
    · rename_i hl; simpa only [hl] using hr
    · rename_i tail hl
      simp only [hl] at hr
      split
      · rename_i hf; rw [if_pos hf] at hr; exact ih _ _ hr
      · rename_i hf
        rw [if_neg hf] at hr
        split
        · rename_i s2 hg; simp only [hg] at hr; exact ih _ _ hr
        · rename_i hg; simp only [hg] at hr; cases hr
        · rename_i hg; simp only [hg] at hr; cases hr

theorem EvictS_mono {cfg : Config} {n m : Nat} {s s1 : State Key Value} (hnm : n ≤ m)
    (hr : EvictS cfg n s = Run.ret s1) : EvictS cfg m s = Run.ret s1 := by
  induction hnm with
  | refl => exact hr
  | step _ ih => exact EvictS_mono_succ _ _ _ ih

theorem EnsureFree_mono_succ {cfg : Config} : ∀ (n : Nat) (s s1 : State Key Value),
    EnsureFree cfg n s = Run.ret s1 → EnsureFree cfg (n + 1) s = Run.ret s1 := by
  intro n
  induction n with
  | zero => intro s s1 hr; simp [EnsureFree] at hr
  | succ n ih =>
    intro s s1 hr
    rw [EnsureFree_succ] at hr ⊢
    split
    · rename_i hc
      rw [if_pos hc] at hr
      split
      · rename_i hb
        rw [if_pos hb] at hr
        split at hr
        · rename_i s2 he
          rw [EvictM_mono_succ _ _ _ he]
          exact ih _ _ hr
        · cases hr
        · cases hr
      · rename_i hb
        rw [if_neg hb] at hr
        split at hr
        · rename_i s2 he
          rw [EvictS_mono_succ _ _ _ he]
          exact ih _ _ hr
        · cases hr
        · cases hr
    · rename_i hc; rw [if_neg hc] at hr; exact hr

theorem EnsureFree_mono {cfg : Config} {n m : Nat} {s s1 : State Key Value} (hnm : n ≤ m)
    (hr : EnsureFree cfg n s = Run.ret s1) : EnsureFree cfg m s = Run.ret s1 := by
  induction hnm with
  | refl => exact hr
  | step _ ih => exact EnsureFree_mono_succ _ _ _ ih

/-- More fuel does not change what a returning `Get` returns. -/
theorem Get_mono {cfg : Config} {n m : Nat} {s : State Key Value} {key : Key} {now : Int}
    {r : State Key Value × Option Value} (hnm : n ≤ m)
    (hr : Get D cfg n s key now = Run.ret r) : Get D cfg m s key now = Run.ret r := by
  unfold Get at hr ⊢
  split
  · rename_i hk
    simp only [hk] at hr
    dsimp only at hr ⊢
    split at hr
    · rename_i s3 he
      rw [EnsureFree_mono hnm he]
      exact hr
    · cases hr
    · cases hr
  · rename_i p hk
    simp only [hk] at hr
    split
    · rename_i hf
      rw [if_pos hf] at hr
      dsimp only at hr ⊢
      split at hr
      · rename_i s3 he
        rw [EnsureFree_mono hnm he]
        exact hr
      · cases hr
      · cases hr
    · rename_i hf
      rw [if_neg hf] at hr
      exact hr

end Fuel
section Total
variable {Key Value : Type} [DecidableEq Key] {D : Key → Value}

/-- The loop of `EvictM` finishes: `mainWeight + 1` passes are enough. -/
theorem EvictM_total : ∀ (w : Nat) (s : State Key Value), mainWeight s ≤ w →
    ∃ s1, EvictM (w + 1) s = Run.ret s1 := by
  intro w
  induction w with
  | zero =>
    intro s hw
    rw [EvictM_succ]
    split
    · exact ⟨s, rfl⟩
    · rename_i tail hl
      have hM := getLast?_split hl
      unfold mainWeight at hw
      rw [hM] at hw
      simp at hw
  | succ w ih =>
    intro s hw
    rw [EvictM_succ]
    split
    · exact ⟨s, rfl⟩
    · rename_i tail hl
      have hM := getLast?_split hl
      have hw2 : (s._main_fifo.dropLast.map (fun p => (s.heap p).freq.toNat + 1)).sum +
          ((s.heap tail).freq.toNat + 1) ≤ w + 1 := by
        unfold mainWeight at hw
        rw [hM] at hw
        simpa using hw
      split
      · rename_i hf
        apply ih
        unfold mainWeight
        simp only [List.map_cons, List.sum_cons, setFreq_freq_same]
        have hle : (s._main_fifo.dropLast.map (fun p => ((setFreq
            { s with _main_fifo := s._main_fifo.dropLast } tail
              ((s.heap tail).freq - 1)).heap p).freq.toNat + 1)).sum ≤
            (s._main_fifo.dropLast.map (fun p => (s.heap p).freq.toNat + 1)).sum := by
          apply List.sum_le_sum
          intro p _
          rw [setFreq_freq]
          split
          · rename_i e; subst e; omega
          · exact le_refl _
        have : ((s.heap tail).freq - 1).toNat + 1 = (s.heap tail).freq.toNat := by omega
        omega
      · apply ih
        unfold mainWeight
        simp only [RemoveItem]
        omega

theorem InsertG_total {cfg : Config} (hm : 1 ≤ cfg._main_fifo_size) (s : State Key Value)
    (p : Nat) : ∃ s1, InsertG cfg s p = Run.ret s1 := by
  unfold InsertG
  split
  · rename_i hfull
    split
    · rename_i hl
      have := List.getLast?_eq_none_iff.1 hl
      simp [GhostIsFull, this] at hfull
      omega
    · exact ⟨_, rfl⟩
  · exact ⟨_, rfl⟩

/-- The loop of `EvictS` finishes: one pass per element of `_small_fifo`, and one more. -/
theorem EvictS_total {cfg : Config} (hm : 1 ≤ cfg._main_fifo_size) : ∀ (w : Nat)
    (s : State Key Value), s._small_fifo.length ≤ w → ∃ s1, EvictS cfg (w + 1) s = Run.ret s1 := by
  intro w
  induction w with
  | zero =>
    intro s hw
    rw [EvictS_succ]
    split
    · exact ⟨s, rfl⟩
    · rename_i tail hl
      have hS := getLast?_split hl
      rw [hS] at hw
      simp at hw
  | succ w ih =>
    intro s hw
    rw [EvictS_succ]
    split
    · exact ⟨s, rfl⟩
    · rename_i tail hl
      have hlen : s._small_fifo.dropLast.length ≤ w := by
        rw [List.length_dropLast]; omega
      split
      · apply ih
        exact hlen
      · obtain ⟨s2, hg⟩ := InsertG_total hm { s with _small_fifo := s._small_fifo.dropLast } tail
        rw [hg]
        apply ih
        rw [(InsertG_frame hg).2.1]
        exact hlen

theorem EnsureFree_done {cfg : Config} (n : Nat) (s : State Key Value)
    (h : s._small_fifo.length + s._main_fifo.length < cfg._cache_size_limit) :
    EnsureFree cfg (n + 1) s = Run.ret s := by
  rw [EnsureFree_succ, if_neg (by omega)]

theorem EnsureFree_viaM {cfg : Config} {a b : Nat} {s s2 s3 : State Key Value}
    (hc : s._small_fifo.length + s._main_fifo.length ≥ cfg._cache_size_limit)
    (hb : s._main_fifo.length ≥ cfg._main_fifo_size ∨ s._small_fifo.length = 0)
    (h1 : EvictM a s = Run.ret s2) (h2 : EnsureFree cfg b s2 = Run.ret s3) :
    EnsureFree cfg (max a b + 1) s = Run.ret s3 := by
  rw [EnsureFree_succ, if_pos hc, if_pos hb, EvictM_mono (le_max_left a b) h1]
  exact EnsureFree_mono (le_max_right a b) h2

theorem EnsureFree_viaS {cfg : Config} {a b : Nat} {s s2 s3 : State Key Value}
    (hc : s._small_fifo.length + s._main_fifo.length ≥ cfg._cache_size_limit)
    (hb : ¬ (s._main_fifo.length ≥ cfg._main_fifo_size ∨ s._small_fifo.length = 0))
    (h1 : EvictS cfg a s = Run.ret s2) (h2 : EnsureFree cfg b s2 = Run.ret s3) :
    EnsureFree cfg (max a b + 1) s = Run.ret s3 := by
  rw [EnsureFree_succ, if_pos hc, if_neg hb, EvictS_mono (le_max_left a b) h1]
  exact EnsureFree_mono (le_max_right a b) h2

theorem EnsureFree_total_S0 {cfg : Config} (hl : 1 ≤ cfg._cache_size_limit)
    (s : State Key Value) (hs : s._small_fifo = []) :
    ∃ n s1, EnsureFree cfg n s = Run.ret s1 := by
  by_cases hc : s._small_fifo.length + s._main_fifo.length < cfg._cache_size_limit
  · exact ⟨1, s, EnsureFree_done 0 s hc⟩
  · obtain ⟨s2, h1⟩ := EvictM_total (mainWeight s) s (le_refl _)
    obtain ⟨_, hM, hS, _⟩ := EvictM_frame _ _ _ h1
    have h2 : EnsureFree cfg 1 s2 = Run.ret s2 := by
      apply EnsureFree_done
      rw [hM, hS, hs]; simpa using hl
    exact ⟨_, s2, EnsureFree_viaM (by omega) (Or.inr (by rw [hs]; rfl)) h1 h2⟩

theorem EnsureFree_total_M0 {cfg : Config} (hl : 1 ≤ cfg._cache_size_limit)
    (hm : 1 ≤ cfg._main_fifo_size) (s : State Key Value) (hs : s._main_fifo = []) :
    ∃ n s1, EnsureFree cfg n s = Run.ret s1 := by
  by_cases hc : s._small_fifo.length + s._main_fifo.length < cfg._cache_size_limit
  · exact ⟨1, s, EnsureFree_done 0 s hc⟩
  · obtain ⟨s2, h1⟩ := EvictS_total hm s._small_fifo.length s (le_refl _)
    obtain ⟨_, hS, _⟩ := EvictS_frame _ _ _ h1
    obtain ⟨n, s3, h2⟩ := EnsureFree_total_S0 hl s2 hS
    refine ⟨_, s3, EnsureFree_viaS (by omega) ?_ h1 h2⟩
    rw [hs] at hc ⊢
    simp only [List.length_nil, Nat.add_zero] at hc ⊢
    omega

/-- The loop of `EnsureFree` finishes when the limit and the main-queue share are positive. -/
theorem EnsureFree_total {cfg : Config} (hl : 1 ≤ cfg._cache_size_limit)
    (hm : 1 ≤ cfg._main_fifo_size) (s : State Key Value) :
    ∃ n s1, EnsureFree cfg n s = Run.ret s1 := by
  by_cases hc : s._small_fifo.length + s._main_fifo.length < cfg._cache_size_limit
  · exact ⟨1, s, EnsureFree_done 0 s hc⟩
  · by_cases hb : s._main_fifo.length ≥ cfg._main_fifo_size ∨ s._small_fifo.length = 0
    · obtain ⟨s2, h1⟩ := EvictM_total (mainWeight s) s (le_refl _)
      obtain ⟨_, hM, _, _⟩ := EvictM_frame _ _ _ h1
      obtain ⟨n, s3, h2⟩ := EnsureFree_total_M0 hl hm s2 hM
      exact ⟨_, s3, EnsureFree_viaM (by omega) hb h1 h2⟩
    · obtain ⟨s2, h1⟩ := EvictS_total hm s._small_fifo.length s (le_refl _)
      obtain ⟨_, hS, _⟩ := EvictS_frame _ _ _ h1
      obtain ⟨n, s3, h2⟩ := EnsureFree_total_S0 hl s2 hS
      exact ⟨_, s3, EnsureFree_viaS (by omega) hb h1 h2⟩

theorem S3FifoCache_limit (c : Nat) (ttl : Int) : (S3FifoCache c ttl)._cache_size_limit = c := rfl

theorem S3FifoCache_main_pos {c : Nat} (hc : 1 ≤ c) (ttl : Int) :
    1 ≤ (S3FifoCache c ttl)._main_fifo_size := by
  simp only [S3FifoCache, roundSmall]
  omega

end Total
section GetFacts
variable {Key Value : Type} [DecidableEq Key] {D : Key → Value}

/-- From a state that satisfies the invariant, `Get` returns once the fuel is large enough. -/
theorem Get_total {cfg : Config} (hl : 1 ≤ cfg._cache_size_limit) (hm : 1 ≤ cfg._main_fifo_size)
    {s : State Key Value} (h : Inv D s none) (key : Key) (now : Int) :
    ∃ n r, Get D cfg n s key now = Run.ret r := by
  unfold Get
  split
  · rename_i hk
    dsimp only
    obtain ⟨n, s3, he⟩ := EnsureFree_total hl hm
      { s with _miss_count := incr s._miss_count,
               heap := Function.update s.heap s.next ⟨key, D key, now + cfg._ttl_sec, 0⟩,
               next := s.next + 1,
               _table := (key, s.next) :: s._table }
    have h2 := EnsureFree_inv _ _ _ (h.alloc hk (now + cfg._ttl_sec) (incr s._miss_count)) he
    have hq := mem_find_of_nodup h2.keys_nodup (h2.pend_ok key s.next rfl).2.2.2
    refine ⟨n, ?_⟩
    rw [he]
    simp only [hq]
    exact ⟨_, rfl⟩
  · rename_i p hk
    have hmem := find_eq_some_mem hk
    have hval := (h.tbl key p hmem).2.1
    split
    · rename_i hf
      dsimp only
      obtain ⟨n, s3, he⟩ := EnsureFree_total hl hm
        (setFreq (setValue { s with _hit_ghost_count := incr s._hit_ghost_count,
                                    _miss_count := incr s._miss_count } p (D key)) p 0)
      have he2 := he
      rw [setValue_same { s with _hit_ghost_count := incr s._hit_ghost_count,
                                 _miss_count := incr s._miss_count } p (D key) hval] at he2
      have h1 : Inv D { s with _hit_ghost_count := incr s._hit_ghost_count,
                               _miss_count := incr s._miss_count } none :=
        h.congr rfl rfl rfl rfl rfl rfl
      have h2 := EnsureFree_inv _ _ _ (h1.resurrect hmem (by simp only; omega)) he2
      have hq := mem_find_of_nodup h2.keys_nodup (h2.pend_ok key p rfl).2.2.2
      refine ⟨n, ?_⟩
      rw [he]
      simp only [hq]
      exact ⟨_, rfl⟩
    · exact ⟨0, _, rfl⟩

/-- What a returning `Get` returns is the value source applied to the key. -/
theorem Get_value {cfg : Config} {fuel : Nat} {s s1 : State Key Value} {key : Key} {now : Int}
    {v : Option Value} (h : Inv D s none) (hr : Get D cfg fuel s key now = Run.ret (s1, v)) :
    v = some (D key) := by
  unfold Get at hr
  split at hr
  · rename_i hk
    dsimp only at hr
    split at hr
    · rename_i s3 he
      have h2 := EnsureFree_inv _ _ _ (h.alloc hk (now + cfg._ttl_sec) (incr s._miss_count)) he
      have hd := (h2.pend_ok key s.next rfl).2.2.2
      have hq := mem_find_of_nodup h2.keys_nodup hd
      rw [hq] at hr
      simp only [Run.ret.injEq, Prod.mk.injEq] at hr
      rw [← hr.2]
      exact congrArg some (h2.tbl key s.next hd).2.1
    · cases hr
    · cases hr
  · rename_i p hk
    have hmem := find_eq_some_mem hk
    have hval := (h.tbl key p hmem).2.1
    by_cases hf : (s.heap p).freq = -1
    · simp only [hf, if_true] at hr
      split at hr
      · rename_i s3 he
        rw [setValue_same { s with _hit_ghost_count := incr s._hit_ghost_count,
                                   _miss_count := incr s._miss_count } p (D key) hval] at he
        have h1 : Inv D { s with _hit_ghost_count := incr s._hit_ghost_count,
                                 _miss_count := incr s._miss_count } none :=
          h.congr rfl rfl rfl rfl rfl rfl
        have h2 := EnsureFree_inv _ _ _ (h1.resurrect hmem (by simp only; omega)) he
        have hd := (h2.pend_ok key p rfl).2.2.2
        have hq := mem_find_of_nodup h2.keys_nodup hd
        rw [hq] at hr
        simp only [Run.ret.injEq, Prod.mk.injEq] at hr
        rw [← hr.2]
        unfold InsertM
        simp only [setFreq_value]
        exact congrArg some (h2.tbl key p hd).2.1
      · cases hr
      · cases hr
    · simp only [hf, if_false, Run.ret.injEq, Prod.mk.injEq] at hr
      rw [← hr.2]
      split
      · simp only [setFreq_value]; exact congrArg some hval
      · exact congrArg some hval

theorem GetAll_reachable [Inhabited Key] [Inhabited Value] {cfg : Config} {fuel : Nat} :
    ∀ (ks : List (Key × Int)) (s s1 : State Key Value), Reachable D cfg s →
      GetAll D cfg fuel s ks = Run.ret s1 → Reachable D cfg s1 := by
  intro ks
  induction ks with
  | nil => intro s s1 h hr; simp only [GetAll, Run.ret.injEq] at hr; exact hr ▸ h
  | cons e ks ih =>
    intro s s1 h hr
    obtain ⟨key, now⟩ := e
    simp only [GetAll] at hr
    split at hr
    · rename_i s2 v hg
      exact ih _ _ (Reachable.get h hg) hr
    · cases hr
    · cases hr

end GetFacts
section Claims
variable {Key Value : Type} [DecidableEq Key] {D : Key → Value}

theorem Get_size {cfg : Config} {fuel : Nat} {s s1 : State Key Value} {key : Key} {now : Int}
    {v : Option Value} (hr : Get D cfg fuel s key now = Run.ret (s1, v))
    (hs : s._small_fifo.length + s._main_fifo.length ≤ cfg._cache_size_limit) :
    s1._small_fifo.length + s1._main_fifo.length ≤ cfg._cache_size_limit := by
  unfold Get at hr
  split at hr
  · dsimp only at hr
    split at hr
    · rename_i s3 he
      have hp := EnsureFree_post _ _ _ he
      split at hr
      · cases hr
      · simp only [Run.ret.injEq, Prod.mk.injEq] at hr
        rw [← hr.1]
        simp only [InsertS, List.length_cons]
        omega
    · cases hr
    · cases hr
  · split at hr
    · dsimp only at hr
      split at hr
      · rename_i s3 he
        have hp := EnsureFree_post _ _ _ he
        split at hr
        · cases hr
        · simp only [Run.ret.injEq, Prod.mk.injEq] at hr
          rw [← hr.1]
          simp only [InsertM, setFreq_small, setFreq_main, List.length_cons]
          omega
      · cases hr
      · cases hr
    · simp only [Run.ret.injEq, Prod.mk.injEq] at hr
      rw [← hr.1]
      split
      · exact hs
      · exact hs

/-- The states `main.cpp` passes through (capacity 10, `SquareCache`) are reachable. -/
theorem main_reachable (ks : List Int) (s : State Int Int)
    (h : GetAll SquareCache.DoGetByKey (S3FifoCache 10 100) 20 State.init (calls ks) =
      Run.ret s) : Reachable SquareCache.DoGetByKey (S3FifoCache 10 100) s :=
  GetAll_reachable _ _ _ Reachable.init h

/-- C1, as stated, fails: in `main.cpp` (capacity 10) the ten calls `Get(1)`, ..., `Get(10)` all
return, and after the tenth the two resident queues together hold 10 entries, which is not
strictly below the capacity. -/
theorem C1_strict_bound_fails : ∃ s : State Int Int,
    GetAll SquareCache.DoGetByKey (S3FifoCache 10 100) 20 State.init
      (calls [1, 2, 3, 4, 5, 6, 7, 8, 9, 10]) = Run.ret s ∧
    Reachable SquareCache.DoGetByKey (S3FifoCache 10 100) s ∧
    ¬ (s._small_fifo.length + s._main_fifo.length < 10) :=
  ⟨_, rfl, main_reachable [1, 2, 3, 4, 5, 6, 7, 8, 9, 10] _ rfl, by decide⟩

/-- C1, amended: for every cache built with capacity `c` (in particular `c ≥ 1`) and every
finite sequence of `Get` calls on it, after each call that returns, `size(S) + size(M) ≤ c`
holds (the bound is not strict: `EnsureFree` makes the sum `< c` and the new entry is admitted
after it). -/
theorem C1_capacity_bound [Inhabited Key] [Inhabited Value] (c : Nat) (ttl : Int)
    (s : State Key Value) (h : Reachable D (S3FifoCache c ttl) s) :
    s._small_fifo.length + s._main_fifo.length ≤ c := by
  induction h with
  | init => simp [State.init]
  | get _ hr ih => exact Get_size hr ih

/-- C1, amended, at the state of `main.cpp` after `Get(1)`, ..., `Get(10)`. -/
theorem C1_capacity_bound_witness : ∃ s : State Int Int,
    GetAll SquareCache.DoGetByKey (S3FifoCache 10 100) 20 State.init
      (calls [1, 2, 3, 4, 5, 6, 7, 8, 9, 10]) = Run.ret s ∧
    s._small_fifo.length + s._main_fifo.length ≤ 10 :=
  ⟨_, rfl, C1_capacity_bound 10 100 _
    (main_reachable [1, 2, 3, 4, 5, 6, 7, 8, 9, 10] _ rfl)⟩

/-- C2, as stated, fails: in `main.cpp` (capacity 10), after `Get(1)`, ..., `Get(11)` and the
ghost hit `Get(2)`, the entry of key 2 (handle 1) is tracked and is held both in the main queue
and in the ghost queue. -/
theorem C2_two_queues : ∃ s : State Int Int,
    GetAll SquareCache.DoGetByKey (S3FifoCache 10 100) 20 State.init
      (calls [1, 2, 3, 4, 5, 6, 7, 8, 9, 10, 11, 2]) = Run.ret s ∧
    Reachable SquareCache.DoGetByKey (S3FifoCache 10 100) s ∧
    find s._table 2 = some 1 ∧ 1 ∈ s._main_fifo ∧ 1 ∈ s._ghost_fifo ∧
    (s._small_fifo ++ s._main_fifo ++ s._ghost_fifo).count 1 = 2 :=
  ⟨_, rfl, main_reachable [1, 2, 3, 4, 5, 6, 7, 8, 9, 10, 11, 2] _ rfl, by decide⟩

/-- C2, amended: in every state reachable from a fresh cache by `Get` calls, each entry held in
`_table` occurs exactly once in `S ++ M ++ G'`, where `G'` is the ghost queue without its stale
references to resurrected entries (those whose frequency is not `-1`); in the ghost queue itself
it occurs at most once. -/
theorem C2_one_queue [Inhabited Key] [Inhabited Value] (cfg : Config) (s : State Key Value)
    (k : Key) (p : Nat) (h : Reachable D cfg s) (hk : find s._table k = some p) :
    (s._small_fifo ++ s._main_fifo ++
      s._ghost_fifo.filter (fun q => decide ((s.heap q).freq = -1))).count p = 1 ∧
    s._ghost_fifo.count p ≤ 1 := by
  have hi := h.inv
  have hmem := find_eq_some_mem hk
  have hgn : (s._ghost_fifo.filter (fun q => decide ((s.heap q).freq = -1))).Nodup :=
    hi.g_nodup.filter _
  refine ⟨?_, List.nodup_iff_count_le_one.1 hi.g_nodup p⟩
  rw [List.count_append]
  rcases hi.tracked k p hmem with x | x | x | x
  · have hx : p ∈ s._small_fifo ++ s._main_fifo := List.mem_append_left _ x
    rw [List.count_eq_one_of_mem hi.sm_nodup hx, List.count_eq_zero_of_not_mem]
    intro y
    exact hi.s_g p x (List.mem_of_mem_filter y)
  · have hx : p ∈ s._small_fifo ++ s._main_fifo := List.mem_append_right _ x
    rw [List.count_eq_one_of_mem hi.sm_nodup hx, List.count_eq_zero_of_not_mem]
    intro y
    have := (List.mem_filter.1 y).2
    simp only [decide_eq_true_eq] at this
    have := (hi.sm_live p (Or.inr x)).1
    omega
  · have hf : (s.heap p).freq = -1 := by have := hi.frange p; omega
    have hx : p ∈ s._ghost_fifo.filter (fun q => decide ((s.heap q).freq = -1)) :=
      List.mem_filter.2 ⟨x.1, by simpa using hf⟩
    rw [List.count_eq_one_of_mem hgn hx, List.count_eq_zero_of_not_mem]
    intro y
    have := (hi.sm_live p (List.mem_append.1 y)).1
    omega
  · cases x

/-- C2, amended, at the state of `main.cpp` after the ghost hit `Get(2)`, for key 2. -/
theorem C2_one_queue_witness : ∃ s : State Int Int,
    GetAll SquareCache.DoGetByKey (S3FifoCache 10 100) 20 State.init
      (calls [1, 2, 3, 4, 5, 6, 7, 8, 9, 10, 11, 2]) = Run.ret s ∧
    ((s._small_fifo ++ s._main_fifo ++
      s._ghost_fifo.filter (fun q => decide ((s.heap q).freq = -1))).count 1 = 1 ∧
    s._ghost_fifo.count 1 ≤ 1) :=
  ⟨_, rfl, C2_one_queue (S3FifoCache 10 100) _ 2 1
    (main_reachable [1, 2, 3, 4, 5, 6, 7, 8, 9, 10, 11, 2] _ rfl) (by decide)⟩

end Claims
section Claims2
variable {Key Value : Type} [DecidableEq Key] {D : Key → Value}

theorem Run.holds_elim {α : Type} {r : Run α} {P : α → Prop} (h : r.holds P) :
    ∃ a, r = Run.ret a ∧ P a := by
  cases r with
  | ret a => exact ⟨a, rfl, h⟩
  | fuel => cases h
  | ub => cases h

theorem GetAll_mono {cfg : Config} {n m : Nat} (hnm : n ≤ m) :
    ∀ (ks : List (Key × Int)) (s s1 : State Key Value),
      GetAll D cfg n s ks = Run.ret s1 → GetAll D cfg m s ks = Run.ret s1 := by
  intro ks
  induction ks with
  | nil => intro s s1 hr; exact hr
  | cons e ks ih =>
    intro s s1 hr
    obtain ⟨key, now⟩ := e
    simp only [GetAll] at hr ⊢
    split at hr
    · rename_i s2 v hg
      rw [Get_mono hnm hg]
      exact ih _ _ hr
    · cases hr
    · cases hr

/-- From a state that satisfies the invariant, every `Get` with enough fuel returns the value
source applied to the key. -/
theorem Get_returns {cfg : Config} (hl : 1 ≤ cfg._cache_size_limit)
    (hm : 1 ≤ cfg._main_fifo_size) {s : State Key Value} (h : Inv D s none) (key : Key)
    (now : Int) :
    ∃ N, ∀ fuel, N ≤ fuel → ∃ s1, Get D cfg fuel s key now = Run.ret (s1, some (D key)) := by
  obtain ⟨n, ⟨s1, v⟩, hr⟩ := Get_total hl hm h key now
  have hv := Get_value h hr
  subst hv
  exact ⟨n, fun fuel hf => ⟨s1, Get_mono hf hr⟩⟩

/-- With capacity 0 no `Get` ever returns, so the cache stays empty. -/
theorem Reachable.zero_cap [Inhabited Key] [Inhabited Value] {ttl : Int} {s : State Key Value}
    (h : Reachable D (S3FifoCache 0 ttl) s) : s._table = [] ∧ s._small_fifo = [] := by
  induction h with
  | init => exact ⟨rfl, rfl⟩
  | get _ hr ih =>
    rename_i s0 s1 fuel key now v _
    exfalso
    unfold Get at hr
    rw [ih.1] at hr
    simp only [find] at hr
    split at hr
    · rename_i s3 he
      have := EnsureFree_post _ _ _ he
      simp [S3FifoCache] at this
    · cases hr
    · cases hr

/-- A cache that tracks a key or holds an entry in `_small_fifo` has capacity at least 1. -/
theorem Reachable.cap_pos [Inhabited Key] [Inhabited Value] {c : Nat} {ttl : Int}
    {s : State Key Value} (h : Reachable D (S3FifoCache c ttl) s)
    (hne : s._table ≠ [] ∨ s._small_fifo ≠ []) : 1 ≤ c := by
  rcases Nat.eq_zero_or_pos c with e | e
  · subst e
    have := h.zero_cap
    rcases hne with x | x
    · exact absurd this.1 x
    · exact absurd this.2 x
  · exact e

/-- C3: for every capacity `c ≥ 1`, every state reachable by `Get` calls and every key `k`,
`Get(k)` returns (once the loops are given enough fuel) and what it returns is a present value,
the value source applied to `k`; this covers cold misses, ghost hits and normal hits. -/
theorem C3_transparency [Inhabited Key] [Inhabited Value] (c : Nat) (ttl : Int)
    (s : State Key Value) (k : Key) (now : Int) (hc : 1 ≤ c)
    (h : Reachable D (S3FifoCache c ttl) s) :
    ∃ N, ∀ fuel, N ≤ fuel →
      ∃ s1, Get D (S3FifoCache c ttl) fuel s k now = Run.ret (s1, some (D k)) :=
  Get_returns hc (S3FifoCache_main_pos hc ttl) h.inv k now

/-- C3 at the state of `main.cpp` after `Get(1)`, ..., `Get(11)`, for the ghost key 2. -/
theorem C3_transparency_witness : ∃ s : State Int Int,
    GetAll SquareCache.DoGetByKey (S3FifoCache 10 100) 20 State.init
      (calls [1, 2, 3, 4, 5, 6, 7, 8, 9, 10, 11]) = Run.ret s ∧
    ∃ N, ∀ fuel, N ≤ fuel → ∃ s1,
      Get SquareCache.DoGetByKey (S3FifoCache 10 100) fuel s 2 0 =
        Run.ret (s1, some (SquareCache.DoGetByKey 2)) :=
  ⟨_, rfl, C3_transparency 10 100 _ 2 0 (by decide)
    (main_reachable [1, 2, 3, 4, 5, 6, 7, 8, 9, 10, 11] _ rfl)⟩

/-- C4, as stated, fails: after `Get(1)` on the cache of `main.cpp`, key 1 is tracked, and it is
still tracked after `Delete(1)`. -/
theorem C4_delete_keeps_key : ∃ s : State Int Int,
    GetAll SquareCache.DoGetByKey (S3FifoCache 10 100) 20 State.init (calls [1]) = Run.ret s ∧
    Reachable SquareCache.DoGetByKey (S3FifoCache 10 100) s ∧
    Has s 1 = true ∧ Has (Delete s 1) 1 = true ∧ (Delete s 1)._small_fifo = [0] :=
  ⟨_, rfl, main_reachable [1] _ rfl, by decide⟩

/-- C4, amended: `Delete(k)` changes nothing, whether or not `k` is tracked: the state after it
is the state before it, so `Has` answers for every key what it answered before. -/
theorem C4_delete_noop (s : State Key Value) (k : Key) :
    Delete s k = s ∧ ∀ k1, Has (Delete s k) k1 = Has s k1 :=
  ⟨rfl, fun _ => rfl⟩

set_option maxHeartbeats 4000000 in
set_option maxRecDepth 100000 in
theorem main_scenario_fuel12 [Inhabited Key] [Inhabited Value] (D : Key → Value) (ttl : Int)
    (k1 k2 k3 k4 k5 k6 k7 k8 k9 k10 k11 : Key) (t1 t2 t3 t4 t5 t6 t7 t8 t9 t10 t11 : Int)
    (hd : [k1, k2, k3, k4, k5, k6, k7, k8, k9, k10, k11].Nodup) :
    (GetAll D (S3FifoCache 10 ttl) 12 State.init
        [(k1, t1), (k2, t2), (k3, t3), (k4, t4), (k5, t5), (k6, t6), (k7, t7), (k8, t8),
          (k9, t9), (k10, t10)]).holds (fun s10 =>
      (∀ k, k ∈ [k1, k2, k3, k4, k5, k6, k7, k8, k9, k10] → Has s10 k = true) ∧
      (Get D (S3FifoCache 10 ttl) 12 s10 k11 t11).holds (fun r =>
        r.2 = some (D k11) ∧ Has r.1 k1 = false ∧ Has r.1 k10 = true)) := by
  have hr := List.nodup_reverse.2 hd
  simp only [List.nodup_cons, List.mem_cons, List.mem_singleton, not_or, List.not_mem_nil,
    not_false_eq_true, List.nodup_nil, and_true, List.reverse_cons, List.reverse_nil,
    List.nil_append, List.cons_append, List.singleton_append] at hd hr
  simp [GetAll, Get, EnsureFree, EvictS, EvictM, InsertG, GhostIsFull, RemoveItem, InsertM,
    setFreq, find, erase, hd, hr, InsertS, State.init, S3FifoCache, roundSmall, Run.holds, Has,
    Function.update_apply]

/-- C5: on a cache of capacity 10 (small share 1, main share 9), for any 11 pairwise distinct
keys requested once each in order (whatever the value source, the ttl and the clock readings),
the first ten `Get` calls return and leave each of `k1`, ..., `k10` tracked; then `Get(k11)`
returns, and after it `Has(k1)` is false while `Has(k10)` is true. -/
theorem C5_eviction_scenario [Inhabited Key] [Inhabited Value] (D : Key → Value) (ttl : Int)
    (k1 k2 k3 k4 k5 k6 k7 k8 k9 k10 k11 : Key) (t1 t2 t3 t4 t5 t6 t7 t8 t9 t10 t11 : Int)
    (fuel : Nat) (hd : [k1, k2, k3, k4, k5, k6, k7, k8, k9, k10, k11].Nodup)
    (hfuel : 12 ≤ fuel) :
    (S3FifoCache 10 ttl)._small_fifo_size = 1 ∧ (S3FifoCache 10 ttl)._main_fifo_size = 9 ∧
    ∃ s10 s11, GetAll D (S3FifoCache 10 ttl) fuel State.init
        [(k1, t1), (k2, t2), (k3, t3), (k4, t4), (k5, t5), (k6, t6), (k7, t7), (k8, t8),
          (k9, t9), (k10, t10)] = Run.ret s10 ∧
      (∀ k, k ∈ [k1, k2, k3, k4, k5, k6, k7, k8, k9, k10] → Has s10 k = true) ∧
      Get D (S3FifoCache 10 ttl) fuel s10 k11 t11 = Run.ret (s11, some (D k11)) ∧
      Has s11 k1 = false ∧ Has s11 k10 = true := by
  refine ⟨rfl, rfl, ?_⟩
  obtain ⟨s10, h10, hall, hg⟩ :=
    Run.holds_elim (main_scenario_fuel12 D ttl k1 k2 k3 k4 k5 k6 k7 k8 k9 k10 k11
      t1 t2 t3 t4 t5 t6 t7 t8 t9 t10 t11 hd)
  obtain ⟨⟨s11, v⟩, h11, hv, hk1, hk10⟩ := Run.holds_elim hg
  simp only at hv hk1 hk10
  subst hv
  exact ⟨s10, s11, GetAll_mono hfuel _ _ _ h10, hall, Get_mono hfuel h11, hk1, hk10⟩

/-- C5 at the keys 1, ..., 11 of `main.cpp`, with fuel 12. -/
theorem C5_eviction_scenario_witness :
    (S3FifoCache 10 100)._small_fifo_size = 1 ∧ (S3FifoCache 10 100)._main_fifo_size = 9 ∧
    ∃ s10 s11 : State Int Int, GetAll SquareCache.DoGetByKey (S3FifoCache 10 100) 12 State.init
        [(1, 0), (2, 0), (3, 0), (4, 0), (5, 0), (6, 0), (7, 0), (8, 0), (9, 0), (10, 0)] =
          Run.ret s10 ∧
      (∀ k, k ∈ [(1 : Int), 2, 3, 4, 5, 6, 7, 8, 9, 10] → Has s10 k = true) ∧
      Get SquareCache.DoGetByKey (S3FifoCache 10 100) 12 s10 11 0 =
        Run.ret (s11, some (SquareCache.DoGetByKey 11)) ∧
      Has s11 1 = false ∧ Has s11 10 = true :=
  C5_eviction_scenario SquareCache.DoGetByKey 100 1 2 3 4 5 6 7 8 9 10 11 0 0 0 0 0 0 0 0 0 0 0
    12 (by decide) (by decide)

/-- C6, the code at the failing input: in `main.cpp` (capacity 10), after `Get(1)`, ...,
`Get(11)`, `Get(2)`, `Get(12)`, key 2 is tracked and key 3 is tracked too (it is a ghost entry),
although line 35 of `main.cpp` asserts `!cache.Has(3)`. -/
theorem C6_key3_still_tracked : ∃ s : State Int Int,
    GetAll SquareCache.DoGetByKey (S3FifoCache 10 100) 20 State.init
      (calls [1, 2, 3, 4, 5, 6, 7, 8, 9, 10, 11, 2, 12]) = Run.ret s ∧
    Reachable SquareCache.DoGetByKey (S3FifoCache 10 100) s ∧
    Has s 2 = true ∧ Has s 3 = true ∧ 2 ∈ s._ghost_fifo ∧ find s._table 3 = some 2 :=
  ⟨_, rfl, main_reachable [1, 2, 3, 4, 5, 6, 7, 8, 9, 10, 11, 2, 12] _ rfl, by decide⟩

end Claims2
section Claims3
variable {Key Value : Type} [DecidableEq Key] {D : Key → Value}

/-- The shape of a returning `Get` on a ghost entry: `EnsureFree` ran on the state with the two
counters bumped and the frequency reset to 0, and the entry was then pushed to `_main_fifo`. -/
theorem Get_ghost_hit {cfg : Config} {fuel : Nat} {s s1 : State Key Value} {key : Key}
    {now : Int} {v : Option Value} {p : Nat} (h : Inv D s none)
    (hk : find s._table key = some p) (hf : (s.heap p).freq = -1)
    (hr : Get D cfg fuel s key now = Run.ret (s1, v)) :
    ∃ s3, EnsureFree cfg fuel
        (setFreq { s with _hit_ghost_count := incr s._hit_ghost_count,
                          _miss_count := incr s._miss_count } p 0) = Run.ret s3 ∧
      Inv D s3 (some (key, p)) ∧ s1 = InsertM s3 p := by
  have hmem := find_eq_some_mem hk
  have hval := (h.tbl key p hmem).2.1
  unfold Get at hr
  simp only [hk, hf, if_true] at hr
  split at hr
  · rename_i s3 he
    rw [setValue_same { s with _hit_ghost_count := incr s._hit_ghost_count,
                               _miss_count := incr s._miss_count } p (D key) hval] at he
    have h1 : Inv D { s with _hit_ghost_count := incr s._hit_ghost_count,
                             _miss_count := incr s._miss_count } none :=
      h.congr rfl rfl rfl rfl rfl rfl
    have h2 := EnsureFree_inv _ _ _ (h1.resurrect hmem (by simp only; omega)) he
    have hq := mem_find_of_nodup h2.keys_nodup (h2.pend_ok key p rfl).2.2.2
    rw [hq] at hr
    simp only [Run.ret.injEq, Prod.mk.injEq] at hr
    exact ⟨s3, he, h2, hr.1.symm⟩
  · cases hr
  · cases hr

/-- C7: for every reachable state of a cache with capacity `c ≥ 1` and every tracked key `k`
whose entry `p` has frequency `-1`, `Get(k)` returns (given enough fuel), and when it has
returned the entry of `k` is the front element of M, its frequency is 0, its value is
`DoGetByKey(k)`, that value is what `Get` returned, and `k` is still tracked by the same entry. -/
theorem C7_ghost_resurrection [Inhabited Key] [Inhabited Value] (c : Nat) (ttl : Int)
    (s : State Key Value) (k : Key) (p : Nat) (now : Int) (hc : 1 ≤ c)
    (h : Reachable D (S3FifoCache c ttl) s) (hk : find s._table k = some p)
    (hf : (s.heap p).freq = -1) :
    (∃ N, ∀ fuel, N ≤ fuel →
      ∃ s1, Get D (S3FifoCache c ttl) fuel s k now = Run.ret (s1, some (D k))) ∧
    ∀ fuel s1 v, Get D (S3FifoCache c ttl) fuel s k now = Run.ret (s1, v) →
      v = some (D k) ∧ s1._main_fifo.head? = some p ∧ (s1.heap p).freq = 0 ∧
        (s1.heap p).value = D k ∧ find s1._table k = some p ∧ Has s1 k = true := by
  refine ⟨Get_returns hc (S3FifoCache_main_pos hc ttl) h.inv k now, ?_⟩
  intro fuel s1 v hr
  obtain ⟨s3, _, h3, e⟩ := Get_ghost_hit h.inv hk hf hr
  have hd := (h3.pend_ok k p rfl).2.2.2
  have hq := mem_find_of_nodup h3.keys_nodup hd
  subst e
  refine ⟨Get_value h.inv hr, rfl, ?_, ?_, hq, ?_⟩
  · simp [InsertM]
  · simp only [InsertM, setFreq_value]; exact (h3.tbl k p hd).2.1
  · simp only [Has, InsertM, setFreq_table, hq, Option.isSome_some]

/-- C7 at the state of `main.cpp` after `Get(1)`, ..., `Get(11)`, for the ghost key 2 (entry 1). -/
theorem C7_ghost_resurrection_witness : ∃ s : State Int Int,
    GetAll SquareCache.DoGetByKey (S3FifoCache 10 100) 20 State.init
      (calls [1, 2, 3, 4, 5, 6, 7, 8, 9, 10, 11]) = Run.ret s ∧
    find s._table 2 = some 1 ∧ (s.heap 1).freq = -1 ∧
    ((∃ N, ∀ fuel, N ≤ fuel → ∃ s1,
      Get SquareCache.DoGetByKey (S3FifoCache 10 100) fuel s 2 0 =
        Run.ret (s1, some (SquareCache.DoGetByKey 2))) ∧
    ∀ fuel s1 v, Get SquareCache.DoGetByKey (S3FifoCache 10 100) fuel s 2 0 = Run.ret (s1, v) →
      v = some (SquareCache.DoGetByKey 2) ∧ s1._main_fifo.head? = some 1 ∧
        (s1.heap 1).freq = 0 ∧ (s1.heap 1).value = SquareCache.DoGetByKey 2 ∧
        find s1._table 2 = some 1 ∧ Has s1 2 = true) :=
  ⟨_, rfl, by decide, by decide, C7_ghost_resurrection 10 100 _ 2 1 0 (by decide)
    (main_reachable [1, 2, 3, 4, 5, 6, 7, 8, 9, 10, 11] _ rfl) (by decide) (by decide)⟩

/-- C8, as stated, fails: in `main.cpp` (capacity 10), after `Get(1)`, ..., `Get(11)` the entry
of key 2 has frequency `-1`; the ghost hit `Get(2)` returns and leaves `_hit_count` at 0, so
the hit count is not incremented. -/
theorem C8_hit_count_unchanged : ∃ s s1 : State Int Int,
    GetAll SquareCache.DoGetByKey (S3FifoCache 10 100) 20 State.init
      (calls [1, 2, 3, 4, 5, 6, 7, 8, 9, 10, 11]) = Run.ret s ∧
    Reachable SquareCache.DoGetByKey (S3FifoCache 10 100) s ∧
    find s._table 2 = some 1 ∧ (s.heap 1).freq = -1 ∧
    Get SquareCache.DoGetByKey (S3FifoCache 10 100) 20 s 2 0 = Run.ret (s1, some 4) ∧
    s._hit_count = 0 ∧ s1._hit_count = 0 ∧ s1._hit_count ≠ incr s._hit_count :=
  ⟨_, _, rfl, main_reachable [1, 2, 3, 4, 5, 6, 7, 8, 9, 10, 11] _ rfl, by decide, by decide,
    rfl, by decide⟩

/-- C8, amended: a `Get` on a tracked key whose entry has frequency `-1` returns (given enough
fuel) and increments exactly two counters by one each (as `size_t`, modulo `2 ^ 64`): the
ghost-hit count and the miss count; the hit count is left unchanged. -/
theorem C8_ghost_counters [Inhabited Key] [Inhabited Value] (c : Nat) (ttl : Int)
    (s : State Key Value) (k : Key) (p : Nat) (now : Int)
    (h : Reachable D (S3FifoCache c ttl) s) (hk : find s._table k = some p)
    (hf : (s.heap p).freq = -1) :
    (∃ N, ∀ fuel, N ≤ fuel →
      ∃ s1, Get D (S3FifoCache c ttl) fuel s k now = Run.ret (s1, some (D k))) ∧
    ∀ fuel s1 v, Get D (S3FifoCache c ttl) fuel s k now = Run.ret (s1, v) →
      s1._hit_ghost_count = (s._hit_ghost_count + 1) % 2 ^ 64 ∧
      s1._miss_count = (s._miss_count + 1) % 2 ^ 64 ∧
      s1._hit_count = s._hit_count := by
  have hc : 1 ≤ c := h.cap_pos (Or.inl (fun e => by rw [e] at hk; cases hk))
  refine ⟨Get_returns hc (S3FifoCache_main_pos hc ttl) h.inv k now, ?_⟩
  intro fuel s1 v hr
  obtain ⟨s3, he, _, e⟩ := Get_ghost_hit h.inv hk hf hr
  obtain ⟨_, a, b, c⟩ := (EnsureFree_frame _ _ _ he).1
  subst e
  exact ⟨b, c, a⟩

/-- C8, amended, at the state of `main.cpp` after `Get(1)`, ..., `Get(11)`, for the ghost
key 2. -/
theorem C8_ghost_counters_witness : ∃ s : State Int Int,
    GetAll SquareCache.DoGetByKey (S3FifoCache 10 100) 20 State.init
      (calls [1, 2, 3, 4, 5, 6, 7, 8, 9, 10, 11]) = Run.ret s ∧
    find s._table 2 = some 1 ∧ (s.heap 1).freq = -1 ∧
    ((∃ N, ∀ fuel, N ≤ fuel → ∃ s1,
      Get SquareCache.DoGetByKey (S3FifoCache 10 100) fuel s 2 0 =
        Run.ret (s1, some (SquareCache.DoGetByKey 2))) ∧
    ∀ fuel s1 v, Get SquareCache.DoGetByKey (S3FifoCache 10 100) fuel s 2 0 = Run.ret (s1, v) →
      s1._hit_ghost_count = (s._hit_ghost_count + 1) % 2 ^ 64 ∧
      s1._miss_count = (s._miss_count + 1) % 2 ^ 64 ∧
      s1._hit_count = s._hit_count) :=
  ⟨_, rfl, by decide, by decide, C8_ghost_counters 10 100 _ 2 1 0
    (main_reachable [1, 2, 3, 4, 5, 6, 7, 8, 9, 10, 11] _ rfl) (by decide) (by decide)⟩

theorem main_c9_run :
    (GetAll SquareCache.DoGetByKey (S3FifoCache 10 100) 20 State.init
      (calls [1, 1, 2, 2, 3, 3, 4, 4, 5, 5, 6, 6, 7, 7, 8, 8, 9, 9, 10, 11])).holds (fun s =>
      (s._main_fifo.length = 9 ∧ s._table.length = 11) ∧
      (EvictM 20 s).holds (fun s1 => s1._main_fifo = [] ∧ s1._table.length = 2) ∧
      (Get SquareCache.DoGetByKey (S3FifoCache 10 100) 20 s 12 0).holds (fun r =>
        r.2 = some 144 ∧ r.1._table.length = 3)) := by
  decide!

/-- C9, the code at the failing input: on the cache of `main.cpp` (capacity 10), after each of
the keys 1..9 was requested twice and the keys 10 and 11 once, M holds 9 entries and 11 keys are
tracked; one call of `EvictM` on this state empties M and removes 9 keys from `_table`, not 1;
the next `Get(12)` makes exactly this call and leaves 3 tracked keys. -/
theorem C9_evictM_drains : ∃ s s1 s2 : State Int Int,
    GetAll SquareCache.DoGetByKey (S3FifoCache 10 100) 20 State.init
      (calls [1, 1, 2, 2, 3, 3, 4, 4, 5, 5, 6, 6, 7, 7, 8, 8, 9, 9, 10, 11]) = Run.ret s ∧
    Reachable SquareCache.DoGetByKey (S3FifoCache 10 100) s ∧
    s._main_fifo.length = 9 ∧ s._table.length = 11 ∧
    EvictM 20 s = Run.ret s1 ∧ s1._main_fifo = [] ∧ s1._table.length = 2 ∧
    Get SquareCache.DoGetByKey (S3FifoCache 10 100) 20 s 12 0 = Run.ret (s2, some 144) ∧
    s2._table.length = 3 := by
  obtain ⟨s, hs, ⟨a1, a2⟩, hb, hc⟩ := Run.holds_elim main_c9_run
  obtain ⟨s1, hs1, b1, b2⟩ := Run.holds_elim hb
  obtain ⟨⟨s2, v⟩, hs2, c1, c2⟩ := Run.holds_elim hc
  simp only at c1 c2
  subst c1
  exact ⟨s, s1, s2, hs, main_reachable _ _ hs, a1, a2, hs1, b1, b2, hs2, c2⟩

end Claims3
section Claims4
variable {Key Value : Type} [DecidableEq Key] {D : Key → Value}

theorem InsertG_heap {cfg : Config} {s s1 : State Key Value} {p : Nat}
    (hr : InsertG cfg s p = Run.ret s1) : s1.heap = (setFreq s p (-1)).heap := by
  unfold InsertG at hr
  split at hr
  · split at hr
    · cases hr
    · rename_i item hitem
      by_cases hf : (s.heap item).freq < 0
      · simp only [hf, if_true, Run.ret.injEq] at hr
        subst hr; rfl
      · simp only [hf, if_false, Run.ret.injEq] at hr
        subst hr; rfl
  · simp only [Run.ret.injEq] at hr
    subst hr; rfl

/-- The loop of `EvictS` never changes the key stored in a node. -/
theorem EvictS_key {cfg : Config} : ∀ (n : Nat) (s s1 : State Key Value),
    EvictS cfg n s = Run.ret s1 → ∀ q, (s1.heap q).key = (s.heap q).key := by
  intro n
  induction n with
  | zero => intro s s1 hr; simp [EvictS] at hr
  | succ n ih =>
    intro s s1 hr q
    rw [EvictS_succ] at hr
    split at hr
    · cases hr; rfl
    · rename_i tail hl
      split at hr
      · rw [ih _ _ hr q]; simp [InsertM]
      · split at hr
        · rename_i s2 hg
          rw [ih _ _ hr q, InsertG_heap hg]; simp
        · cases hr
        · cases hr

/-- Loop invariant of `EvictS` for one entry: an entry that waits in `_small_fifo` with a
positive frequency, or that already sits in `_main_fifo` with frequency 0 and outside the ghost
queue, is in `_main_fifo` with frequency 0 and outside the ghost queue when the loop ends. -/
theorem EvictS_promoted {cfg : Config} {pend} : ∀ (n : Nat) (s s1 : State Key Value),
    Inv D s pend → EvictS cfg n s = Run.ret s1 → ∀ p,
      (p ∈ s._small_fifo ∧ 0 < (s.heap p).freq) ∨
        (p ∈ s._main_fifo ∧ (s.heap p).freq = 0 ∧ p ∉ s._ghost_fifo) →
      p ∈ s1._main_fifo ∧ (s1.heap p).freq = 0 ∧ p ∉ s1._ghost_fifo := by
  intro n
  induction n with
  | zero => intro s s1 _ hr; simp [EvictS] at hr
  | succ n ih =>
    intro s s1 h hr p hp
    rw [EvictS_succ] at hr
    split at hr
    · rename_i hl
      cases hr
      have hS := List.getLast?_eq_none_iff.1 hl
      rcases hp with x | x
      · rw [hS] at x; cases x.1
      · exact x
    · rename_i tail hl
      have hS := getLast?_split hl
      have hts : tail ∈ s._small_fifo := mem_of_getLast? hl
      obtain ⟨hn1, hn2, hn3⟩ := nodup_split_left hl h.sm_nodup
      split at hr
      · rename_i hf
        apply ih _ _ (h.promote hl) hr p
        by_cases e : p = tail
        · subst e
          right
          exact ⟨by simp [InsertM], by simp [InsertM], by simpa [InsertM] using h.s_g p hts⟩
        · rcases hp with x | x
          · left
            refine ⟨?_, ?_⟩
            · have := x.1
              rw [hS] at this
              rcases List.mem_append.1 this with y | y
              · simpa [InsertM] using y
              · exact absurd (List.mem_singleton.1 y) e
            · simp only [InsertM]; rw [setFreq_freq_other _ _ e]; exact x.2
          · right
            refine ⟨by simp [InsertM, x.1], ?_, by simpa [InsertM] using x.2.2⟩
            simp only [InsertM]; rw [setFreq_freq_other _ _ e]; exact x.2.1
      · rename_i hf
        split at hr
        · rename_i s2 hg
          apply ih _ _ (h.insertG hl hg) hr p
          obtain ⟨_, fS, fM, fG⟩ := InsertG_frame hg
          have fH := InsertG_heap hg
          have e : p ≠ tail := by
            intro e; subst e
            rcases hp with x | x
            · exact hf x.2
            · exact hn2 x.1
          have hfreq : (s2.heap p).freq = (s.heap p).freq := by
            rw [fH, setFreq_freq_other _ _ e]
          rcases hp with x | x
          · left
            refine ⟨?_, by rw [hfreq]; exact x.2⟩
            rw [fS]
            have := x.1
            rw [hS] at this
            rcases List.mem_append.1 this with y | y
            · exact y
            · exact absurd (List.mem_singleton.1 y) e
          · right
            refine ⟨by rw [fM]; exact x.1, by rw [hfreq]; exact x.2.1, ?_⟩
            intro y
            rcases fG p y with z | z
            · exact e z
            · exact x.2.2 z
        · cases hr
        · cases hr

end Claims4
section Claims5
variable {Key Value : Type} [DecidableEq Key] {D : Key → Value}

theorem HasTimes_state (n : Nat) (s : State Key Value) (k : Key) :
    (HasTimes n s k).1 = s ∧ ∀ b, b ∈ (HasTimes n s k).2 → b = Has s k := by
  induction n with
  | zero => exact ⟨rfl, fun b hb => by cases hb⟩
  | succ n ih =>
    refine ⟨ih.1, ?_⟩
    intro b hb
    simp only [HasTimes, HasCall, List.mem_cons] at hb
    rcases hb with e | e
    · exact e
    · exact ih.2 b e

/-- C15: for every state and key `k`, `Has(k)` is true exactly when `k` is a key of `_table`,
and any number of calls of `Has(k)` hands back the very same state: every node (so every
frequency), the three queues with their order, the table and all counters are unchanged, and
every call gives the same answer. -/
theorem C15_has_pure (s : State Key Value) (k : Key) (n : Nat) :
    (Has s k = true ↔ ∃ p, (k, p) ∈ s._table) ∧
    (HasCall s k).1 = s ∧ (HasTimes n s k).1 = s ∧
    ∀ b, b ∈ (HasTimes n s k).2 → b = Has s k := by
  refine ⟨?_, rfl, HasTimes_state n s k⟩
  unfold Has
  constructor
  · intro h
    cases hf : find s._table k with
    | none => rw [hf] at h; cases h
    | some p => exact ⟨p, find_eq_some_mem hf⟩
  · rintro ⟨p, hp⟩
    cases hf : find s._table k with
    | none => exact absurd hp (find_eq_none_iff.1 hf p)
    | some q => rfl

/-- C16: for every capacity `c ≥ 1` and every state (reachable between two calls of `Get`, or
the one `Get` hands to `EnsureFree`), `EnsureFree` returns once the fuel is large enough, and
whenever it returns `size(S) + size(M) < c`. -/
theorem C16_ensure_free (c : Nat) (ttl : Int) (s : State Key Value) (hc : 1 ≤ c) :
    (∃ N, ∀ fuel, N ≤ fuel → ∃ s1, EnsureFree (S3FifoCache c ttl) fuel s = Run.ret s1) ∧
    ∀ fuel s1, EnsureFree (S3FifoCache c ttl) fuel s = Run.ret s1 →
      s1._small_fifo.length + s1._main_fifo.length < c := by
  constructor
  · have hl : 1 ≤ (S3FifoCache c ttl)._cache_size_limit := hc
    obtain ⟨n, s1, h⟩ := EnsureFree_total hl (S3FifoCache_main_pos hc ttl) s
    exact ⟨n, fun fuel hf => ⟨s1, EnsureFree_mono hf h⟩⟩
  · intro fuel s1 h
    exact EnsureFree_post _ _ _ h

/-- C16 at the state of `main.cpp` after `Get(1)`, ..., `Get(10)`, where S holds 10 entries. -/
theorem C16_ensure_free_witness : ∃ s : State Int Int,
    GetAll SquareCache.DoGetByKey (S3FifoCache 10 100) 20 State.init
      (calls [1, 2, 3, 4, 5, 6, 7, 8, 9, 10]) = Run.ret s ∧
    ((∃ N, ∀ fuel, N ≤ fuel → ∃ s1, EnsureFree (S3FifoCache 10 100) fuel s = Run.ret s1) ∧
    ∀ fuel s1, EnsureFree (S3FifoCache 10 100) fuel s = Run.ret s1 →
      s1._small_fifo.length + s1._main_fifo.length < 10) :=
  ⟨_, rfl, C16_ensure_free 10 100 _ (by decide)⟩

/-- The normal-hit branch of `Get`, spelled out: what is returned and what is written. -/
theorem Get_normal_hit (DoGetByKey : Key → Value) (cfg : Config) (s : State Key Value)
    (k : Key) (p : Nat) (now : Int) (hk : find s._table k = some p)
    (h0 : 0 ≤ (s.heap p).freq) (h3 : (s.heap p).freq ≤ 3) :
    ∃ s1, (∀ fuel, Get DoGetByKey cfg fuel s k now = Run.ret (s1, some (s.heap p).value)) ∧
      (s1.heap p).freq = min ((s.heap p).freq + 1) 3 ∧
      (s1.heap p).value = (s.heap p).value ∧ (s1.heap p).key = (s.heap p).key ∧
      (s1.heap p).expire_time = (s.heap p).expire_time ∧
      (∀ q, q ≠ p → s1.heap q = s.heap q) ∧
      s1._hit_count = (s._hit_count + 1) % 2 ^ 64 ∧
      s1._small_fifo = s._small_fifo ∧ s1._main_fifo = s._main_fifo ∧
      s1._ghost_fifo = s._ghost_fifo ∧ s1._table = s._table ∧
      s1._miss_count = s._miss_count ∧ s1._hit_ghost_count = s._hit_ghost_count ∧
      s1._removed_count = s._removed_count ∧
      (s._hit_count + 1 < 2 ^ 64 → s1._hit_count = s._hit_count + 1) := by
  have hne : (s.heap p).freq ≠ -1 := by omega
  by_cases hm : (s.heap p).freq = 3
  · refine ⟨{ s with _hit_count := incr s._hit_count }, ?_, ?_, rfl, rfl, rfl, fun _ _ => rfl,
      rfl, rfl, rfl, rfl, rfl, rfl, rfl, rfl, fun hlt => Nat.mod_eq_of_lt hlt⟩
    · intro fuel
      unfold Get
      simp [hk, hne, hm, kS3FifoMaxFreq]
    · simp only [hm]; decide
  · refine ⟨setFreq { s with _hit_count := incr s._hit_count } p ((s.heap p).freq + 1), ?_, ?_,
      ?_, ?_, ?_, ?_, rfl, rfl, rfl, rfl, rfl, rfl, rfl, rfl, fun hlt => Nat.mod_eq_of_lt hlt⟩
    · intro fuel
      unfold Get
      simp [hk, hne, hm, kS3FifoMaxFreq]
    · rw [setFreq_freq_same]
      have : (s.heap p).freq + 1 ≤ 3 := by omega
      simp only [min_def, this, if_true]
    · simp
    · simp
    · simp [setFreq]
    · intro q hq
      simp [setFreq, Function.update_noteq hq]

/-- C19: for every state (in particular every reachable one) and every tracked key `k` whose
entry `p` has frequency `f` in `0..3`, `Get(k)` returns, whatever the fuel, the stored value;
afterwards the frequency of `p` is `min (f + 1) 3`, the hit counter is one higher (as `size_t`:
exactly `+ 1` unless the 64-bit counter was at its maximum), the key, value and expiration time
of `p`, every other node, the queues S, M and G, the table and the miss, ghost-hit and removed
counters are unchanged. -/
theorem C19_normal_hit (DoGetByKey : Key → Value) (cfg : Config) (s : State Key Value)
    (k : Key) (p : Nat) (now : Int) (hk : find s._table k = some p)
    (h0 : 0 ≤ (s.heap p).freq) (h3 : (s.heap p).freq ≤ 3) :
    ∃ s1, (∀ fuel, Get DoGetByKey cfg fuel s k now = Run.ret (s1, some (s.heap p).value)) ∧
      (s1.heap p).freq = min ((s.heap p).freq + 1) 3 ∧
      (s1.heap p).value = (s.heap p).value ∧ (s1.heap p).key = (s.heap p).key ∧
      (s1.heap p).expire_time = (s.heap p).expire_time ∧
      (∀ q, q ≠ p → s1.heap q = s.heap q) ∧
      s1._hit_count = (s._hit_count + 1) % 2 ^ 64 ∧
      s1._small_fifo = s._small_fifo ∧ s1._main_fifo = s._main_fifo ∧
      s1._ghost_fifo = s._ghost_fifo ∧ s1._table = s._table ∧
      s1._miss_count = s._miss_count ∧ s1._hit_ghost_count = s._hit_ghost_count ∧
      s1._removed_count = s._removed_count ∧
      (s._hit_count + 1 < 2 ^ 64 → s1._hit_count = s._hit_count + 1) :=
  Get_normal_hit DoGetByKey cfg s k p now hk h0 h3

theorem main_c19_run :
    (GetAll SquareCache.DoGetByKey (S3FifoCache 10 100) 20 State.init (calls [1])).holds
      (fun s => find s._table 1 = some 0 ∧ 0 ≤ (s.heap 0).freq ∧ (s.heap 0).freq ≤ 3) := by
  decide

/-- C19 at the state of `main.cpp`'s cache after `Get(1)`, for a second `Get(1)`. -/
theorem C19_normal_hit_witness : ∃ s s1 : State Int Int,
    GetAll SquareCache.DoGetByKey (S3FifoCache 10 100) 20 State.init (calls [1]) = Run.ret s ∧
    find s._table 1 = some 0 ∧
    (∀ fuel, Get SquareCache.DoGetByKey (S3FifoCache 10 100) fuel s 1 0 =
      Run.ret (s1, some (s.heap 0).value)) ∧
    (s1.heap 0).freq = min ((s.heap 0).freq + 1) 3 ∧
    s1._hit_count = (s._hit_count + 1) % 2 ^ 64 ∧ s1._small_fifo = s._small_fifo := by
  obtain ⟨s, hs, a1, a2, a3⟩ := Run.holds_elim main_c19_run
  obtain ⟨s1, h1, h2, _, _, _, _, h3, h4, _⟩ :=
    C19_normal_hit SquareCache.DoGetByKey (S3FifoCache 10 100) s 1 0 0 a1 a2 a3
  exact ⟨s, s1, hs, a1, h1, h2, h3, h4⟩

end Claims5
section Claims6
variable {Key Value : Type} [DecidableEq Key] {D : Key → Value}

/-- Repeated normal hits on one key: the frequency climbs by one per hit and stops at 3. -/
theorem GetAll_hits (V : Key → Value) (cfg : Config) (fuel : Nat) (k : Key) (p : Nat) :
    ∀ (ts : List Int) (s : State Key Value), find s._table k = some p →
      0 ≤ (s.heap p).freq → (s.heap p).freq ≤ 3 →
      ∃ s1, GetAll V cfg fuel s (ts.map (fun t => (k, t))) = Run.ret s1 ∧
        find s1._table k = some p ∧
        (s1.heap p).freq = min ((s.heap p).freq + (ts.length : Int)) 3 := by
  intro ts
  induction ts with
  | nil =>
    intro s hk h0 h3
    refine ⟨s, rfl, hk, ?_⟩
    simp only [List.length_nil, Nat.cast_zero, add_zero, min_def, h3, if_true]
  | cons t ts ih =>
    intro s hk h0 h3
    obtain ⟨s2, hg, hf, _, _, _, _, _, _, _, _, ht, _⟩ :=
      Get_normal_hit V cfg s k p t hk h0 h3
    have hk2 : find s2._table k = some p := by rw [ht]; exact hk
    have h02 : 0 ≤ (s2.heap p).freq := by
      rw [hf]; simp only [min_def]; split <;> omega
    have h32 : (s2.heap p).freq ≤ 3 := by
      rw [hf]; simp only [min_def]; split <;> omega
    obtain ⟨s1, hr, hk1, hf1⟩ := ih s2 hk2 h02 h32
    refine ⟨s1, ?_, hk1, ?_⟩
    · simp only [List.map_cons, GetAll, hg fuel]
      exact hr
    · rw [hf1, hf]
      simp only [List.length_cons, Nat.cast_add, Nat.cast_one, min_def]
      split <;> split <;> split <;> omega

/-- C12: in every state reachable by `Get` calls every entry of `_table` has its frequency in
`-1..3`; any number of repeated `Get` hits on a resident key (frequency `f ≥ 0`) return and
leave its frequency at `min (f + n) 3`, never above `kS3FifoMaxFreq = 3`; and no returning
`Get` on a tracked key (normal hit or ghost hit) lowers the frequency of its entry. -/
theorem C12_frequency_saturation [Inhabited Key] [Inhabited Value] (c : Nat) (ttl : Int)
    (s : State Key Value) (h : Reachable D (S3FifoCache c ttl) s) :
    (∀ k p, find s._table k = some p →
      -1 ≤ (s.heap p).freq ∧ (s.heap p).freq ≤ kS3FifoMaxFreq) ∧
    (∀ k p (ts : List Int) fuel, find s._table k = some p → 0 ≤ (s.heap p).freq →
      ∃ s1, GetAll D (S3FifoCache c ttl) fuel s (ts.map (fun t => (k, t))) = Run.ret s1 ∧
        find s1._table k = some p ∧
        (s1.heap p).freq = min ((s.heap p).freq + (ts.length : Int)) 3 ∧
        (s1.heap p).freq ≤ kS3FifoMaxFreq ∧ (s.heap p).freq ≤ (s1.heap p).freq) ∧
    (∀ k p fuel now s1 v, find s._table k = some p →
      Get D (S3FifoCache c ttl) fuel s k now = Run.ret (s1, v) →
      (s.heap p).freq ≤ (s1.heap p).freq ∧ (s1.heap p).freq ≤ kS3FifoMaxFreq) := by
  have hi := h.inv
  refine ⟨fun k p _ => hi.frange p, ?_, ?_⟩
  · intro k p ts fuel hk h0
    have h3 := (hi.frange p).2
    obtain ⟨s1, hr, hk1, hf1⟩ := GetAll_hits D (S3FifoCache c ttl) fuel k p ts s hk h0 h3
    refine ⟨s1, hr, hk1, hf1, ?_, ?_⟩
    · rw [hf1]; simp only [kS3FifoMaxFreq, min_def]; split <;> omega
    · rw [hf1]; simp only [min_def]; split <;> omega
  · intro k p fuel now s1 v hk hr
    have hi1 := Get_inv hi hr
    refine ⟨?_, (hi1.frange p).2⟩
    by_cases hf : (s.heap p).freq = -1
    · obtain ⟨s3, _, _, e⟩ := Get_ghost_hit hi hk hf hr
      subst e
      simp only [InsertM, setFreq_freq_same]
      omega
    · have h0 : 0 ≤ (s.heap p).freq := by have := (hi.frange p).1; omega
      obtain ⟨s2, hg, hf2, _⟩ :=
        Get_normal_hit D (S3FifoCache c ttl) s k p now hk h0 (hi.frange p).2
      rw [hg fuel] at hr
      simp only [Run.ret.injEq, Prod.mk.injEq] at hr
      rw [← hr.1, hf2]
      have h3 := (hi.frange p).2
      simp only [min_def]; split <;> omega

theorem main_c12_run :
    (GetAll SquareCache.DoGetByKey (S3FifoCache 10 100) 20 State.init (calls [1])).holds
      (fun s => find s._table 1 = some 0 ∧ (s.heap 0).freq = 0) := by
  decide

/-- C12 at the state of `main.cpp`'s cache after `Get(1)`: five more hits on key 1 leave the
frequency of its entry at 3. -/
theorem C12_frequency_saturation_witness : ∃ s s1 : State Int Int,
    GetAll SquareCache.DoGetByKey (S3FifoCache 10 100) 20 State.init (calls [1]) = Run.ret s ∧
    find s._table 1 = some 0 ∧ (s.heap 0).freq = 0 ∧
    GetAll SquareCache.DoGetByKey (S3FifoCache 10 100) 20 s
      ([0, 0, 0, 0, 0].map (fun t => ((1 : Int), t))) = Run.ret s1 ∧
    (s1.heap 0).freq = 3 := by
  obtain ⟨s, hs, a1, a2⟩ := Run.holds_elim main_c12_run
  obtain ⟨s1, hr, _, hf, _⟩ :=
    (C12_frequency_saturation 10 100 s (main_reachable _ _ hs)).2.1 1 0 [0, 0, 0, 0, 0] 20 a1
      (by rw [a2])
  refine ⟨s, s1, hs, a1, a2, hr, ?_⟩
  rw [hf, a2]; decide

end Claims6
section Claims7
variable {Key Value : Type} [DecidableEq Key] {D : Key → Value}

theorem InsertG_ghost_len {cfg : Config} {s s1 : State Key Value} {p : Nat}
    (hr : InsertG cfg s p = Run.ret s1) (hg : s._ghost_fifo.length ≤ cfg._main_fifo_size) :
    s1._ghost_fifo.length ≤ cfg._main_fifo_size := by
  unfold InsertG at hr
  split at hr
  · split at hr
    · cases hr
    · rename_i item hitem
      have hlen : (s._ghost_fifo.dropLast).length + 1 = s._ghost_fifo.length := by
        have := congrArg List.length (getLast?_split hitem)
        simp only [List.length_append, List.length_singleton] at this
        exact this.symm
      by_cases hf : (s.heap item).freq < 0
      · simp only [hf, if_true, Run.ret.injEq] at hr
        subst hr
        simp only [RemoveItem, setFreq_ghost, List.length_cons]
        omega
      · simp only [hf, if_false, Run.ret.injEq] at hr
        subst hr
        simp only [setFreq_ghost, List.length_cons]
        omega
  · rename_i hfull
    simp only [GhostIsFull, decide_eq_true_eq, not_le] at hfull
    simp only [Run.ret.injEq] at hr
    subst hr
    simp only [setFreq_ghost, List.length_cons]
    omega

theorem EvictS_ghost_len {cfg : Config} : ∀ (n : Nat) (s s1 : State Key Value),
    EvictS cfg n s = Run.ret s1 → s._ghost_fifo.length ≤ cfg._main_fifo_size →
    s1._ghost_fifo.length ≤ cfg._main_fifo_size := by
  intro n
  induction n with
  | zero => intro s s1 hr; simp [EvictS] at hr
  | succ n ih =>
    intro s s1 hr hg
    rw [EvictS_succ] at hr
    split at hr
    · cases hr; exact hg
    · rename_i tail hl
      split at hr
      · exact ih _ _ hr hg
      · split at hr
        · rename_i s2 hi
          exact ih _ _ hr (InsertG_ghost_len hi hg)
        · cases hr
        · cases hr

theorem EnsureFree_ghost_len {cfg : Config} : ∀ (n : Nat) (s s1 : State Key Value),
    EnsureFree cfg n s = Run.ret s1 → s._ghost_fifo.length ≤ cfg._main_fifo_size →
    s1._ghost_fifo.length ≤ cfg._main_fifo_size := by
  intro n
  induction n with
  | zero => intro s s1 hr; simp [EnsureFree] at hr
  | succ n ih =>
    intro s s1 hr hg
    rw [EnsureFree_succ] at hr
    split at hr
    · split at hr
      · split at hr
        · rename_i s2 he
          apply ih _ _ hr
          rw [(EvictM_frame _ _ _ he).2.2.2]; exact hg
        · cases hr
        · cases hr
      · split at hr
        · rename_i s2 he
          exact ih _ _ hr (EvictS_ghost_len _ _ _ he hg)
        · cases hr
        · cases hr
    · cases hr; exact hg

theorem Get_ghost_len {cfg : Config} {fuel : Nat} {s s1 : State Key Value} {key : Key}
    {now : Int} {v : Option Value} (hr : Get D cfg fuel s key now = Run.ret (s1, v))
    (hg : s._ghost_fifo.length ≤ cfg._main_fifo_size) :
    s1._ghost_fifo.length ≤ cfg._main_fifo_size := by
  unfold Get at hr
  split at hr
  · dsimp only at hr
    split at hr
    · rename_i s3 he
      have hp := EnsureFree_ghost_len _ _ _ he hg
      split at hr
      · cases hr
      · simp only [Run.ret.injEq, Prod.mk.injEq] at hr
        rw [← hr.1]
        exact hp
    · cases hr
    · cases hr
  · split at hr
    · dsimp only at hr
      split at hr
      · rename_i s3 he
        have hp := EnsureFree_ghost_len _ _ _ he hg
        split at hr
        · cases hr
        · simp only [Run.ret.injEq, Prod.mk.injEq] at hr
          rw [← hr.1]
          exact hp
      · cases hr
      · cases hr
    · simp only [Run.ret.injEq, Prod.mk.injEq] at hr
      rw [← hr.1]
      split
      · exact hg
      · exact hg

/-- C20: for every capacity `c ≥ 1` and every state reachable by `Get` calls,
`size(S) + size(M) ≤ c` and `size(G) ≤ main_size`, where
`main_size = c - round(c * 0.1)`. -/
theorem C20_queue_bounds [Inhabited Key] [Inhabited Value] (c : Nat) (ttl : Int)
    (s : State Key Value) (hc : 1 ≤ c) (h : Reachable D (S3FifoCache c ttl) s) :
    (S3FifoCache c ttl)._main_fifo_size = c - roundSmall c ∧ 1 ≤ c - roundSmall c ∧
    s._small_fifo.length + s._main_fifo.length ≤ c ∧
    s._ghost_fifo.length ≤ c - roundSmall c := by
  refine ⟨rfl, S3FifoCache_main_pos hc ttl, ?_, ?_⟩
  · induction h with
    | init => simp [State.init]
    | get _ hr ih => exact Get_size hr ih
  · induction h with
    | init => simp [State.init]
    | get _ hr ih => exact Get_ghost_len hr ih

/-- C20 at the state of `main.cpp` after `Get(1)`, ..., `Get(11)`, where G holds 9 entries. -/
theorem C20_queue_bounds_witness : ∃ s : State Int Int,
    GetAll SquareCache.DoGetByKey (S3FifoCache 10 100) 20 State.init
      (calls [1, 2, 3, 4, 5, 6, 7, 8, 9, 10, 11]) = Run.ret s ∧
    s._ghost_fifo.length = 9 ∧
    ((S3FifoCache 10 100)._main_fifo_size = 10 - roundSmall 10 ∧ 1 ≤ 10 - roundSmall 10 ∧
    s._small_fifo.length + s._main_fifo.length ≤ 10 ∧
    s._ghost_fifo.length ≤ 10 - roundSmall 10) :=
  ⟨_, rfl, by decide, C20_queue_bounds 10 100 _ (by decide)
    (main_reachable [1, 2, 3, 4, 5, 6, 7, 8, 9, 10, 11] _ rfl)⟩

theorem EvictM_ne_ub : ∀ (n : Nat) (s : State Key Value), EvictM n s ≠ Run.ub := by
  intro n
  induction n with
  | zero => intro s h; simp [EvictM] at h
  | succ n ih =>
    intro s
    rw [EvictM_succ]
    split
    · intro h; cases h
    · split
      · exact ih _
      · exact ih _

/-- With a limit of 0 and a main share of 0 the loop of `EnsureFree` never ends: every pass
calls `EvictM` and finds the bound still violated. -/
theorem EnsureFree_zero {cfg : Config} (hl : cfg._cache_size_limit = 0)
    (hm : cfg._main_fifo_size = 0) : ∀ (n : Nat) (s : State Key Value),
    EnsureFree cfg n s = Run.fuel := by
  intro n
  induction n with
  | zero => intro s; rfl
  | succ n ih =>
    intro s
    rw [EnsureFree_succ, if_pos (by omega), if_pos (Or.inl (by omega))]
    cases he : EvictM n s with
    | ret s1 => exact ih s1
    | fuel => rfl
    | ub => exact absurd he (EvictM_ne_ub n s)

/-- C14, as stated, fails: the constructor accepts capacity 0 (it returns settings with limit 0
and shares 0 and 0, there is no error result), and on the cache so built the first `Get` never
returns, whatever the fuel; capacity 1, whose small share rounds to 0, is accepted as well. -/
theorem C14_zero_capacity_accepted :
    (S3FifoCache 0 100)._cache_size_limit = 0 ∧ (S3FifoCache 0 100)._small_fifo_size = 0 ∧
    (S3FifoCache 0 100)._main_fifo_size = 0 ∧
    (∀ fuel, Get SquareCache.DoGetByKey (S3FifoCache 0 100) fuel State.init 1 0 = Run.fuel) ∧
    (S3FifoCache 1 100)._cache_size_limit = 1 ∧ (S3FifoCache 1 100)._small_fifo_size = 0 := by
  refine ⟨rfl, rfl, rfl, ?_, rfl, rfl⟩
  intro fuel
  unfold Get
  simp only [State.init, find]
  rw [EnsureFree_zero rfl rfl]

/-- C14, amended: constructing a cache is never rejected: for every capacity `c` the
constructor returns the settings with limit `c`, small share `round(c * 0.1)` and main share
`c - round(c * 0.1)`, without validation; and for every capacity `c ≥ 1`, also when the small
share is 0, every later `Get` returns (no eviction loop runs forever). -/
theorem C14_no_validation [Inhabited Key] [Inhabited Value] (V : Key → Value) (c : Nat)
    (ttl : Int) :
    (S3FifoCache c ttl)._cache_size_limit = c ∧
    (S3FifoCache c ttl)._small_fifo_size = roundSmall c ∧
    (S3FifoCache c ttl)._main_fifo_size = c - roundSmall c ∧
    (1 ≤ c → ∀ (s : State Key Value) (k : Key) (now : Int),
      Reachable V (S3FifoCache c ttl) s →
      ∃ N, ∀ fuel, N ≤ fuel →
        ∃ s1, Get V (S3FifoCache c ttl) fuel s k now = Run.ret (s1, some (V k))) :=
  ⟨rfl, rfl, rfl, fun hc _ k now h => Get_returns hc (S3FifoCache_main_pos hc ttl) h.inv k now⟩

/-- C14, amended, at capacity 1 (small share 0) on the fresh cache. -/
theorem C14_no_validation_witness :
    (S3FifoCache 1 100)._small_fifo_size = 0 ∧
    ∃ N, ∀ fuel, N ≤ fuel → ∃ s1 : State Int Int,
      Get SquareCache.DoGetByKey (S3FifoCache 1 100) fuel State.init 1 0 =
        Run.ret (s1, some (SquareCache.DoGetByKey 1)) :=
  ⟨rfl, (C14_no_validation SquareCache.DoGetByKey 1 100).2.2.2 (by decide) State.init 1 0
    Reachable.init⟩

end Claims7
section Claims8
variable {Key Value : Type} [DecidableEq Key] {D : Key → Value}

/-- The loop of `EvictM` writes only nodes of `_main_fifo`. -/
theorem EvictM_untouched : ∀ (n : Nat) (s s1 : State Key Value), EvictM n s = Run.ret s1 →
    ∀ p, p ∉ s._main_fifo → s1.heap p = s.heap p := by
  intro n
  induction n with
  | zero => intro s s1 hr; simp [EvictM] at hr
  | succ n ih =>
    intro s s1 hr p hp
    rw [EvictM_succ] at hr
    split at hr
    · cases hr; rfl
    · rename_i tail hl
      have hpt : p ≠ tail := fun e => hp (e ▸ mem_of_getLast? hl)
      have hpd : p ∉ s._main_fifo.dropLast := fun x => hp (List.mem_of_mem_dropLast x)
      split at hr
      · rw [ih _ _ hr p (by simp [hpt, hpd])]
        simp [setFreq, Function.update_noteq hpt]
      · rw [ih _ _ hr p (by simpa [RemoveItem] using hpd)]
        rfl

/-- The loop of `EvictS` writes only nodes of `_small_fifo`, and `_main_fifo` gains only
entries of `_small_fifo`. -/
theorem EvictS_untouched {cfg : Config} : ∀ (n : Nat) (s s1 : State Key Value),
    EvictS cfg n s = Run.ret s1 → ∀ p, p ∉ s._small_fifo →
      s1.heap p = s.heap p ∧ (p ∉ s._main_fifo → p ∉ s1._main_fifo) := by
  intro n
  induction n with
  | zero => intro s s1 hr; simp [EvictS] at hr
  | succ n ih =>
    intro s s1 hr p hp
    rw [EvictS_succ] at hr
    split at hr
    · cases hr; exact ⟨rfl, id⟩
    · rename_i tail hl
      have hpt : p ≠ tail := fun e => hp (e ▸ mem_of_getLast? hl)
      have hpd : p ∉ s._small_fifo.dropLast := fun x => hp (List.mem_of_mem_dropLast x)
      split at hr
      · obtain ⟨a, b⟩ := ih _ _ hr p (by simpa [InsertM] using hpd)
        refine ⟨?_, ?_⟩
        · rw [a]; simp [InsertM, setFreq, Function.update_noteq hpt]
        · intro hm; apply b; simp [InsertM, hpt, hm]
      · split at hr
        · rename_i s2 hg
          obtain ⟨_, fS, fM, _⟩ := InsertG_frame hg
          obtain ⟨a, b⟩ := ih _ _ hr p (by rw [fS]; exact hpd)
          refine ⟨?_, ?_⟩
          · rw [a, InsertG_heap hg]; simp [setFreq, Function.update_noteq hpt]
          · intro hm; apply b; rw [fM]; exact hm
        · cases hr
        · cases hr

/-- The loop of `EnsureFree` leaves alone every node that is in neither resident queue. -/
theorem EnsureFree_untouched {cfg : Config} : ∀ (n : Nat) (s s1 : State Key Value),
    EnsureFree cfg n s = Run.ret s1 → ∀ p, p ∉ s._small_fifo → p ∉ s._main_fifo →
      s1.heap p = s.heap p := by
  intro n
  induction n with
  | zero => intro s s1 hr; simp [EnsureFree] at hr
  | succ n ih =>
    intro s s1 hr p hps hpm
    rw [EnsureFree_succ] at hr
    split at hr
    · split at hr
      · split at hr
        · rename_i s2 he
          obtain ⟨_, fM, fS, _⟩ := EvictM_frame _ _ _ he
          rw [ih _ _ hr p (by rw [fS]; exact hps) (by rw [fM]; exact List.not_mem_nil p)]
          exact EvictM_untouched _ _ _ he p hpm
        · cases hr
        · cases hr
      · split at hr
        · rename_i s2 he
          obtain ⟨_, fS, _⟩ := EvictS_frame _ _ _ he
          obtain ⟨a, b⟩ := EvictS_untouched _ _ _ he p hps
          rw [ih _ _ hr p (by rw [fS]; exact List.not_mem_nil p) (b hpm)]
          exact a
        · cases hr
        · cases hr
    · cases hr; rfl

/-- The shape of a returning `Get` on an untracked key: a node is allocated at `s.next` and put
in the table, `EnsureFree` runs with that entry pending and leaves it alone, and the entry is
then pushed to `_small_fifo`. -/
theorem Get_cold_miss {cfg : Config} {fuel : Nat} {s s1 : State Key Value} {key : Key}
    {now : Int} {v : Option Value} (h : Inv D s none) (hk : find s._table key = none)
    (hr : Get D cfg fuel s key now = Run.ret (s1, v)) :
    ∃ s3, EnsureFree cfg fuel
        { s with _miss_count := incr s._miss_count,
                 heap := Function.update s.heap s.next ⟨key, D key, now + cfg._ttl_sec, 0⟩,
                 next := s.next + 1,
                 _table := (key, s.next) :: s._table } = Run.ret s3 ∧
      Inv D s3 (some (key, s.next)) ∧ s1 = InsertS s3 s.next ∧
      s3.heap s.next = ⟨key, D key, now + cfg._ttl_sec, 0⟩ := by
  unfold Get at hr
  simp only [hk] at hr
  split at hr
  · rename_i s3 he
    have h2 := EnsureFree_inv _ _ _ (h.alloc hk (now + cfg._ttl_sec) (incr s._miss_count)) he
    have hq := mem_find_of_nodup h2.keys_nodup (h2.pend_ok key s.next rfl).2.2.2
    rw [hq] at hr
    simp only [Run.ret.injEq, Prod.mk.injEq] at hr
    refine ⟨s3, he, h2, hr.1.symm, ?_⟩
    rw [EnsureFree_untouched _ _ _ he s.next
      (fun x => Nat.lt_irrefl _ (h.q_lt _ (Or.inl x)))
      (fun x => Nat.lt_irrefl _ (h.q_lt _ (Or.inr (Or.inl x))))]
    simp
  · cases hr
  · cases hr

/-- C18: for every capacity `c ≥ 1`, every reachable state and every key `k` not in `_table`,
`Get(k)` returns (given enough fuel); afterwards `k` is tracked by the entry this call
allocated (so the capacity enforcement inside the call did not remove it), that entry is the
front element of S with frequency 0, key `k` and value `DoGetByKey(k)`, which is the value
returned, and the miss counter is one higher (as `size_t`: exactly `+ 1` unless the 64-bit
counter was at its maximum). -/
theorem C18_cold_miss [Inhabited Key] [Inhabited Value] (c : Nat) (ttl : Int)
    (s : State Key Value) (k : Key) (now : Int) (hc : 1 ≤ c)
    (h : Reachable D (S3FifoCache c ttl) s) (hk : find s._table k = none) :
    (∃ N, ∀ fuel, N ≤ fuel →
      ∃ s1, Get D (S3FifoCache c ttl) fuel s k now = Run.ret (s1, some (D k))) ∧
    ∀ fuel s1 v, Get D (S3FifoCache c ttl) fuel s k now = Run.ret (s1, v) →
      v = some (D k) ∧ Has s1 k = true ∧ find s1._table k = some s.next ∧
      s1._small_fifo.head? = some s.next ∧ (s1.heap s.next).freq = 0 ∧
      (s1.heap s.next).value = D k ∧ (s1.heap s.next).key = k ∧
      s1._miss_count = (s._miss_count + 1) % 2 ^ 64 ∧
      (s._miss_count + 1 < 2 ^ 64 → s1._miss_count = s._miss_count + 1) := by
  refine ⟨Get_returns hc (S3FifoCache_main_pos hc ttl) h.inv k now, ?_⟩
  intro fuel s1 v hr
  obtain ⟨s3, he, h3, e, hn⟩ := Get_cold_miss h.inv hk hr
  have hq := mem_find_of_nodup h3.keys_nodup (h3.pend_ok k s.next rfl).2.2.2
  have hmiss : s3._miss_count = (s._miss_count + 1) % 2 ^ 64 :=
    (EnsureFree_frame _ _ _ he).1.2.2.2
  subst e
  refine ⟨Get_value h.inv hr, ?_, hq, rfl, ?_, ?_, ?_, hmiss, ?_⟩
  · simp only [Has, InsertS, hq, Option.isSome_some]
  · simp only [InsertS, hn]
  · simp only [InsertS, hn]
  · simp only [InsertS, hn]
  · intro hlt
    simp only [InsertS, hmiss]
    exact Nat.mod_eq_of_lt hlt

theorem main_c18_run :
    (GetAll SquareCache.DoGetByKey (S3FifoCache 10 100) 20 State.init
      (calls [1, 2, 3, 4, 5, 6, 7, 8, 9, 10])).holds
      (fun s => find s._table 11 = none ∧ s.next = 10 ∧ s._miss_count = 10) := by
  decide

/-- C18 at the state of `main.cpp` after `Get(1)`, ..., `Get(10)`, for the call `Get(11)` that
forces an eviction. -/
theorem C18_cold_miss_witness : ∃ s : State Int Int,
    GetAll SquareCache.DoGetByKey (S3FifoCache 10 100) 20 State.init
      (calls [1, 2, 3, 4, 5, 6, 7, 8, 9, 10]) = Run.ret s ∧
    find s._table 11 = none ∧
    ((∃ N, ∀ fuel, N ≤ fuel → ∃ s1,
      Get SquareCache.DoGetByKey (S3FifoCache 10 100) fuel s 11 0 =
        Run.ret (s1, some (SquareCache.DoGetByKey 11))) ∧
    ∀ fuel s1 v, Get SquareCache.DoGetByKey (S3FifoCache 10 100) fuel s 11 0 =
        Run.ret (s1, v) →
      v = some (SquareCache.DoGetByKey 11) ∧ Has s1 11 = true ∧
      find s1._table 11 = some s.next ∧
      s1._small_fifo.head? = some s.next ∧ (s1.heap s.next).freq = 0 ∧
      (s1.heap s.next).value = SquareCache.DoGetByKey 11 ∧ (s1.heap s.next).key = 11 ∧
      s1._miss_count = (s._miss_count + 1) % 2 ^ 64 ∧
      (s._miss_count + 1 < 2 ^ 64 → s1._miss_count = s._miss_count + 1)) := by
  obtain ⟨s, hs, a1, _, _⟩ := Run.holds_elim main_c18_run
  exact ⟨s, hs, a1, C18_cold_miss 10 100 s 11 0 (by decide) (main_reachable _ _ hs) a1⟩

end Claims8
section Claims9
variable {Key Value : Type} [DecidableEq Key] {D : Key → Value}

theorem erase_subset (t : List (Key × Nat)) (key : Key) :
    ∀ e, e ∈ erase t key → e ∈ t := fun _ he => List.mem_of_mem_filter he

theorem EvictM_table_sub : ∀ (n : Nat) (s s1 : State Key Value), EvictM n s = Run.ret s1 →
    ∀ e, e ∈ s1._table → e ∈ s._table := by
  intro n
  induction n with
  | zero => intro s s1 hr; simp [EvictM] at hr
  | succ n ih =>
    intro s s1 hr e he
    rw [EvictM_succ] at hr
    split at hr
    · cases hr; exact he
    · split at hr
      · exact ih _ _ hr e he
      · exact erase_subset _ _ e (ih _ _ hr e he)

theorem InsertG_table_sub {cfg : Config} {s s1 : State Key Value} {p : Nat}
    (hr : InsertG cfg s p = Run.ret s1) : ∀ e, e ∈ s1._table → e ∈ s._table := by
  unfold InsertG at hr
  split at hr
  · split at hr
    · cases hr
    · rename_i item hitem
      by_cases hf : (s.heap item).freq < 0
      · simp only [hf, if_true, Run.ret.injEq] at hr
        subst hr
        intro e he
        exact erase_subset _ _ e he
      · simp only [hf, if_false, Run.ret.injEq] at hr
        subst hr
        exact fun e he => he
  · simp only [Run.ret.injEq] at hr
    subst hr
    exact fun e he => he

theorem EvictS_table_sub {cfg : Config} : ∀ (n : Nat) (s s1 : State Key Value),
    EvictS cfg n s = Run.ret s1 → ∀ e, e ∈ s1._table → e ∈ s._table := by
  intro n
  induction n with
  | zero => intro s s1 hr; simp [EvictS] at hr
  | succ n ih =>
    intro s s1 hr e he
    rw [EvictS_succ] at hr
    split at hr
    · cases hr; exact he
    · split at hr
      · exact ih _ _ hr e he
      · split at hr
        · rename_i s2 hg
          exact InsertG_table_sub hg e (ih _ _ hr e he)
        · cases hr
        · cases hr

theorem EnsureFree_table_sub {cfg : Config} : ∀ (n : Nat) (s s1 : State Key Value),
    EnsureFree cfg n s = Run.ret s1 → ∀ e, e ∈ s1._table → e ∈ s._table := by
  intro n
  induction n with
  | zero => intro s s1 hr; simp [EnsureFree] at hr
  | succ n ih =>
    intro s s1 hr e he
    rw [EnsureFree_succ] at hr
    split at hr
    · split at hr
      · split at hr
        · rename_i s2 h2
          exact EvictM_table_sub _ _ _ h2 e (ih _ _ hr e he)
        · cases hr
        · cases hr
      · split at hr
        · rename_i s2 h2
          exact EvictS_table_sub _ _ _ h2 e (ih _ _ hr e he)
        · cases hr
        · cases hr
    · cases hr; exact he

/-- When no entry of `_small_fifo` has a positive frequency, the loop of `EvictS` promotes
nothing: `_main_fifo` is what it was. -/
theorem EvictS_scan {cfg : Config} : ∀ (n : Nat) (s s1 : State Key Value),
    EvictS cfg n s = Run.ret s1 → (∀ p, p ∈ s._small_fifo → (s.heap p).freq ≤ 0) →
    s1._main_fifo = s._main_fifo := by
  intro n
  induction n with
  | zero => intro s s1 hr; simp [EvictS] at hr
  | succ n ih =>
    intro s s1 hr hs
    rw [EvictS_succ] at hr
    split at hr
    · cases hr; rfl
    · rename_i tail hl
      have hnot : ¬ (s.heap tail).freq > 0 := by
        have := hs tail (mem_of_getLast? hl); omega
      rw [if_neg hnot] at hr
      split at hr
      · rename_i s2 hg
        obtain ⟨_, fS, fM, _⟩ := InsertG_frame hg
        rw [ih _ _ hr ?_, fM]
        intro p hp
        rw [fS] at hp
        rw [InsertG_heap hg, setFreq_freq]
        split
        · omega
        · exact hs p (List.mem_of_mem_dropLast hp)
      · cases hr
      · cases hr

/-- With an empty `_main_fifo` and no positive frequency in `_small_fifo`, `EnsureFree` keeps
both properties. -/
theorem EnsureFree_scan {cfg : Config} : ∀ (n : Nat) (s s1 : State Key Value),
    EnsureFree cfg n s = Run.ret s1 → s._main_fifo = [] →
    (∀ p, p ∈ s._small_fifo → (s.heap p).freq ≤ 0) →
    s1._main_fifo = [] ∧ (∀ p, p ∈ s1._small_fifo → (s1.heap p).freq ≤ 0) := by
  intro n
  induction n with
  | zero => intro s s1 hr; simp [EnsureFree] at hr
  | succ n ih =>
    intro s s1 hr hm hs
    rw [EnsureFree_succ] at hr
    split at hr
    · split at hr
      · split at hr
        · rename_i s2 he
          obtain ⟨_, fM, fS, _⟩ := EvictM_frame _ _ _ he
          apply ih _ _ hr fM
          intro p hp
          rw [fS] at hp
          rw [EvictM_untouched _ _ _ he p (by rw [hm]; exact List.not_mem_nil p)]
          exact hs p hp
        · cases hr
        · cases hr
      · split at hr
        · rename_i s2 he
          obtain ⟨_, fS, _⟩ := EvictS_frame _ _ _ he
          apply ih _ _ hr (by rw [EvictS_scan _ _ _ he hs]; exact hm)
          intro p hp
          rw [fS] at hp
          cases hp
        · cases hr
        · cases hr
    · cases hr; exact ⟨hm, hs⟩

/-- A run of `Get` calls on pairwise distinct keys that are not tracked at the start consists
of cold misses only and never puts an entry in `_main_fifo`. -/
theorem GetAll_scan [Inhabited Key] [Inhabited Value] {cfg : Config} {fuel : Nat} :
    ∀ (ks : List (Key × Int)) (s s1 : State Key Value), Reachable D cfg s →
      s._main_fifo = [] → (∀ p, p ∈ s._small_fifo → (s.heap p).freq ≤ 0) →
      (ks.map Prod.fst).Nodup → (∀ k, k ∈ ks.map Prod.fst → find s._table k = none) →
      GetAll D cfg fuel s ks = Run.ret s1 → s1._main_fifo = [] := by
  intro ks
  induction ks with
  | nil =>
    intro s s1 _ hm _ _ _ hr
    simp only [GetAll, Run.ret.injEq] at hr
    rw [← hr]; exact hm
  | cons e ks ih =>
    intro s s1 h hm hs hnd hnone hr
    obtain ⟨k, t⟩ := e
    simp only [List.map_cons, List.nodup_cons] at hnd
    simp only [GetAll] at hr
    split at hr
    · rename_i s2 v hg
      have hk : find s._table k = none := hnone k (by simp)
      obtain ⟨s3, he, h3, e, hn⟩ := Get_cold_miss h.inv hk hg
      have hJ := EnsureFree_scan _ _ _ he hm (by
        intro p hp
        by_cases e : p = s.next
        · subst e; simp
        · simp only [Function.update_noteq e]; exact hs p hp)
      apply ih s2 s1 (Reachable.get h hg) _ _ hnd.2 _ hr
      · rw [e]; exact hJ.1
      · intro p hp
        rw [e] at hp ⊢
        simp only [InsertS, List.mem_cons] at hp ⊢
        rcases hp with x | x
        · subst x; rw [hn]
        · exact hJ.2 p x
      · intro k1 hk1
        cases hf : find s2._table k1 with
        | none => rfl
        | some q =>
          exfalso
          have hmem := find_eq_some_mem hf
          rw [e] at hmem
          have hmem2 := EnsureFree_table_sub _ _ _ he _ hmem
          simp only [List.mem_cons, Prod.mk.injEq] at hmem2
          rcases hmem2 with ⟨x, _⟩ | x
          · subst x; exact hnd.1 hk1
          · exact find_eq_none_iff.1 (hnone k1 (by simp [hk1])) q x
    · cases hr
    · cases hr

/-- From a reachable state of a cache with capacity at least 1, every finite sequence of `Get`
calls returns once the fuel is large enough. -/
theorem GetAll_total [Inhabited Key] [Inhabited Value] {cfg : Config}
    (hl : 1 ≤ cfg._cache_size_limit) (hm : 1 ≤ cfg._main_fifo_size) :
    ∀ (ks : List (Key × Int)) (s : State Key Value), Reachable D cfg s →
      ∃ N, ∀ fuel, N ≤ fuel → ∃ s1, GetAll D cfg fuel s ks = Run.ret s1 := by
  intro ks
  induction ks with
  | nil => intro s _; exact ⟨0, fun _ _ => ⟨s, rfl⟩⟩
  | cons e ks ih =>
    intro s h
    obtain ⟨k, t⟩ := e
    obtain ⟨N1, h1⟩ := Get_returns hl hm h.inv k t
    obtain ⟨s2, hg⟩ := h1 N1 (le_refl _)
    obtain ⟨N2, h2⟩ := ih s2 (Reachable.get h hg)
    refine ⟨max N1 N2, fun fuel hf => ?_⟩
    obtain ⟨s1, hr⟩ := h2 fuel (le_trans (le_max_right _ _) hf)
    refine ⟨s1, ?_⟩
    simp only [GetAll, Get_mono (le_trans (le_max_left _ _) hf) hg]
    exact hr

/-- C13: for every capacity `c ≥ 1` and every finite sequence of `Get` calls on pairwise
distinct keys, started on the empty cache, the whole sequence returns (given enough fuel), and
after every call of it (after every prefix `ks.take n`) the main queue M is empty. -/
theorem C13_scan_resistance [Inhabited Key] [Inhabited Value] (V : Key → Value) (c : Nat)
    (ttl : Int) (ks : List (Key × Int)) (hc : 1 ≤ c) (hd : (ks.map Prod.fst).Nodup) :
    (∃ N, ∀ fuel, N ≤ fuel →
      ∃ s, GetAll V (S3FifoCache c ttl) fuel State.init ks = Run.ret s) ∧
    ∀ fuel n s, GetAll V (S3FifoCache c ttl) fuel State.init (ks.take n) = Run.ret s →
      s._main_fifo = [] := by
  constructor
  · exact GetAll_total hc (S3FifoCache_main_pos hc ttl) ks State.init Reachable.init
  · intro fuel n s hr
    refine GetAll_scan (ks.take n) State.init s Reachable.init rfl ?_ ?_ ?_ hr
    · intro p hp; cases hp
    · exact (List.Sublist.map _ (List.take_sublist n ks)).nodup hd
    · intro k _; rfl

/-- C13 at the eleven calls `Get(1)`, ..., `Get(11)` of `main.cpp`, after all of them. -/
theorem C13_scan_resistance_witness :
    (∃ N, ∀ fuel, N ≤ fuel → ∃ s : State Int Int,
      GetAll SquareCache.DoGetByKey (S3FifoCache 10 100) fuel State.init
        (calls [1, 2, 3, 4, 5, 6, 7, 8, 9, 10, 11]) = Run.ret s) ∧
    ∀ fuel n (s : State Int Int),
      GetAll SquareCache.DoGetByKey (S3FifoCache 10 100) fuel State.init
        ((calls [1, 2, 3, 4, 5, 6, 7, 8, 9, 10, 11]).take n) = Run.ret s →
      s._main_fifo = [] :=
  C13_scan_resistance SquareCache.DoGetByKey 10 100 (calls [1, 2, 3, 4, 5, 6, 7, 8, 9, 10, 11])
    (by decide) (by decide)

end Claims9
section Calls
variable {Key Value : Type} [DecidableEq Key] {D : Key → Value}

/-- On an untracked key `Get` is: run `EnsureFree` on `coldState`, then push the entry to
`_small_fifo`. -/
theorem Get_cold_eq (V : Key → Value) (cfg : Config) (fuel : Nat) (s : State Key Value)
    (key : Key) (now : Int) (hk : find s._table key = none) :
    Get V cfg fuel s key now =
      match EnsureFree cfg fuel (coldState V cfg s key now) with
      | Run.ret s3 =>
        match find s3._table key with
        | none => Run.ub
        | some q => Run.ret (InsertS s3 q, some ((InsertS s3 q).heap q).value)
      | Run.fuel => Run.fuel
      | Run.ub => Run.ub := by
  unfold Get
  simp only [hk]
  rfl

/-- On a tracked key whose entry has frequency `-1`, `Get` is: run `EnsureFree` on
`ghostState`, then push the entry to `_main_fifo`. -/
theorem Get_ghost_eq (V : Key → Value) (cfg : Config) (fuel : Nat) (s : State Key Value)
    (key : Key) (now : Int) (p : Nat) (hk : find s._table key = some p)
    (hf : (s.heap p).freq = -1) :
    Get V cfg fuel s key now =
      match EnsureFree cfg fuel (ghostState V s key p) with
      | Run.ret s3 =>
        match find s3._table key with
        | none => Run.ub
        | some q => Run.ret (InsertM s3 q, some ((InsertM s3 q).heap q).value)
      | Run.fuel => Run.fuel
      | Run.ub => Run.ub := by
  unfold Get
  simp only [hk, hf, if_true]
  rfl

/-- Every state the cache passes through satisfies the invariant, with the entry of the
running `Get` pending. -/
theorem Visited.inv_pending [Inhabited Key] [Inhabited Value] {cfg : Config} {s : State Key Value}
    (h : Visited D cfg s) : ∃ pend, Inv D s pend := by
  induction h with
  | idle hr => exact ⟨none, hr.inv⟩
  | cold hr hk =>
    rename_i s0 key now
    exact ⟨_, hr.inv.alloc hk (now + cfg._ttl_sec) (incr s0._miss_count)⟩
  | ghost hr hk hf =>
    rename_i s0 key p
    have hi := hr.inv
    have hmem := find_eq_some_mem hk
    have hval := (hi.tbl key p hmem).2.1
    have h1 : Inv D { s0 with _hit_ghost_count := incr s0._hit_ghost_count,
                              _miss_count := incr s0._miss_count } none :=
      hi.congr rfl rfl rfl rfl rfl rfl
    refine ⟨some (key, p), ?_⟩
    unfold ghostState
    rw [setValue_same { s0 with _hit_ghost_count := incr s0._hit_ghost_count,
                                _miss_count := incr s0._miss_count } p (D key) hval]
    exact h1.resurrect hmem (by simp only; omega)
  | viaM _ _ _ he ih =>
    obtain ⟨pend, hi⟩ := ih
    exact ⟨pend, EvictM_inv _ _ _ hi he⟩
  | viaS _ _ _ he ih =>
    obtain ⟨pend, hi⟩ := ih
    exact ⟨pend, EvictS_inv _ _ _ hi he⟩

/-- With capacity 0 the small queue is empty in every state the cache passes through. -/
theorem Visited.zero_small [Inhabited Key] [Inhabited Value] {ttl : Int} {s : State Key Value}
    (h : Visited D (S3FifoCache 0 ttl) s) : s._small_fifo = [] := by
  induction h with
  | idle hr => exact hr.zero_cap.2
  | cold hr _ => exact hr.zero_cap.2
  | ghost hr hk _ => rw [hr.zero_cap.1] at hk; cases hk
  | viaM _ _ _ he ih => rw [(EvictM_frame _ _ _ he).2.2.1]; exact ih
  | viaS _ _ _ he _ => exact (EvictS_frame _ _ _ he).2.1

/-- On every state the cache passes through, `EvictS` returns once the fuel is large enough. -/
theorem Visited.evictS_returns [Inhabited Key] [Inhabited Value] {c : Nat} {ttl : Int}
    {s : State Key Value} (h : Visited D (S3FifoCache c ttl) s) :
    ∃ N, ∀ fuel, N ≤ fuel → ∃ s1, EvictS (S3FifoCache c ttl) fuel s = Run.ret s1 := by
  rcases Nat.eq_zero_or_pos c with e | e
  · subst e
    have hs := h.zero_small
    refine ⟨1, fun fuel hf => ⟨s, ?_⟩⟩
    apply EvictS_mono hf
    rw [EvictS_succ, hs]
    rfl
  · obtain ⟨s1, h1⟩ := EvictS_total (S3FifoCache_main_pos e ttl) s._small_fifo.length s
      (le_refl _)
    exact ⟨_, fun fuel hf => ⟨s1, EvictS_mono hf h1⟩⟩

/-- C10: on every state the cache passes through, in particular on every state on which
`EnsureFree` calls `EvictS` inside a `Get` (and on every state between two calls), `EvictS`
returns (given enough fuel), and every entry `p` that it removes from S while its frequency is
`> 0` is, when `EvictS` has returned, held in M with frequency 0, still tracked in `_table`
under its key, and in neither S nor G. (The loop touches the frequency of an entry of S only in
the pass that removes it, so "while its frequency is `> 0`" is the frequency the entry has when
`EvictS` is called.) -/
theorem C10_promotion [Inhabited Key] [Inhabited Value] (c : Nat) (ttl : Int)
    (s : State Key Value) (h : Visited D (S3FifoCache c ttl) s) :
    (∃ N, ∀ fuel, N ≤ fuel → ∃ s1, EvictS (S3FifoCache c ttl) fuel s = Run.ret s1) ∧
    ∀ fuel s1, EvictS (S3FifoCache c ttl) fuel s = Run.ret s1 →
      ∀ p, p ∈ s._small_fifo → 0 < (s.heap p).freq →
        p ∈ s1._main_fifo ∧ (s1.heap p).freq = 0 ∧
          find s1._table (s.heap p).key = some p ∧ Has s1 (s.heap p).key = true ∧
          p ∉ s1._small_fifo ∧ p ∉ s1._ghost_fifo := by
  refine ⟨h.evictS_returns, ?_⟩
  intro fuel s1 hr p hp hf
  obtain ⟨pend, hi⟩ := h.inv_pending
  have h1 := EvictS_inv _ _ _ hi hr
  obtain ⟨a, b, c⟩ := EvictS_promoted _ _ _ hi hr p (Or.inl ⟨hp, hf⟩)
  have hk := EvictS_key _ _ _ hr p
  have ht := mem_find_of_nodup h1.keys_nodup (h1.sm_live p (Or.inr a)).2
  rw [hk] at ht
  refine ⟨a, b, ht, ?_, ?_, c⟩
  · simp only [Has, ht, Option.isSome_some]
  · rw [(EvictS_frame _ _ _ hr).2.1]; exact List.not_mem_nil p

theorem main_c10_run :
    (GetAll SquareCache.DoGetByKey (S3FifoCache 10 100) 20 State.init
      (calls [1, 1, 2, 3, 4, 5, 6, 7, 8, 9, 10])).holds (fun s =>
      find s._table 11 = none ∧
      CallsEvictS (S3FifoCache 10 100)
        (coldState SquareCache.DoGetByKey (S3FifoCache 10 100) s 11 0) ∧
      0 ∈ (coldState SquareCache.DoGetByKey (S3FifoCache 10 100) s 11 0)._small_fifo ∧
      ((coldState SquareCache.DoGetByKey (S3FifoCache 10 100) s 11 0).heap 0).freq = 1 ∧
      ((coldState SquareCache.DoGetByKey (S3FifoCache 10 100) s 11 0).heap 0).key = 1 ∧
      (EvictS (S3FifoCache 10 100) 20
        (coldState SquareCache.DoGetByKey (S3FifoCache 10 100) s 11 0)).holds
        (fun s1 => s1._main_fifo = [0])) := by
  decide!

/-- C10 at a call of `EvictS` the program makes: on the cache of `main.cpp` after `Get(1)`,
`Get(1)`, `Get(2)`, ..., `Get(10)`, the call `Get(11)` is a cold miss, `EnsureFree` finds S
full and calls `EvictS`; the entry of key 1 (handle 0) waits in S with frequency 1. -/
theorem C10_promotion_witness : ∃ s s2 s1 : State Int Int,
    GetAll SquareCache.DoGetByKey (S3FifoCache 10 100) 20 State.init
      (calls [1, 1, 2, 3, 4, 5, 6, 7, 8, 9, 10]) = Run.ret s ∧
    find s._table 11 = none ∧
    s2 = coldState SquareCache.DoGetByKey (S3FifoCache 10 100) s 11 0 ∧
    CallsEvictS (S3FifoCache 10 100) s2 ∧
    EvictS (S3FifoCache 10 100) 20 s2 = Run.ret s1 ∧
    0 ∈ s2._small_fifo ∧ 0 < (s2.heap 0).freq ∧
    (0 ∈ s1._main_fifo ∧ (s1.heap 0).freq = 0 ∧
      find s1._table (s2.heap 0).key = some 0 ∧ Has s1 (s2.heap 0).key = true ∧
      0 ∉ s1._small_fifo ∧ 0 ∉ s1._ghost_fifo) := by
  obtain ⟨s, hs, a1, a2, a3, a4, _, hb⟩ := Run.holds_elim main_c10_run
  obtain ⟨s1, hs1, _⟩ := Run.holds_elim hb
  have a5 : 0 < ((coldState SquareCache.DoGetByKey (S3FifoCache 10 100) s 11 0).heap 0).freq := by
    rw [a4]; decide
  exact ⟨s, _, s1, hs, a1, rfl, a2, hs1, a3, a5,
    (C10_promotion 10 100 _ (Visited.cold (main_reachable _ _ hs) a1)).2 20 s1 hs1 0 a3 a5⟩

end Calls
section Calls2
variable {Key Value : Type} [DecidableEq Key] {D : Key → Value}

/-- What `InsertG` does to an entry already in the ghost queue with a negative frequency: it
stays in the queue, or it was the tail of the full queue and its key has been erased. -/
theorem InsertG_ghost_fate {cfg : Config} {s s1 : State Key Value} {p : Nat}
    (hr : InsertG cfg s p = Run.ret s1) :
    p ∈ s1._ghost_fifo ∧
    ∀ q, q ∈ s._ghost_fifo → (s.heap q).freq < 0 →
      q ∈ s1._ghost_fifo ∨ ∀ r, ((s.heap q).key, r) ∉ s1._table := by
  unfold InsertG at hr
  split at hr
  · split at hr
    · cases hr
    · rename_i item hitem
      have hG := getLast?_split hitem
      by_cases hf : (s.heap item).freq < 0
      · simp only [hf, if_true, Run.ret.injEq] at hr
        subst hr
        refine ⟨List.mem_cons_self _ _, ?_⟩
        intro q hq _
        rw [hG] at hq
        rcases List.mem_append.1 hq with x | x
        · exact Or.inl (List.mem_cons_of_mem _ x)
        · have := List.mem_singleton.1 x
          subst this
          right
          intro r hr2
          exact (mem_erase_iff.1 hr2).2 rfl
      · simp only [hf, if_false, Run.ret.injEq] at hr
        subst hr
        refine ⟨List.mem_cons_self _ _, ?_⟩
        intro q hq hlt
        rw [hG] at hq
        rcases List.mem_append.1 hq with x | x
        · exact Or.inl (List.mem_cons_of_mem _ x)
        · have := List.mem_singleton.1 x
          subst this
          exact absurd hlt hf
  · simp only [Run.ret.injEq] at hr
    subst hr
    exact ⟨List.mem_cons_self _ _, fun q hq _ => Or.inl (List.mem_cons_of_mem _ hq)⟩

/-- Loop invariant of `EvictS` for one entry that is demoted: an entry that waits in
`_small_fifo` with frequency `≤ 0`, or that already has frequency `-1` outside both resident
queues and is either in the ghost queue or has had its key erased, has frequency `-1` outside
both resident queues when the loop ends, and is in the ghost queue or has had its key erased. -/
theorem EvictS_demoted {cfg : Config} {pend} : ∀ (n : Nat) (s s1 : State Key Value),
    Inv D s pend → EvictS cfg n s = Run.ret s1 → ∀ p,
      (p ∈ s._small_fifo ∧ (s.heap p).freq ≤ 0) ∨
        ((s.heap p).freq = -1 ∧ p ∉ s._small_fifo ∧ p ∉ s._main_fifo ∧
          (p ∈ s._ghost_fifo ∨ ∀ r, ((s.heap p).key, r) ∉ s._table)) →
      (s1.heap p).freq = -1 ∧ p ∉ s1._small_fifo ∧ p ∉ s1._main_fifo ∧
        (p ∈ s1._ghost_fifo ∨ ∀ r, ((s1.heap p).key, r) ∉ s1._table) := by
  intro n
  induction n with
  | zero => intro s s1 _ hr; simp [EvictS] at hr
  | succ n ih =>
    intro s s1 h hr p hp
    rw [EvictS_succ] at hr
    split at hr
    · rename_i hl
      cases hr
      have hS := List.getLast?_eq_none_iff.1 hl
      rcases hp with x | x
      · rw [hS] at x; cases x.1
      · exact x
    · rename_i tail hl
      have hS := getLast?_split hl
      have hts : tail ∈ s._small_fifo := mem_of_getLast? hl
      obtain ⟨hn1, hn2, hn3⟩ := nodup_split_left hl h.sm_nodup
      have hsub : ∀ q, q ∈ s._small_fifo.dropLast → q ∈ s._small_fifo :=
        fun q hq => List.mem_of_mem_dropLast hq
      split at hr
      · rename_i hf
        apply ih _ _ (h.promote hl) hr p
        have e : p ≠ tail := by
          intro e; subst e
          rcases hp with x | x
          · omega
          · exact x.2.1 hts
        have hfreq : ((InsertM { s with _small_fifo := s._small_fifo.dropLast } tail).heap p).freq
            = (s.heap p).freq := by
          simp only [InsertM]; rw [setFreq_freq_other _ _ e]
        rcases hp with x | x
        · left
          refine ⟨?_, by rw [hfreq]; exact x.2⟩
          have := x.1
          rw [hS] at this
          rcases List.mem_append.1 this with y | y
          · simpa [InsertM] using y
          · exact absurd (List.mem_singleton.1 y) e
        · right
          refine ⟨by rw [hfreq]; exact x.1, ?_, ?_, ?_⟩
          · intro y; exact x.2.1 (hsub p (by simpa [InsertM] using y))
          · intro y
            simp only [InsertM, setFreq_main, List.mem_cons] at y
            rcases y with y | y
            · exact e y
            · exact x.2.2.1 y
          · simpa [InsertM] using x.2.2.2
      · rename_i hf
        split at hr
        · rename_i s2 hg
          have h2 := h.insertG hl hg
          apply ih _ _ h2 hr p
          obtain ⟨_, fS, fM, _⟩ := InsertG_frame hg
          have fH := InsertG_heap hg
          obtain ⟨gT, gF⟩ := InsertG_ghost_fate hg
          have fK : ∀ q, (s2.heap q).key = (s.heap q).key := by
            intro q; rw [fH]; simp
          by_cases e : p = tail
          · subst e
            right
            refine ⟨by rw [fH]; simp, by rw [fS]; exact hn1, by rw [fM]; exact hn2, Or.inl gT⟩
          · have hfreq : (s2.heap p).freq = (s.heap p).freq := by
              rw [fH, setFreq_freq_other _ _ e]
            rcases hp with x | x
            · left
              refine ⟨?_, by rw [hfreq]; exact x.2⟩
              rw [fS]
              have := x.1
              rw [hS] at this
              rcases List.mem_append.1 this with y | y
              · exact y
              · exact absurd (List.mem_singleton.1 y) e
            · right
              refine ⟨by rw [hfreq]; exact x.1, ?_, by rw [fM]; exact x.2.2.1, ?_⟩
              · rw [fS]; intro y; exact x.2.1 (hsub p y)
              · rcases x.2.2.2 with y | y
                · rcases gF p y (by have := x.1; simp only; omega) with z | z
                  · exact Or.inl z
                  · right; intro r; rw [fK]; exact z r
                · right
                  intro r hr2
                  rw [fK] at hr2
                  exact y r (InsertG_table_sub hg _ hr2)
        · cases hr
        · cases hr

end Calls2
section Calls3
variable {Key Value : Type} [DecidableEq Key] {D : Key → Value}

theorem take_append_take (m : Nat) (a b : List Nat) :
    (a ++ b.take m).take m = (a ++ b).take m := by
  rw [List.take_append_eq_append_take, List.take_append_eq_append_take, List.take_take]
  congr 2
  omega

/-- The ghost queue after `InsertG`, when it was within its bound: the new entry in front,
cut to the bound. -/
theorem InsertG_ghost_eq {cfg : Config} {s s1 : State Key Value} {p : Nat}
    (hr : InsertG cfg s p = Run.ret s1) (hg : s._ghost_fifo.length ≤ cfg._main_fifo_size) :
    s1._ghost_fifo = (p :: s._ghost_fifo).take cfg._main_fifo_size := by
  have key : ∀ item, s._ghost_fifo.getLast? = some item →
      s._ghost_fifo.length ≥ cfg._main_fifo_size →
      p :: s._ghost_fifo.dropLast = (p :: s._ghost_fifo).take cfg._main_fifo_size := by
    intro item hitem hfull
    have hlen : (s._ghost_fifo.dropLast).length + 1 = s._ghost_fifo.length := by
      have := congrArg List.length (getLast?_split hitem)
      simp only [List.length_append, List.length_singleton] at this
      exact this.symm
    have hm : cfg._main_fifo_size = (s._ghost_fifo.length - 1) + 1 := by omega
    rw [hm, List.take_succ_cons, List.dropLast_eq_take]
  unfold InsertG at hr
  split at hr
  · rename_i hfull
    simp only [GhostIsFull, decide_eq_true_eq] at hfull
    split at hr
    · cases hr
    · rename_i item hitem
      by_cases hf : (s.heap item).freq < 0
      · simp only [hf, if_true, Run.ret.injEq] at hr
        subst hr
        exact key item hitem hfull
      · simp only [hf, if_false, Run.ret.injEq] at hr
        subst hr
        exact key item hitem hfull
  · rename_i hfull
    simp only [GhostIsFull, decide_eq_true_eq, not_le] at hfull
    simp only [Run.ret.injEq] at hr
    subst hr
    simp only [setFreq_ghost]
    rw [List.take_of_length_le]
    simp only [List.length_cons]
    omega

/-- What one call of `EvictS` does to the three queues: S is emptied, its entries with a
positive frequency are put in front of M in their order, and the others are put in front of G
in their order, G being cut to its bound. -/
theorem EvictS_result {cfg : Config} {pend} : ∀ (n : Nat) (s s1 : State Key Value),
    Inv D s pend → s._ghost_fifo.length ≤ cfg._main_fifo_size →
    EvictS cfg n s = Run.ret s1 →
    s1._small_fifo = [] ∧
    s1._main_fifo =
      s._small_fifo.filter (fun q => decide (0 < (s.heap q).freq)) ++ s._main_fifo ∧
    s1._ghost_fifo =
      (s._small_fifo.filter (fun q => decide ((s.heap q).freq ≤ 0)) ++ s._ghost_fifo).take
        cfg._main_fifo_size := by
  intro n
  induction n with
  | zero => intro s s1 _ _ hr; simp [EvictS] at hr
  | succ n ih =>
    intro s s1 h hg hr
    rw [EvictS_succ] at hr
    split at hr
    · rename_i hl
      cases hr
      have hS := List.getLast?_eq_none_iff.1 hl
      rw [hS]
      refine ⟨rfl, rfl, ?_⟩
      simp only [List.filter_nil, List.nil_append]
      exact (List.take_of_length_le hg).symm
    · rename_i tail hl
      have hS := getLast?_split hl
      obtain ⟨hn1, _, _⟩ := nodup_split_left hl h.sm_nodup
      split at hr
      · rename_i hf
        have h2 := h.promote hl
        obtain ⟨a, b, c⟩ := ih _ _ h2 (by simpa [InsertM] using hg) hr
        have hcong : ∀ x, x ∈ s._small_fifo.dropLast →
            ((InsertM { s with _small_fifo := s._small_fifo.dropLast } tail).heap x).freq =
              (s.heap x).freq := by
          intro x hx
          have e : x ≠ tail := fun e => hn1 (e ▸ hx)
          simp only [InsertM]; rw [setFreq_freq_other _ _ e]
        have f1 : (s._small_fifo.dropLast).filter (fun q => decide (0 <
            ((InsertM { s with _small_fifo := s._small_fifo.dropLast } tail).heap q).freq)) =
            (s._small_fifo.dropLast).filter (fun q => decide (0 < (s.heap q).freq)) :=
          List.filter_congr (fun x hx => by rw [hcong x hx])
        have f2 : (s._small_fifo.dropLast).filter (fun q => decide (
            ((InsertM { s with _small_fifo := s._small_fifo.dropLast } tail).heap q).freq ≤ 0)) =
            (s._small_fifo.dropLast).filter (fun q => decide ((s.heap q).freq ≤ 0)) :=
          List.filter_congr (fun x hx => by rw [hcong x hx])
        refine ⟨a, ?_, ?_⟩
        · rw [b]
          simp only [InsertM, setFreq_small, setFreq_main] at f1 ⊢
          rw [f1]
          conv_rhs => rw [hS]
          simp [List.filter_append, hf]
        · rw [c]
          simp only [InsertM, setFreq_small, setFreq_ghost] at f2 ⊢
          rw [f2]
          conv_rhs => rw [hS]
          have : ¬ (s.heap tail).freq ≤ 0 := by omega
          simp [List.filter_append, this]
      · rename_i hf
        split at hr
        · rename_i s2 hi
          have h2 := h.insertG hl hi
          obtain ⟨_, fS, fM, _⟩ := InsertG_frame hi
          have fH := InsertG_heap hi
          have fG := InsertG_ghost_eq hi hg
          obtain ⟨a, b, c⟩ := ih _ _ h2 (InsertG_ghost_len hi hg) hr
          have hcong : ∀ x, x ∈ s._small_fifo.dropLast → (s2.heap x).freq = (s.heap x).freq := by
            intro x hx
            have e : x ≠ tail := fun e => hn1 (e ▸ hx)
            rw [fH, setFreq_freq_other _ _ e]
          have f1 : (s._small_fifo.dropLast).filter (fun q => decide (0 < (s2.heap q).freq)) =
              (s._small_fifo.dropLast).filter (fun q => decide (0 < (s.heap q).freq)) :=
            List.filter_congr (fun x hx => by rw [hcong x hx])
          have f2 : (s._small_fifo.dropLast).filter (fun q => decide ((s2.heap q).freq ≤ 0)) =
              (s._small_fifo.dropLast).filter (fun q => decide ((s.heap q).freq ≤ 0)) :=
            List.filter_congr (fun x hx => by rw [hcong x hx])
          rw [fS] at b c
          rw [fM] at b
          rw [f1] at b
          rw [f2, fG] at c
          simp only at c
          refine ⟨a, ?_, ?_⟩
          · rw [b]
            conv_rhs => rw [hS]
            simp [List.filter_append, hf]
          · rw [c, take_append_take]
            conv_rhs => rw [hS]
            have : (s.heap tail).freq ≤ 0 := by omega
            simp [List.filter_append, this]
        · cases hr
        · cases hr

end Calls3
section Calls4
variable {Key Value : Type} [DecidableEq Key] {D : Key → Value}

theorem Reachable.ghost_len [Inhabited Key] [Inhabited Value] {cfg : Config}
    {s : State Key Value} (h : Reachable D cfg s) :
    s._ghost_fifo.length ≤ cfg._main_fifo_size := by
  induction h with
  | init => simp [State.init]
  | get _ hr ih => exact Get_ghost_len hr ih

/-- The ghost queue is within its bound in every state the cache passes through. -/
theorem Visited.ghost_within [Inhabited Key] [Inhabited Value] {cfg : Config}
    {s : State Key Value} (h : Visited D cfg s) :
    s._ghost_fifo.length ≤ cfg._main_fifo_size := by
  induction h with
  | idle hr => exact hr.ghost_len
  | cold hr _ => exact hr.ghost_len
  | ghost hr _ _ => exact hr.ghost_len
  | viaM _ _ _ he ih => rw [(EvictM_frame _ _ _ he).2.2.2]; exact ih
  | viaS _ _ _ he ih => exact EvictS_ghost_len _ _ _ he ih

theorem main_c11_run :
    (GetAll SquareCache.DoGetByKey (S3FifoCache 10 100) 20 State.init
      (calls [1, 2, 3, 4, 5, 6, 7, 8, 9, 10])).holds (fun s =>
      find s._table 11 = none ∧
      CallsEvictS (S3FifoCache 10 100)
        (coldState SquareCache.DoGetByKey (S3FifoCache 10 100) s 11 0) ∧
      (0 ∈ (coldState SquareCache.DoGetByKey (S3FifoCache 10 100) s 11 0)._small_fifo ∧
        ((coldState SquareCache.DoGetByKey (S3FifoCache 10 100) s 11 0).heap 0).freq = 0 ∧
        ((coldState SquareCache.DoGetByKey (S3FifoCache 10 100) s 11 0).heap 0).key = 1 ∧
        find (coldState SquareCache.DoGetByKey (S3FifoCache 10 100) s 11 0)._table 1 =
          some 0) ∧
      (EvictS (S3FifoCache 10 100) 20
        (coldState SquareCache.DoGetByKey (S3FifoCache 10 100) s 11 0)).holds
        (fun s1 => 0 ∉ s1._ghost_fifo ∧ find s1._table 1 = none ∧ Has s1 1 = false)) := by
  decide!

/-- C11, as stated, fails: on the cache of `main.cpp` (capacity 10, ghost bound 9) the call
`Get(11)` after `Get(1)`, ..., `Get(10)` is a cold miss whose `EnsureFree` calls `EvictS`. The
entry of key 1 (handle 0) is then in S with frequency 0. `EvictS` removes it from S and demotes
it, and goes on: the tenth demotion of the same call finds the ghost queue full and erases
key 1. When `EvictS` returns the entry is not in G and key 1 is not tracked. -/
theorem C11_demoted_then_erased : ∃ s s2 s1 : State Int Int,
    GetAll SquareCache.DoGetByKey (S3FifoCache 10 100) 20 State.init
      (calls [1, 2, 3, 4, 5, 6, 7, 8, 9, 10]) = Run.ret s ∧
    find s._table 11 = none ∧
    s2 = coldState SquareCache.DoGetByKey (S3FifoCache 10 100) s 11 0 ∧
    Visited SquareCache.DoGetByKey (S3FifoCache 10 100) s2 ∧
    CallsEvictS (S3FifoCache 10 100) s2 ∧
    0 ∈ s2._small_fifo ∧ (s2.heap 0).freq = 0 ∧ (s2.heap 0).key = 1 ∧
    find s2._table 1 = some 0 ∧
    EvictS (S3FifoCache 10 100) 20 s2 = Run.ret s1 ∧
    0 ∉ s1._ghost_fifo ∧ find s1._table 1 = none ∧ Has s1 1 = false := by
  obtain ⟨s, hs, a1, a2, ⟨a3, a4, a5, a6⟩, hb⟩ := Run.holds_elim main_c11_run
  obtain ⟨s1, hs1, b1, b2, b3⟩ := Run.holds_elim hb
  exact ⟨s, _, s1, hs, a1, rfl, Visited.cold (main_reachable _ _ hs) a1, a2, a3, a4, a5, a6,
    hs1, b1, b2, b3⟩

/-- C11, amended: on every state the cache passes through (every state on which `EvictS` is
called), `EvictS` returns, and every entry `p` that it removes from S while its frequency is 0
has been demoted when `EvictS` returns: its frequency is `-1` and it is in neither S nor M. It
is then either held in G and still tracked in `_table` under its key, or later demotions of the
same call have pushed it out of the full ghost queue and its key is no longer tracked. Which
entries are held: G is the demoted entries of S in their order, followed by the old G, cut to
`main_size`. -/
theorem C11_demotion [Inhabited Key] [Inhabited Value] (c : Nat) (ttl : Int)
    (s : State Key Value) (h : Visited D (S3FifoCache c ttl) s) :
    (∃ N, ∀ fuel, N ≤ fuel → ∃ s1, EvictS (S3FifoCache c ttl) fuel s = Run.ret s1) ∧
    ∀ fuel s1, EvictS (S3FifoCache c ttl) fuel s = Run.ret s1 →
      s1._ghost_fifo =
        (s._small_fifo.filter (fun q => decide ((s.heap q).freq ≤ 0)) ++ s._ghost_fifo).take
          (c - roundSmall c) ∧
      ∀ p, p ∈ s._small_fifo → (s.heap p).freq = 0 →
        (s1.heap p).freq = -1 ∧ p ∉ s1._small_fifo ∧ p ∉ s1._main_fifo ∧
        ((p ∈ s1._ghost_fifo ∧ find s1._table (s.heap p).key = some p ∧
            Has s1 (s.heap p).key = true) ∨
          (p ∉ s1._ghost_fifo ∧ find s1._table (s.heap p).key = none ∧
            Has s1 (s.heap p).key = false)) := by
  refine ⟨h.evictS_returns, ?_⟩
  intro fuel s1 hr
  obtain ⟨pend, hi⟩ := h.inv_pending
  have h1 := EvictS_inv _ _ _ hi hr
  refine ⟨(EvictS_result _ _ _ hi h.ghost_within hr).2.2, ?_⟩
  intro p hp hf
  obtain ⟨a, b, c, d⟩ := EvictS_demoted _ _ _ hi hr p (Or.inl ⟨hp, by omega⟩)
  have hk := EvictS_key _ _ _ hr p
  refine ⟨a, b, c, ?_⟩
  by_cases hg : p ∈ s1._ghost_fifo
  · left
    have ht := mem_find_of_nodup h1.keys_nodup (h1.g_live p hg (by omega))
    rw [hk] at ht
    exact ⟨hg, ht, by simp only [Has, ht, Option.isSome_some]⟩
  · right
    have hnone : find s1._table (s.heap p).key = none := by
      rcases d with x | x
      · exact absurd x hg
      · rw [hk] at x; exact find_eq_none_iff.2 x
    exact ⟨hg, hnone, by simp only [Has, hnone, Option.isSome_none]⟩

theorem main_c11w_run :
    (GetAll SquareCache.DoGetByKey (S3FifoCache 10 100) 20 State.init
      (calls [1, 2, 3, 4, 5, 6, 7, 8, 9, 10])).holds (fun s =>
      find s._table 11 = none ∧
      9 ∈ (coldState SquareCache.DoGetByKey (S3FifoCache 10 100) s 11 0)._small_fifo ∧
      ((coldState SquareCache.DoGetByKey (S3FifoCache 10 100) s 11 0).heap 9).freq = 0 ∧
      (EvictS (S3FifoCache 10 100) 20
        (coldState SquareCache.DoGetByKey (S3FifoCache 10 100) s 11 0)).holds
        (fun s1 => 9 ∈ s1._ghost_fifo)) := by
  decide!

/-- C11, amended, at the call of `EvictS` inside `Get(11)` of `main.cpp`, for the entry of
key 10 (handle 9), which is demoted last. -/
theorem C11_demotion_witness : ∃ s s2 s1 : State Int Int,
    GetAll SquareCache.DoGetByKey (S3FifoCache 10 100) 20 State.init
      (calls [1, 2, 3, 4, 5, 6, 7, 8, 9, 10]) = Run.ret s ∧
    s2 = coldState SquareCache.DoGetByKey (S3FifoCache 10 100) s 11 0 ∧
    EvictS (S3FifoCache 10 100) 20 s2 = Run.ret s1 ∧
    9 ∈ s2._small_fifo ∧ (s2.heap 9).freq = 0 ∧
    ((s1.heap 9).freq = -1 ∧ 9 ∉ s1._small_fifo ∧ 9 ∉ s1._main_fifo ∧
      ((9 ∈ s1._ghost_fifo ∧ find s1._table (s2.heap 9).key = some 9 ∧
          Has s1 (s2.heap 9).key = true) ∨
        (9 ∉ s1._ghost_fifo ∧ find s1._table (s2.heap 9).key = none ∧
          Has s1 (s2.heap 9).key = false))) := by
  obtain ⟨s, hs, a1, a2, a3, hb⟩ := Run.holds_elim main_c11w_run
  obtain ⟨s1, hs1, _⟩ := Run.holds_elim hb
  exact ⟨s, _, s1, hs, rfl, hs1, a2, a3,
    ((C11_demotion 10 100 _ (Visited.cold (main_reachable _ _ hs) a1)).2 20 s1 hs1).2 9 a2 a3⟩

theorem main_c17_run :
    (GetAll SquareCache.DoGetByKey (S3FifoCache 10 100) 20 State.init
      (calls [1, 2, 3, 4, 5, 6, 7, 8, 9, 10])).holds (fun s =>
      find s._table 11 = none ∧
      CallsEvictS (S3FifoCache 10 100)
        (coldState SquareCache.DoGetByKey (S3FifoCache 10 100) s 11 0) ∧
      (coldState SquareCache.DoGetByKey (S3FifoCache 10 100) s 11 0)._small_fifo =
        [9, 8, 7, 6, 5, 4, 3, 2, 1, 0] ∧
      (EvictS (S3FifoCache 10 100) 20
        (coldState SquareCache.DoGetByKey (S3FifoCache 10 100) s 11 0)).holds
        (fun s1 => s1._small_fifo = [] ∧ s1._ghost_fifo = [9, 8, 7, 6, 5, 4, 3, 2, 1])) := by
  decide!

/-- C17, as stated, fails: on the cache of `main.cpp` (capacity 10) the call `Get(11)` after
`Get(1)`, ..., `Get(10)` is a cold miss whose `EnsureFree` calls `EvictS` on a state in which S
holds the `n = 10` entries `[9, ..., 0]` (front first, tail 0). This one call does not leave
the other nine entries `[9, ..., 1]` in S: it removes all ten and returns with S empty. -/
theorem C17_evictS_drains : ∃ s s2 s1 : State Int Int,
    GetAll SquareCache.DoGetByKey (S3FifoCache 10 100) 20 State.init
      (calls [1, 2, 3, 4, 5, 6, 7, 8, 9, 10]) = Run.ret s ∧
    find s._table 11 = none ∧
    s2 = coldState SquareCache.DoGetByKey (S3FifoCache 10 100) s 11 0 ∧
    Visited SquareCache.DoGetByKey (S3FifoCache 10 100) s2 ∧
    CallsEvictS (S3FifoCache 10 100) s2 ∧
    s2._small_fifo = [9, 8, 7, 6, 5, 4, 3, 2, 1, 0] ∧
    EvictS (S3FifoCache 10 100) 20 s2 = Run.ret s1 ∧
    s1._small_fifo = [] ∧ s1._small_fifo ≠ s2._small_fifo.dropLast ∧
    s1._ghost_fifo = [9, 8, 7, 6, 5, 4, 3, 2, 1] := by
  obtain ⟨s, hs, a1, a2, a3, hb⟩ := Run.holds_elim main_c17_run
  obtain ⟨s1, hs1, b1, b2⟩ := Run.holds_elim hb
  exact ⟨s, _, s1, hs, a1, rfl, Visited.cold (main_reachable _ _ hs) a1, a2, a3, hs1, b1,
    by rw [b1, a3]; decide, b2⟩

/-- C17, amended: on every state the cache passes through (every state on which `EvictS` is
called), whatever number `n` of entries S holds, one call of `EvictS` returns and removes all
`n` entries of S, not only the tail: S is empty when it returns; the entries whose frequency
was `> 0` are in front of M in the order they had in S, the others are in front of G in the
order they had in S, G being cut to `main_size`. -/
theorem C17_evictS_empties [Inhabited Key] [Inhabited Value] (c : Nat) (ttl : Int)
    (s : State Key Value) (h : Visited D (S3FifoCache c ttl) s) :
    (∃ N, ∀ fuel, N ≤ fuel → ∃ s1, EvictS (S3FifoCache c ttl) fuel s = Run.ret s1) ∧
    ∀ fuel s1, EvictS (S3FifoCache c ttl) fuel s = Run.ret s1 →
      s1._small_fifo = [] ∧
      s1._main_fifo =
        s._small_fifo.filter (fun q => decide (0 < (s.heap q).freq)) ++ s._main_fifo ∧
      s1._ghost_fifo =
        (s._small_fifo.filter (fun q => decide ((s.heap q).freq ≤ 0)) ++ s._ghost_fifo).take
          (c - roundSmall c) := by
  refine ⟨h.evictS_returns, ?_⟩
  intro fuel s1 hr
  obtain ⟨pend, hi⟩ := h.inv_pending
  exact EvictS_result _ _ _ hi h.ghost_within hr

theorem main_c17w_run :
    (GetAll SquareCache.DoGetByKey (S3FifoCache 10 100) 20 State.init
      (calls [1, 1, 2, 3, 4, 5, 6, 7, 8, 9, 10])).holds (fun s =>
      find s._table 11 = none ∧
      CallsEvictS (S3FifoCache 10 100)
        (coldState SquareCache.DoGetByKey (S3FifoCache 10 100) s 11 0) ∧
      (EvictS (S3FifoCache 10 100) 20
        (coldState SquareCache.DoGetByKey (S3FifoCache 10 100) s 11 0)).holds
        (fun s1 => s1._main_fifo = [0] ∧ s1._ghost_fifo = [9, 8, 7, 6, 5, 4, 3, 2, 1])) := by
  decide!

/-- C17, amended, at the call of `EvictS` inside `Get(11)` on the cache of `main.cpp` after
`Get(1)`, `Get(1)`, `Get(2)`, ..., `Get(10)`: one entry is promoted, nine are demoted. -/
theorem C17_evictS_empties_witness : ∃ s s2 s1 : State Int Int,
    GetAll SquareCache.DoGetByKey (S3FifoCache 10 100) 20 State.init
      (calls [1, 1, 2, 3, 4, 5, 6, 7, 8, 9, 10]) = Run.ret s ∧
    s2 = coldState SquareCache.DoGetByKey (S3FifoCache 10 100) s 11 0 ∧
    CallsEvictS (S3FifoCache 10 100) s2 ∧
    EvictS (S3FifoCache 10 100) 20 s2 = Run.ret s1 ∧
    (s1._small_fifo = [] ∧
      s1._main_fifo =
        s2._small_fifo.filter (fun q => decide (0 < (s2.heap q).freq)) ++ s2._main_fifo ∧
      s1._ghost_fifo =
        (s2._small_fifo.filter (fun q => decide ((s2.heap q).freq ≤ 0)) ++
          s2._ghost_fifo).take (10 - roundSmall 10)) := by
  obtain ⟨s, hs, a1, a2, hb⟩ := Run.holds_elim main_c17w_run
  obtain ⟨s1, hs1, _⟩ := Run.holds_elim hb
  exact ⟨s, _, s1, hs, rfl, a2, hs1,
    (C17_evictS_empties 10 100 _ (Visited.cold (main_reachable _ _ hs) a1)).2 20 s1 hs1⟩

end Calls4
end cache
